import Mathlib

/-!
# k-nearest-neighbour classifier: embedding and verification

Shallow embedding of `src/src/data.cc` (class `data`),
`src/K-NN/include/knn.cc` (class `KNN`) and `src/src/data_handler.cc` (the methods
`split_data`, `count_classes` and `normalize` of class `data_handler`).

Conventions of the embedding:

* `float` and `double` values are exact rationals (`ℚ`); there is no rounding, no
  infinity and no NaN.
* `int` values are integers of `ℤ`; conversions to `int` and increments of the `int`
  counter `correct` go through `wrap_int32` (two's complement, 32 bits).
* `data*` elements of the `std::vector<data*>` members are the records themselves,
  so a vector of pointers is a `List data`.
* a `std::unique_ptr` that may be null is an `Option`; dereferencing a null pointer
  or reading a vector past its end makes the enclosing function return `none`.
* what the C++ standard library leaves open (the value of `std::sqrt`, the order
  `std::sort` gives to equivalent elements, the iteration order of
  `std::unordered_map`) is a field of `StdLib`; the contracts the standard
  gives are the predicates `StdLib.SortContract` and `StdLib.IterationContract`.
* the effect of `std::shuffle` is a parameter of `split_data`; the loops of
  `normalize` under `#pragma omp parallel for` run in sequence.

The file has three parts: the definitions, the lemmas, and the claims.
-/

/-! # Part I: definitions -/

/-! ## Machine integers -/

/-- Value of an integer after conversion to a 32-bit two's complement `int`. -/
def wrap_int32 (x : Int) : Int :=
  let m := x % 4294967296
  if m < 2147483648 then m else m - 4294967296

/-- Largest value of a 32-bit `int`. -/
def INT_MAX : Nat := 2147483647

/-- The C++ `static_cast<int>(n)` of a `size_t` value `n`. -/
def static_cast_int (n : Nat) : Int := wrap_int32 (n : Int)

/-! ## `data` (src/include/data.hpp, src/src/data.cc) -/

/-- The record class `data`: the raw bytes, the normalized vector (null until it is
set), the one-hot class vector (null until it is set), the raw label, the enumerated
label and the distance field. -/
structure data where
  feature_vector : List Nat
  normalized_feature_vector : Option (List ℚ)
  class_vector : Option (List Int)
  label : Nat
  enum_label : Int
  distance : ℚ
deriving DecidableEq

namespace data

/-- The getter `data::get_normalized_feature_vector`: dereferences the pointer. -/
def get_normalized_feature_vector (self : data) : Option (List ℚ) :=
  self.normalized_feature_vector

/-- The getter `data::get_enumerated_label`: the return type is `uint8_t`, so the
`int` field `enum_label` is reduced modulo 256. -/
def get_enumerated_label (self : data) : Nat :=
  (self.enum_label % 256).toNat

end data

/-! ## The standard library -/

/-- What `knn.cc` takes from the C++ standard library. -/
structure StdLib where
  /-- The function `std::sqrt` on `double`. -/
  sqrt : ℚ → ℚ
  /-- The call `std::sort(first, last, comp)` on a vector of (distance, record) pairs:
  the content of the vector after the call. -/
  sort : (ℚ × data → ℚ × data → Bool) → List (ℚ × data) → List (ℚ × data)
  /-- The order in which a range-for loop visits the entries of a
  `std::unordered_map<int, int>`, given the entries in order of first insertion. -/
  iteration : List (Int × Int) → List (Int × Int)

/-- The comparator passed to `std::sort` in `find_k_nearest_neighbors`:
`a.first < b.first`. -/
def distance_less (a b : ℚ × data) : Bool := decide (a.1 < b.1)

/-- The contract of `std::sort` for the comparator `distance_less`: the vector is
permuted, and afterwards no element is less than an element before it. -/
def StdLib.SortContract (L : StdLib) : Prop :=
  ∀ l : List (ℚ × data),
    (L.sort distance_less l).Perm l ∧
    (L.sort distance_less l).Pairwise (fun a b => distance_less b a = false)

/-- The contract of iterating over a `std::unordered_map`: every entry is visited
exactly once, in an order the standard does not fix. -/
def StdLib.IterationContract (L : StdLib) : Prop :=
  ∀ m : List (Int × Int), (L.iteration m).Perm m

/-! ## `KNN` (src/K-NN/include/knn.hpp, src/K-NN/include/knn.cc) -/

/-- The members of class `KNN`. -/
structure KNN where
  k : Int
  neighbors : List data
  trainingData : List data
  testDataSet : List data
  validationDataSet : List data
deriving DecidableEq

/-- What `validate` and `test` write to the standard streams. -/
inductive Diagnostic where
  | cerr (text : String)
  | cout_accuracy (text : String) (percent : ℚ)
deriving DecidableEq

namespace KNN

/-- The loop of `calculate_distance`: `remaining` iterations are left, `i` is the
loop index and `sum` the accumulator. -/
def distance_loop (query_features input_features : List ℚ) : Nat → Nat → ℚ → Option ℚ
  | 0, _, sum => some sum
  | remaining + 1, i, sum => do
    let q ← query_features[i]?
    let x ← input_features[i]?
    let diff := q - x
    distance_loop query_features input_features remaining (i + 1) (sum + diff * diff)

/-- The method `KNN::calculate_distance`. -/
def calculate_distance (L : StdLib) (query_point input : data) : Option ℚ := do
  let query_features ← query_point.get_normalized_feature_vector
  let input_features ← input.get_normalized_feature_vector
  let size := query_features.length
  let sum ← distance_loop query_features input_features size 0 0
  pure (L.sqrt sum)

/-- First loop of `find_k_nearest_neighbors`: the (distance, record) pair of every
training record, in the order of the training vector. -/
def distance_vector (L : StdLib) (query_point : data) : List data → Option (List (ℚ × data))
  | [] => some []
  | train_ptr :: rest => do
    let dist ← calculate_distance L query_point train_ptr
    let tail ← distance_vector L query_point rest
    pure ((dist, train_ptr) :: tail)

/-- Last loop of `find_k_nearest_neighbors`:
`for (int i = 0; i < k && i < size; ++i) neighbors.push_back(distance_vector[i].second)`,
started at index `i` with the elements from index `i` on. -/
def select_neighbors (k size : Int) : Nat → List (ℚ × data) → List data
  | _, [] => []
  | i, p :: rest =>
    if (i : Int) < k ∧ (i : Int) < size then p.2 :: select_neighbors k size (i + 1) rest
    else []

/-- The constructor `KNN::KNN(int k_val)`. -/
def init (k_val : Int) : KNN :=
  { k := k_val, neighbors := [], trainingData := [], testDataSet := [], validationDataSet := [] }

/-- The default constructor `KNN::KNN()`, with `k = 3`. -/
def init_default : KNN := init 3

/-- The setter `KNN::set_k`. -/
def set_k (self : KNN) (val : Int) : KNN := { self with k := val }

/-- The setter `KNN::set_training_data`: the training vector is cleared and refilled
with the records of `vect`. -/
def set_training_data (self : KNN) (vect : List data) : KNN := { self with trainingData := vect }

/-- The setter `KNN::set_test_data`. -/
def set_test_data (self : KNN) (vect : List data) : KNN := { self with testDataSet := vect }

/-- The setter `KNN::set_validation_data`. -/
def set_validation_data (self : KNN) (vect : List data) : KNN :=
  { self with validationDataSet := vect }

/-- The method `KNN::find_k_nearest_neighbors`: `neighbors` is cleared, the distance
vector is filled and sorted, and the records of its first entries become the
neighbours. -/
def find_k_nearest_neighbors (L : StdLib) (self : KNN) (query_point : data) : Option KNN := do
  let dv ← distance_vector L query_point self.trainingData
  let sorted := L.sort distance_less dv
  pure { self with
    neighbors := select_neighbors self.k (static_cast_int sorted.length) 0 sorted }

/-- The statement `vote_map[label]++` on the entries of the map in order of first
insertion: a new key starts at 0 and is incremented. A count never exceeds the number
of neighbours, which is at most `INT_MAX`, so the increment does not overflow. -/
def vote_increment : List (Int × Int) → Int → List (Int × Int)
  | [], label => [(label, 1)]
  | (key, votes) :: rest, label =>
    if key = label then (key, votes + 1) :: rest
    else (key, votes) :: vote_increment rest label

/-- The voting loop of `predict`. -/
def vote_map (neighbors : List data) : List (Int × Int) :=
  neighbors.foldl (fun m neighbor_ptr => vote_increment m (neighbor_ptr.get_enumerated_label : Int)) []

/-- The maximum loop of `predict` over the entries in iteration order. -/
def max_votes_loop : List (Int × Int) → Int → Int → Int
  | [], predicted_label, _ => predicted_label
  | pair :: rest, predicted_label, max_votes =>
    if pair.2 > max_votes then max_votes_loop rest pair.1 pair.2
    else max_votes_loop rest predicted_label max_votes

/-- The method `KNN::predict`: the predicted label and the object afterwards. -/
def predict (L : StdLib) (self : KNN) (query_point : data) : Option (Int × KNN) := do
  let self1 ← find_k_nearest_neighbors L self query_point
  pure (max_votes_loop (L.iteration (vote_map self1.neighbors)) (-1) (-1), self1)

/-- The counting loop of `validate` and `test` over the remaining queries. -/
def count_correct (L : StdLib) : KNN → List data → Int → Option (Int × KNN)
  | self, [], correct => some (correct, self)
  | self, query_ptr :: rest, correct => do
    let r ← predict L self query_ptr
    if r.1 = (query_ptr.get_enumerated_label : Int) then
      count_correct L r.2 rest (wrap_int32 (correct + 1))
    else
      count_correct L r.2 rest correct

/-- The method `KNN::validate`: the returned accuracy, the stream output and the
object afterwards. -/
def validate (L : StdLib) (self : KNN) : Option (ℚ × List Diagnostic × KNN) :=
  if self.validationDataSet.isEmpty then
    some (0, [Diagnostic.cerr "Validation dataset is empty."], self)
  else do
    let r ← count_correct L self self.validationDataSet 0
    let accuracy : ℚ := (r.1 : ℚ) / (self.validationDataSet.length : ℚ)
    pure (accuracy, [Diagnostic.cout_accuracy "Validation Accuracy: " (accuracy * 100)], r.2)

/-- The method `KNN::test`: the returned accuracy, the stream output and the object
afterwards. -/
def test (L : StdLib) (self : KNN) : Option (ℚ × List Diagnostic × KNN) :=
  if self.testDataSet.isEmpty then
    some (0, [Diagnostic.cerr "Test dataset is empty."], self)
  else do
    let r ← count_correct L self self.testDataSet 0
    let accuracy : ℚ := (r.1 : ℚ) / (self.testDataSet.length : ℚ)
    pure (accuracy, [Diagnostic.cout_accuracy "Test Accuracy: " (accuracy * 100)], r.2)

end KNN

/-! ## `validate` and `test` as one evaluation -/

/-- The two query partitions that `KNN` evaluates. -/
inductive Partition where
  | validation
  | test
deriving DecidableEq

namespace Partition

/-- The query records of the partition. -/
def queries (p : Partition) (self : KNN) : List data :=
  match p with
  | validation => self.validationDataSet
  | test => self.testDataSet

/-- The evaluation method of the partition: `KNN::validate` or `KNN::test`. -/
def evaluate (p : Partition) (L : StdLib) (self : KNN) : Option (ℚ × List Diagnostic × KNN) :=
  match p with
  | validation => KNN.validate L self
  | test => KNN.test L self

/-- The line written to `std::cerr` when the partition is empty. -/
def empty_message (p : Partition) : String :=
  match p with
  | validation => "Validation dataset is empty."
  | test => "Test dataset is empty."

/-- The text that precedes the accuracy on `std::cout`. -/
def accuracy_message (p : Partition) : String :=
  match p with
  | validation => "Validation Accuracy: "
  | test => "Test Accuracy: "

end Partition

/-! ## Preconditions and measures -/

/-- The query and the record both have a normalized vector, and the two vectors have
the same length. -/
def same_dimension (query_point input : data) : Prop :=
  match query_point.normalized_feature_vector, input.normalized_feature_vector with
  | some qv, some xv => xv.length = qv.length
  | _, _ => False

instance (query_point input : data) : Decidable (same_dimension query_point input) := by
  unfold same_dimension
  split <;> infer_instance

namespace KNN

/-- Number of neighbours that `find_k_nearest_neighbors` selects from a sorted
distance vector of the given length. -/
def selected_count (k : Int) (length : Nat) : Nat :=
  (min k (static_cast_int length)).toNat

end KNN

/-- The enumerated labels of the neighbours, as the `int` keys of `vote_map`. -/
def neighbor_labels (neighbors : List data) : List Int :=
  neighbors.map (fun neighbor_ptr => (neighbor_ptr.get_enumerated_label : Int))

/-- Number of neighbours whose enumerated label is `label`. -/
def vote_count (neighbors : List data) (label : Int) : Nat :=
  (neighbor_labels neighbors).count label

namespace KNN

/-- The invariant of the voting loop after the labels `seen`: the keys of the map are
distinct, every entry holds the number of occurrences of its key, which is at least
one, and every label seen is a key. -/
def VoteInvariant (m : List (Int × Int)) (seen : List Int) : Prop :=
  (m.map Prod.fst).Nodup ∧
  (∀ p ∈ m, p.2 = (seen.count p.1 : Int) ∧ 1 ≤ p.2) ∧
  (∀ label ∈ seen, label ∈ m.map Prod.fst)

end KNN

/-- The label that `predict` returns for a query, when it returns. -/
def predicted_label (L : StdLib) (self : KNN) (query_point : data) : Option Int :=
  (KNN.predict L self query_point).map Prod.fst

/-- Number of queries whose predicted label is their own enumerated label. -/
def correct_predictions (L : StdLib) (self : KNN) (queries : List data) : Nat :=
  queries.countP (fun query_ptr =>
    decide (predicted_label L self query_ptr = some (query_ptr.get_enumerated_label : Int)))

/-! ## A conforming `std::sort`: the introsort of libstdc++, without its heapsort fallback -/

namespace introsort

variable {α : Type}

/-- `std::iter_swap` on the positions `i` and `j`. -/
def iter_swap (l : List α) (i j : Nat) : List α :=
  match l[i]?, l[j]? with
  | some a, some b => (l.set i b).set j a
  | _, _ => l

/-- `std::__move_median_to_first(result, a, b, c, comp)`. -/
def move_median_to_first (comp : α → α → Bool) (l : List α) (result a b c : Nat) : List α :=
  match l[a]?, l[b]?, l[c]? with
  | some va, some vb, some vc =>
    if comp va vb then
      if comp vb vc then iter_swap l result b
      else if comp va vc then iter_swap l result c
      else iter_swap l result a
    else if comp va vc then iter_swap l result a
    else if comp vb vc then iter_swap l result c
    else iter_swap l result b
  | _, _, _ => l

/-- `while (comp(first, pivot)) ++first;` -/
def scan_forward (comp : α → α → Bool) (l : List α) (pivot : α) : Nat → Nat → Nat
  | 0, first => first
  | fuel + 1, first =>
    match l[first]? with
    | some x => if comp x pivot then scan_forward comp l pivot fuel (first + 1) else first
    | none => first

/-- `while (comp(pivot, last)) --last;` -/
def scan_backward (comp : α → α → Bool) (l : List α) (pivot : α) : Nat → Nat → Nat
  | 0, last => last
  | fuel + 1, last =>
    match l[last]? with
    | some x => if comp pivot x then scan_backward comp l pivot fuel (last - 1) else last
    | none => last

/-- `std::__unguarded_partition(first, last, pivot, comp)`: the vector and the cut. -/
def unguarded_partition (comp : α → α → Bool) (pivot : Nat) :
    Nat → List α → Nat → Nat → List α × Nat
  | 0, l, first, _ => (l, first)
  | fuel + 1, l, first, last =>
    match l[pivot]? with
    | none => (l, first)
    | some pv =>
      let first1 := scan_forward comp l pv l.length first
      let last1 := scan_backward comp l pv l.length (last - 1)
      if first1 < last1 then
        unguarded_partition comp pivot fuel (iter_swap l first1 last1) (first1 + 1) last1
      else (l, first1)

/-- `std::__introsort_loop(first, last, depth_limit, comp)`: ranges of more than 16
elements are partitioned around the median of three, the upper part is handled by the
recursive call and the lower part by the next turn of the loop. Where libstdc++ falls
back to heapsort, at depth limit 0, the range is left as it is. -/
def introsort_loop (comp : α → α → Bool) : Nat → List α → Nat → Nat → List α
  | 0, l, _, _ => l
  | depth_limit + 1, l, first, last =>
    if last - first > 16 then
      let l1 := move_median_to_first comp l first (first + 1) (first + (last - first) / 2) (last - 1)
      let r := unguarded_partition comp first l1.length l1 (first + 1) last
      let l2 := introsort_loop comp depth_limit r.1 r.2 last
      introsort_loop comp depth_limit l2 first r.2
    else l

/-- The loop of `std::__lg`. -/
def lg_loop : Nat → Nat → Nat
  | 0, _ => 0
  | fuel + 1, n => if 2 ≤ n then lg_loop fuel (n / 2) + 1 else 0

/-- `std::__lg(n)`: the position of the highest set bit of `n`. -/
def lg (n : Nat) : Nat := lg_loop n n

/-- `std::sort(first, last, comp)` in the manner of libstdc++: the introsort loop with
the depth limit `2 * lg(n)`, then an insertion sort over the whole range. The result
is sorted whatever the introsort loop did; among equivalent elements the order is the
one the partitioning leaves. -/
def sort (comp : α → α → Bool) (l : List α) : List α :=
  List.insertionSort (fun a b => comp b a = false)
    (introsort_loop comp (2 * lg l.length) l 0 l.length)

end introsort

/-! ## Standard libraries -/

/-- A standard library in the manner of libstdc++: `std::sort` is `introsort.sort`, and
the entries of an `unordered_map` are visited most recent first, which is what linking
each new node at the front of the element list gives for keys in distinct buckets.
The square root is the rational one, exact on squares. -/
def libstdcxx : StdLib where
  sqrt := Rat.sqrt
  sort := fun comp l => introsort.sort comp l
  iteration := List.reverse

/-- A stable sort: insertion sort, which keeps elements that compare equivalent in
their original order. -/
def stable_sort (comp : ℚ × data → ℚ × data → Bool) (l : List (ℚ × data)) : List (ℚ × data) :=
  List.insertionSort (fun a b => comp b a = false) l

/-- The standard library `L` with `std::sort` replaced by a stable sort. -/
def StdLib.with_stable_sort (L : StdLib) : StdLib :=
  { L with sort := stable_sort }

/-! ## Concrete classifiers -/

/-- A record with the normalized vector `[0]` and the labels `i`. -/
def tied_record (i : Nat) : data :=
  { feature_vector := [], normalized_feature_vector := some [0], class_vector := none,
    label := i, enum_label := (i : Int), distance := 0 }

/-- Seventeen records, all with the normalized vector `[0]`, told apart by their labels. -/
def tied_training : List data := (List.range 17).map tied_record

/-- A query with the normalized vector `[0]`. -/
def tied_query : data :=
  { feature_vector := [], normalized_feature_vector := some [0], class_vector := none,
    label := 0, enum_label := 0, distance := 0 }

/-- A record with the given normalized vector and enumerated label. -/
def sample_record (v : List ℚ) (lbl : Int) : data :=
  { feature_vector := [], normalized_feature_vector := some v, class_vector := none,
    label := 0, enum_label := lbl, distance := 0 }

/-- A classifier with `k = 2` and three training records in the plane. -/
def sample_knn : KNN :=
  { k := 2, neighbors := [],
    trainingData := [sample_record [3, 4] 1, sample_record [0, 0] 0, sample_record [1, 0] 0],
    testDataSet := [sample_record [0, 1] 0],
    validationDataSet := [sample_record [3, 3] 1, sample_record [1, 1] 1] }

/-- A query in the plane. -/
def sample_query : data := sample_record [0, 0] 0

/-- Four training records on a line, with the enumerated labels 1, 1, 2, 2, and `k = 4`. -/
def vote_knn : KNN :=
  { k := 4, neighbors := [],
    trainingData := [sample_record [0] 1, sample_record [1] 1, sample_record [2] 2,
      sample_record [3] 2],
    testDataSet := [], validationDataSet := [] }

/-- The query at the origin of the line. -/
def vote_query : data := sample_record [0] 0

/-! ## The Euclidean distance, as the spec words it -/

/-- The sum over the positions `i` of `(a[i] - b[i])^2`, over the positions that both
vectors have. -/
def squared_distance (a b : List ℚ) : ℚ :=
  (List.zipWith (fun x y => (x - y) ^ 2) a b).sum

/-- A record with an empty normalized vector. -/
def empty_vector_record : data := sample_record [] 0

/-- A record with two coordinates. -/
def short_record : data := sample_record [1, 2] 0

/-- A record with three coordinates, the first two those of `short_record`. -/
def long_record : data := sample_record [1, 2, 3] 0

/-! ## A strictly increasing square root -/

/-- A square root on the rationals: exact at the squares of the natural numbers and
linear between two consecutive squares. -/
def interpolated_sqrt (x : ℚ) : ℚ :=
  (Nat.sqrt ⌊x⌋₊ : ℚ) + (x - (Nat.sqrt ⌊x⌋₊ : ℚ) ^ 2) / (2 * (Nat.sqrt ⌊x⌋₊ : ℚ) + 1)

/-- The library `libstdcxx` with the interpolated square root. -/
def interpolating_library : StdLib :=
  { libstdcxx with sqrt := interpolated_sqrt }

/-! ## Four points in the plane -/

/-- The reference set `(0,0) -> A`, `(0,1) -> A`, `(10,10) -> B`, `(10,11) -> B`. -/
def geometry_training (A B : Int) : List data :=
  [sample_record [0, 0] A, sample_record [0, 1] A, sample_record [10, 10] B,
    sample_record [10, 11] B]

/-- The classifier with `k = 1` over the four points, with the four points as test and
as validation partition. -/
def geometry_knn (A B : Int) : KNN :=
  { k := 1, neighbors := [], trainingData := geometry_training A B,
    testDataSet := geometry_training A B, validationDataSet := geometry_training A B }

/-- The query `(10, 10.5)`. -/
def geometry_query : data := sample_record [10, 21 / 2] 0

/-! ## `data`: the setters that `data_handler` uses (src/src/data.cc) -/

namespace data

/-- The getter `data::get_label`: the field is a `uint8_t`. -/
def get_label (self : data) : Nat := self.label % 256

/-- The setter `data::set_enumerated_label`. -/
def set_enumerated_label (self : data) (lbl : Int) : data := { self with enum_label := lbl }

/-- The setter `data::set_class_vector`: a vector of `class_counts` zeros, then the
bounds-checked write `class_vector->at(enum_label) = 1`. Both numbers are converted to
`size_t`; a negative count and an index outside the vector throw, which is `none`. -/
def set_class_vector (self : data) (class_counts : Int) : Option data :=
  if class_counts < 0 then none
  else if 0 ≤ self.enum_label ∧ self.enum_label < class_counts then
    some { self with
      class_vector := some ((List.replicate class_counts.toNat (0 : Int)).set
        self.enum_label.toNat 1) }
  else none

/-- The getter `data::get_feature_vector`. -/
def get_feature_vector (self : data) : List Nat := self.feature_vector

/-- The setter `data::set_normalized_feature_vector`. -/
def set_normalized_feature_vector (self : data) (vect : List ℚ) : data :=
  { self with normalized_feature_vector := some vect }

end data

/-! ## `data_handler` (src/include/data_handler.hpp, src/src/data_handler.cc) -/

/-- The members of class `data_handler` that `count_classes`, `split_data` and
`normalize` use. A `std::unique_ptr<data>` in a vector is the record itself;
`classFromInt` holds the entries of the `std::map<uint8_t, int>` in order of insertion. -/
structure data_handler where
  data_array : List data
  training_data : List data
  test_data : List data
  validation_data : List data
  class_counts : Int
  feature_vector_size : Int
  classFromInt : List (Nat × Int)
deriving DecidableEq

/-- What `data_handler` writes to the standard streams. -/
inductive HandlerOutput where
  | cerr (text : String)
  | cout (text : String)
deriving DecidableEq

namespace data_handler

/-- The constant `TRAIN_SET_PERCENT = 0.75`. -/
def TRAIN_SET_PERCENT : ℚ := 3 / 4

/-- The constant `TEST_SET_PERCENT = 0.20`. -/
def TEST_SET_PERCENT : ℚ := 1 / 5

/-- The constant `VALIDATION_SET_PERCENT = 0.05`. -/
def VALIDATION_SET_PERCENT : ℚ := 1 / 20

/-- The conversion `static_cast<size_t>(x)` of a non-negative `double`: the fraction is
dropped. -/
def static_cast_size_t (x : ℚ) : Nat := ⌊x⌋₊

/-- A loop `for (i = start; i < start + count; ++i) dest->emplace_back(std::move(arr[i]))`
of `split_data`, with `count` iterations left at index `i`. -/
def move_loop (arr : List data) : Nat → Nat → List data → Option (List data)
  | 0, _, dest => some dest
  | count + 1, i, dest => do
    let d ← arr[i]?
    move_loop arr count (i + 1) (dest ++ [d])

/-- The method `data_handler::split_data`. The parameter `shuffle` is the effect of
`std::shuffle` with the generator seeded from `std::random_device` on the vector. The
three lines on `std::cout` are left out. -/
def split_data (shuffle : List data → List data) (self : data_handler) : Option data_handler := do
  let total_size := self.data_array.length
  let train_size := static_cast_size_t ((total_size : ℚ) * TRAIN_SET_PERCENT)
  let test_size := static_cast_size_t ((total_size : ℚ) * TEST_SET_PERCENT)
  let shuffled := shuffle self.data_array
  let training ← move_loop shuffled train_size 0 self.training_data
  let test ← move_loop shuffled test_size train_size self.test_data
  let validation ← move_loop shuffled (total_size - (train_size + test_size))
    (train_size + test_size) self.validation_data
  pure { self with
    data_array := [], training_data := training, test_data := test,
    validation_data := validation }

/-- The call `classFromInt.try_emplace(key, value)`: the map afterwards and the mapped
value of the entry with this key, which is new only when the key was absent. -/
def try_emplace : List (Nat × Int) → Nat → Int → List (Nat × Int) × Int
  | [], key, value => ([(key, value)], value)
  | (k, v) :: rest, key, value =>
    if k = key then ((k, v) :: rest, v)
    else ((k, v) :: (try_emplace rest key value).1, (try_emplace rest key value).2)

/-- First loop of `count_classes`: every record gets the value that `try_emplace` finds
or inserts for its label, the size of the map at that moment. -/
def enumerate_labels : List data → List (Nat × Int) → List data × List (Nat × Int)
  | [], m => ([], m)
  | d :: rest, m =>
    let r := try_emplace m d.get_label (static_cast_int m.length)
    let tail := enumerate_labels rest r.1
    (d.set_enumerated_label r.2 :: tail.1, tail.2)

/-- Second loop of `count_classes`: every record gets its class vector. -/
def set_class_vectors (class_counts : Int) : List data → Option (List data)
  | [] => some []
  | d :: rest => do
    let d1 ← d.set_class_vector class_counts
    let tail ← set_class_vectors class_counts rest
    pure (d1 :: tail)

/-- The method `data_handler::count_classes`. The line on `std::cout` is left out. -/
def count_classes (self : data_handler) : Option data_handler := do
  let r := enumerate_labels self.data_array self.classFromInt
  let class_counts := static_cast_int r.2.length
  let arr ← set_class_vectors class_counts r.1
  pure { self with data_array := arr, classFromInt := r.2, class_counts := class_counts }

/-- The inner loop of the first pass of `normalize` for one record: for every
dimension `i`, `delta = x - mean[i]`, `mean[i] += delta / n`, `delta2 = x - mean[i]`,
`M2[i] += delta * delta2`. The loop has `remaining` iterations left at index `i`. -/
def statistics_record (n : Nat) (feature_vector : List Nat) :
    Nat → Nat → List ℚ → List ℚ → Option (List ℚ × List ℚ)
  | 0, _, mean, M2 => some (mean, M2)
  | remaining + 1, i, mean, M2 => do
    let byte ← feature_vector[i]?
    let m ← mean[i]?
    let s ← M2[i]?
    let x : ℚ := (byte : ℚ)
    let delta := x - m
    let m1 := m + delta / (n : ℚ)
    let delta2 := x - m1
    statistics_record n feature_vector remaining (i + 1) (mean.set i m1)
      (M2.set i (s + delta * delta2))

/-- The first pass of `normalize` over the records, in the order of the vector. -/
def statistics_pass (n size : Nat) : List data → List ℚ → List ℚ → Option (List ℚ × List ℚ)
  | [], mean, M2 => some (mean, M2)
  | d :: rest, mean, M2 => do
    let r ← statistics_record n d.get_feature_vector size 0 mean M2
    statistics_pass n size rest r.1 r.2

/-- The vectors `mean` and `M2` of `normalize` after the first pass, started from zeros. -/
def statistics (self : data_handler) : Option (List ℚ × List ℚ) :=
  if self.feature_vector_size < 0 then none
  else
    statistics_pass self.data_array.length self.feature_vector_size.toNat self.data_array
      (List.replicate self.feature_vector_size.toNat 0)
      (List.replicate self.feature_vector_size.toNat 0)

/-- The second loop of `normalize`: 0 for fewer than two records, else
`sqrt(M2[i] / (n - 1))`. -/
def standard_deviation (L : StdLib) (n : Nat) (M2 : List ℚ) : List ℚ :=
  M2.map (fun s => if n < 2 then 0 else L.sqrt (s / ((n - 1 : Nat) : ℚ)))

/-- The third loop of `normalize`: a standard deviation equal to 0 becomes 1. -/
def replace_zero (std_dev : List ℚ) : List ℚ :=
  std_dev.map (fun s => if s = 0 then 1 else s)

/-- The lines that the third loop of `normalize` writes to `std::cerr`, one for every
feature with the standard deviation 0, starting at the feature with the index `i`. -/
def zero_deviation_output : Nat → List ℚ → List HandlerOutput
  | _, [] => []
  | i, s :: rest =>
    if s = 0 then
      HandlerOutput.cerr ("Feature " ++ toString i ++
        " has zero standard deviation. Adjusted to 1.0 to avoid division by zero.") ::
        zero_deviation_output (i + 1) rest
    else zero_deviation_output (i + 1) rest

/-- The inner loop of the last pass of `normalize` for one record:
`(feature_vector[j] - mean[j]) / std_dev[j]` for every dimension `j`. -/
def normalized_vector (feature_vector : List Nat) (mean std_dev : List ℚ) :
    Nat → Nat → Option (List ℚ)
  | 0, _ => some []
  | remaining + 1, j => do
    let byte ← feature_vector[j]?
    let m ← mean[j]?
    let s ← std_dev[j]?
    let tail ← normalized_vector feature_vector mean std_dev remaining (j + 1)
    pure (((byte : ℚ) - m) / s :: tail)

/-- The last pass of `normalize` over the records. -/
def normalize_records (size : Nat) (mean std_dev : List ℚ) : List data → Option (List data)
  | [] => some []
  | d :: rest => do
    let v ← normalized_vector d.get_feature_vector mean std_dev size 0
    let tail ← normalize_records size mean std_dev rest
    pure (d.set_normalized_feature_vector v :: tail)

/-- The method `data_handler::normalize`, with the loops run in sequence: the object
afterwards and the lines written to the standard streams. -/
def normalize (L : StdLib) (self : data_handler) : Option (data_handler × List HandlerOutput) :=
  if self.data_array.length = 0 then
    some (self, [HandlerOutput.cerr "No data to normalize."])
  else do
    let r ← self.statistics
    let std_dev := standard_deviation L self.data_array.length r.2
    let arr ← normalize_records self.feature_vector_size.toNat r.1 (replace_zero std_dev)
      self.data_array
    pure ({ self with data_array := arr },
      zero_deviation_output 0 std_dev ++
        [HandlerOutput.cout "Data normalization completed successfully."])

end data_handler

/-! ## The first-appearance rank of a label -/

/-- Number of distinct labels that occur in `labels` before the first occurrence of
`label`. -/
def first_appearance_rank (labels : List Nat) (label : Nat) : Nat :=
  ((labels.take (labels.indexOf label)).toFinset).card

/-- A record with the given raw bytes and raw label; the other fields hold what the
constructor leaves there. -/
def raw_record (feature_vector : List Nat) (label : Nat) : data :=
  { feature_vector := feature_vector, normalized_feature_vector := none, class_vector := none,
    label := label, enum_label := 0, distance := 0 }

/-- A handler with the given records in `data_array`, no partitions, an empty class map
and the given `feature_vector_size`. -/
def fresh_handler (records : List data) (feature_vector_size : Int) : data_handler :=
  { data_array := records, training_data := [], test_data := [], validation_data := [],
    class_counts := 0, feature_vector_size := feature_vector_size, classFromInt := [] }

namespace data_handler

/-- The invariant of the first loop of `count_classes` after the labels `seen`: every
entry of the map pairs a label seen with its first-appearance rank, every label seen
has an entry, the map has as many entries as there are distinct labels seen, and the
labels are bytes. -/
def ClassMapInvariant (m : List (Nat × Int)) (seen : List Nat) : Prop :=
  (∀ p ∈ m, p.1 ∈ seen ∧ p.2 = (first_appearance_rank seen p.1 : Int)) ∧
  (∀ key ∈ seen, key ∈ m.map Prod.fst) ∧
  m.length = seen.toFinset.card ∧
  (∀ key ∈ seen, key < 256)

/-- The class vector with a 1 at the position `enum_label` and 0 elsewhere. -/
def one_hot (class_counts enum_label : Int) : List Int :=
  (List.replicate class_counts.toNat (0 : Int)).set enum_label.toNat 1

end data_handler

/-! ## Two small datasets for `normalize` -/

/-- Two records with one feature each, the bytes 2 and 4. -/
def two_values_handler : data_handler :=
  fresh_handler [raw_record [2] 0, raw_record [4] 0] 1

/-- Two records with one feature each, the byte 4 in both. -/
def constant_feature_handler : data_handler :=
  fresh_handler [raw_record [4] 0, raw_record [4] 0] 1

/-! ## Handlers for `normalize` without data and around `split_data` -/

/-- A handler with no record anywhere and 784 as `feature_vector_size`. -/
def empty_handler : data_handler := fresh_handler [] 784

/-- A handler as `split_data` leaves it: `data_array` is empty and the partitions hold
the records. -/
def split_handler : data_handler :=
  { data_array := [],
    training_data := [raw_record [2] 0, raw_record [4] 1, raw_record [6] 0],
    test_data := [], validation_data := [raw_record [8] 1], class_counts := 0,
    feature_vector_size := 1, classFromInt := [] }

/-- Four records with one feature each, the bytes 2, 4, 6 and 8. -/
def four_records_handler : data_handler :=
  fresh_handler [raw_record [2] 0, raw_record [4] 1, raw_record [6] 0, raw_record [8] 1] 1

/-- Two records with two features each; the first feature is 0 in both. -/
def zero_column_handler : data_handler :=
  fresh_handler [raw_record [0, 3] 0, raw_record [0, 5] 1] 2

/-- Four records with two bytes each and the raw labels 5, 3, 5 and 7. -/
def labelled_handler : data_handler :=
  fresh_handler [raw_record [1, 2] 5, raw_record [3, 4] 3, raw_record [5, 6] 5,
    raw_record [7, 8] 7] 2

/-! # Part II: lemmas -/

/-! ## Machine integers -/

theorem wrap_int32_of_range (x : Int) (h0 : 0 ≤ x) (h1 : x ≤ (INT_MAX : Int)) :
    wrap_int32 x = x := by
  unfold wrap_int32
  unfold INT_MAX at h1
  simp only
  have hm : x % 4294967296 = x := Int.emod_eq_of_lt h0 (by omega)
  rw [hm]
  split
  · rfl
  · omega

theorem static_cast_int_of_le (n : Nat) (h : n ≤ INT_MAX) : static_cast_int n = (n : Int) := by
  unfold static_cast_int
  apply wrap_int32_of_range
  · omega
  · exact_mod_cast h

/-! ## The distance vector -/

namespace KNN

theorem distance_loop_isSome (qf xf : List ℚ) :
    ∀ (remaining i : Nat) (sum : ℚ), i + remaining ≤ qf.length → i + remaining ≤ xf.length →
      ∃ s, distance_loop qf xf remaining i sum = some s := by
  intro remaining
  induction remaining with
  | zero => intro i sum _ _; exact ⟨sum, rfl⟩
  | succ n ih =>
    intro i sum hq hx
    have hiq : i < qf.length := by omega
    have hix : i < xf.length := by omega
    obtain ⟨s, hs⟩ := ih (i + 1) (sum + (qf[i] - xf[i]) * (qf[i] - xf[i])) (by omega) (by omega)
    refine ⟨s, ?_⟩
    simp [distance_loop, List.getElem?_eq_getElem hiq, List.getElem?_eq_getElem hix, hs]

theorem calculate_distance_isSome (L : StdLib) (q x : data) (h : same_dimension q x) :
    ∃ d, calculate_distance L q x = some d := by
  unfold same_dimension at h
  split at h
  · rename_i qv xv hq hx
    obtain ⟨s, hs⟩ := distance_loop_isSome qv xv qv.length 0 0 (by omega) (by omega)
    refine ⟨L.sqrt s, ?_⟩
    simp [calculate_distance, data.get_normalized_feature_vector, hq, hx, hs]
  · exact absurd h id

/-- What `distance_vector` returns when it returns: one pair per training record, in
the order of the training vector, each with the record's distance. -/
theorem distance_vector_spec (L : StdLib) (q : data) :
    ∀ (train : List data) (dv : List (ℚ × data)), distance_vector L q train = some dv →
      dv.map Prod.snd = train ∧ ∀ p ∈ dv, calculate_distance L q p.2 = some p.1 := by
  intro train
  induction train with
  | nil =>
    intro dv h
    simp [distance_vector] at h
    subst h
    simp
  | cons t rest ih =>
    intro dv h
    simp only [distance_vector, Option.bind_eq_bind, Option.bind_eq_some, Option.pure_def,
      Option.some.injEq] at h
    obtain ⟨d, hd, tail, htail, rfl⟩ := h
    obtain ⟨h1, h2⟩ := ih tail htail
    refine ⟨by simp [h1], ?_⟩
    intro p hp
    rcases List.mem_cons.mp hp with rfl | hp
    · exact hd
    · exact h2 p hp

theorem distance_vector_isSome (L : StdLib) (q : data) :
    ∀ (train : List data), (∀ t ∈ train, same_dimension q t) →
      ∃ dv, distance_vector L q train = some dv := by
  intro train
  induction train with
  | nil => intro _; exact ⟨[], rfl⟩
  | cons t rest ih =>
    intro h
    obtain ⟨d, hd⟩ := calculate_distance_isSome L q t (h t (List.mem_cons_self _ _))
    obtain ⟨tail, htail⟩ := ih (fun x hx => h x (List.mem_cons_of_mem _ hx))
    exact ⟨(d, t) :: tail, by simp [distance_vector, hd, htail]⟩

end KNN

/-! ## The selection loop and the sorted distance vector -/

namespace KNN

theorem select_neighbors_eq_take (k size : Int) :
    ∀ (l : List (ℚ × data)) (i : Nat),
      select_neighbors k size i l = (l.take (min k size - (i : Int)).toNat).map Prod.snd := by
  intro l
  induction l with
  | nil => intro i; simp [select_neighbors]
  | cons p rest ih =>
    intro i
    unfold select_neighbors
    split
    · rename_i h
      have hs : (min k size - (i : Int)).toNat = (min k size - ((i + 1 : Nat) : Int)).toNat + 1 := by
        omega
      rw [ih (i + 1), hs]
      simp
    · rename_i h
      have hs : (min k size - (i : Int)).toNat = 0 := by omega
      rw [hs]
      simp

theorem find_k_nearest_neighbors_eq (L : StdLib) (self : KNN) (q : data)
    (dv : List (ℚ × data)) (h : distance_vector L q self.trainingData = some dv) :
    find_k_nearest_neighbors L self q = some { self with
      neighbors := ((L.sort distance_less dv).take
        (selected_count self.k (L.sort distance_less dv).length)).map Prod.snd } := by
  simp [find_k_nearest_neighbors, h, select_neighbors_eq_take, selected_count]

/-- What `find_k_nearest_neighbors` does when every distance is defined: it returns, only
the neighbour list changes, and the neighbours are the records of the first
`selected_count` entries of a distance vector that is sorted, holds every training
record once and pairs each record with its distance. -/
theorem find_k_nearest_neighbors_core (L : StdLib) (hL : L.SortContract) (self : KNN) (q : data)
    (hwf : ∀ t ∈ self.trainingData, same_dimension q t) :
    ∃ (self1 : KNN) (sorted : List (ℚ × data)),
      find_k_nearest_neighbors L self q = some self1 ∧
      self1 = { self with neighbors := self1.neighbors } ∧
      self1.neighbors = (sorted.take (selected_count self.k sorted.length)).map Prod.snd ∧
      (sorted.map Prod.snd).Perm self.trainingData ∧
      sorted.Pairwise (fun a b => a.1 ≤ b.1) ∧
      ∀ p ∈ sorted, calculate_distance L q p.2 = some p.1 := by
  obtain ⟨dv, hdv⟩ := distance_vector_isSome L q self.trainingData hwf
  obtain ⟨hmap, hdist⟩ := distance_vector_spec L q self.trainingData dv hdv
  obtain ⟨hperm, hsorted⟩ := hL dv
  have hfind := find_k_nearest_neighbors_eq L self q dv hdv
  generalize hX : ((L.sort distance_less dv).take
    (selected_count self.k (L.sort distance_less dv).length)).map Prod.snd = X at hfind
  refine ⟨{ self with neighbors := X }, L.sort distance_less dv, hfind, rfl, hX.symm, ?_, ?_, ?_⟩
  · rw [← hmap]
    exact hperm.map Prod.snd
  · refine hsorted.imp ?_
    intro a b hab
    simpa [distance_less] using hab
  · intro p hp
    exact hdist p (hperm.subset hp)

theorem selected_count_of_le (k : Int) (n : Nat) (hn : n ≤ INT_MAX) :
    selected_count k n = (min k (n : Int)).toNat := by
  unfold selected_count
  rw [static_cast_int_of_le n hn]

end KNN

/-! ## The introsort permutes and sorts -/

namespace introsort

variable {α : Type}

theorem iter_swap_perm [DecidableEq α] (l : List α) (i j : Nat) : (iter_swap l i j).Perm l := by
  unfold iter_swap
  split
  · rename_i a b hi hj
    obtain ⟨hil, hia⟩ := List.getElem?_eq_some.mp hi
    obtain ⟨hjl, hjb⟩ := List.getElem?_eq_some.mp hj
    rw [List.perm_iff_count]
    intro c
    have hjl2 : j < (l.set i b).length := by simpa using hjl
    rw [List.count_set _ _ _ _ hjl2, List.count_set _ _ _ _ hil, List.getElem_set, hia]
    have hsel : (if i = j then b else l[j]) = b := by
      split
      · rfl
      · exact hjb
    rw [hsel]
    have hpos : (if (a == c) = true then 1 else 0) ≤ List.count c l := by
      split
      · rename_i hac
        have hac2 : a = c := by simpa using hac
        have hmem : c ∈ l := by
          rw [← hac2, ← hia]
          exact List.getElem_mem _
        exact List.count_pos_iff.mpr hmem
      · exact Nat.zero_le _
    omega
  · exact List.Perm.refl l

theorem move_median_to_first_perm [DecidableEq α] (comp : α → α → Bool) (l : List α)
    (result a b c : Nat) : (move_median_to_first comp l result a b c).Perm l := by
  unfold move_median_to_first
  split
  · split_ifs <;> exact iter_swap_perm l _ _
  · exact List.Perm.refl l

theorem unguarded_partition_perm [DecidableEq α] (comp : α → α → Bool) (pivot : Nat) :
    ∀ (fuel : Nat) (l : List α) (first last : Nat),
      (unguarded_partition comp pivot fuel l first last).1.Perm l := by
  intro fuel
  induction fuel with
  | zero => intro l first last; exact List.Perm.refl l
  | succ n ih =>
    intro l first last
    unfold unguarded_partition
    split
    · exact List.Perm.refl l
    · simp only
      split
      · exact (ih _ _ _).trans (iter_swap_perm l _ _)
      · exact List.Perm.refl l

theorem introsort_loop_perm [DecidableEq α] (comp : α → α → Bool) :
    ∀ (depth_limit : Nat) (l : List α) (first last : Nat),
      (introsort_loop comp depth_limit l first last).Perm l := by
  intro depth_limit
  induction depth_limit with
  | zero => intro l first last; exact List.Perm.refl l
  | succ n ih =>
    intro l first last
    unfold introsort_loop
    split
    · simp only
      exact (ih _ _ _).trans ((ih _ _ _).trans
        ((unguarded_partition_perm comp first _ _ _ _).trans
          (move_median_to_first_perm comp l _ _ _ _)))
    · exact List.Perm.refl l

theorem sort_perm [DecidableEq α] (comp : α → α → Bool) (l : List α) : (sort comp l).Perm l :=
  (List.perm_insertionSort _ _).trans (introsort_loop_perm comp _ l _ _)

end introsort

theorem libstdcxx_sort_contract : libstdcxx.SortContract := by
  intro l
  refine ⟨introsort.sort_perm _ l, ?_⟩
  haveI : IsTotal (ℚ × data) (fun a b => distance_less b a = false) :=
    ⟨fun a b => by simpa [distance_less] using le_total a.1 b.1⟩
  haveI : IsTrans (ℚ × data) (fun a b => distance_less b a = false) :=
    ⟨fun a b c hab hbc => by
      simp only [distance_less, decide_eq_false_iff_not, not_lt] at hab hbc ⊢
      exact le_trans hab hbc⟩
  exact List.sorted_insertionSort (fun a b => distance_less b a = false) _

theorem libstdcxx_iteration_contract : libstdcxx.IterationContract :=
  fun m => List.reverse_perm m

/-! ## The stable sort -/

theorem with_stable_sort_contract (L : StdLib) : L.with_stable_sort.SortContract := by
  intro l
  refine ⟨List.perm_insertionSort _ l, ?_⟩
  haveI : IsTotal (ℚ × data) (fun a b => distance_less b a = false) :=
    ⟨fun a b => by simpa [distance_less] using le_total a.1 b.1⟩
  haveI : IsTrans (ℚ × data) (fun a b => distance_less b a = false) :=
    ⟨fun a b c hab hbc => by
      simp only [distance_less, decide_eq_false_iff_not, not_lt] at hab hbc ⊢
      exact le_trans hab hbc⟩
  exact List.sorted_insertionSort (fun a b => distance_less b a = false) _

theorem calculate_distance_with_stable_sort (L : StdLib) (q x : data) :
    KNN.calculate_distance L.with_stable_sort q x = KNN.calculate_distance L q x := rfl

theorem distance_vector_with_stable_sort (L : StdLib) (q : data) (train : List data) :
    KNN.distance_vector L.with_stable_sort q train = KNN.distance_vector L q train := by
  induction train with
  | nil => rfl
  | cons t rest ih => simp [KNN.distance_vector, ih, calculate_distance_with_stable_sort]

/-- Two sorted arrangements of one distance vector carry the same distances position by
position. -/
theorem sorted_keys_unique (dv s1 s2 : List (ℚ × data)) (h1 : s1.Perm dv) (h2 : s2.Perm dv)
    (hs1 : s1.Pairwise (fun a b => a.1 ≤ b.1)) (hs2 : s2.Pairwise (fun a b => a.1 ≤ b.1)) :
    s1.map Prod.fst = s2.map Prod.fst := by
  have hp : (s1.map Prod.fst).Perm (s2.map Prod.fst) := (h1.trans h2.symm).map Prod.fst
  have hk1 : (s1.map Prod.fst).Sorted (· ≤ ·) := by
    unfold List.Sorted
    rw [List.pairwise_map]
    exact hs1
  have hk2 : (s2.map Prod.fst).Sorted (· ≤ ·) := by
    unfold List.Sorted
    rw [List.pairwise_map]
    exact hs2
  exact List.eq_of_perm_of_sorted hp hk1 hk2

/-- Two sorted arrangements of a distance vector without equal distances are equal. -/
theorem sorted_unique_of_nodup (dv s1 s2 : List (ℚ × data)) (h1 : s1.Perm dv) (h2 : s2.Perm dv)
    (hs1 : s1.Pairwise (fun a b => a.1 ≤ b.1)) (hs2 : s2.Pairwise (fun a b => a.1 ≤ b.1))
    (hnd : (dv.map Prod.fst).Nodup) : s1 = s2 := by
  have strict : ∀ s : List (ℚ × data), s.Perm dv → s.Pairwise (fun a b => a.1 ≤ b.1) →
      s.Pairwise (fun a b => a.1 < b.1) := by
    intro s hp hs
    have hne : s.Pairwise (fun a b => a.1 ≠ b.1) := by
      have : (s.map Prod.fst).Nodup := ((hp.map Prod.fst).nodup_iff).mpr hnd
      unfold List.Nodup at this
      rw [List.pairwise_map] at this
      exact this
    exact (hs.and hne).imp (fun h => lt_of_le_of_ne h.1 h.2)
  haveI : IsAntisymm (ℚ × data) (fun a b => a.1 < b.1) :=
    ⟨fun a b hab hba => absurd hab (not_lt_of_gt hba)⟩
  exact List.eq_of_perm_of_sorted (h1.trans h2.symm) (strict s1 h1 hs1) (strict s2 h2 hs2)

/-- The stable sort keeps two elements in their original order when the first is not
greater than the second. -/
theorem stable_sort_keeps_order (l : List (ℚ × data)) (a b : ℚ × data) (hab : a.1 ≤ b.1)
    (h : [a, b].Sublist l) : [a, b].Sublist (stable_sort distance_less l) := by
  haveI : IsTotal (ℚ × data) (fun a b => distance_less b a = false) :=
    ⟨fun a b => by simpa [distance_less] using le_total a.1 b.1⟩
  haveI : IsTrans (ℚ × data) (fun a b => distance_less b a = false) :=
    ⟨fun a b c hab hbc => by
      simp only [distance_less, decide_eq_false_iff_not, not_lt] at hab hbc ⊢
      exact le_trans hab hbc⟩
  exact List.pair_sublist_insertionSort (r := fun a b => distance_less b a = false)
    (by simpa [distance_less] using hab) h

/-! ## The vote -/

namespace KNN

theorem vote_increment_keys (m : List (Int × Int)) (label : Int) :
    (vote_increment m label).map Prod.fst =
      if label ∈ m.map Prod.fst then m.map Prod.fst else m.map Prod.fst ++ [label] := by
  induction m with
  | nil => simp [vote_increment]
  | cons e rest ih =>
    obtain ⟨key, votes⟩ := e
    unfold vote_increment
    by_cases h : key = label
    · subst h
      simp
    · have hne : ¬ label = key := fun h2 => h h2.symm
      simp only [h, if_false, List.map_cons, ih, List.mem_cons, hne, false_or]
      split <;> simp

theorem vote_increment_nodup (m : List (Int × Int)) (label : Int)
    (hnd : (m.map Prod.fst).Nodup) : ((vote_increment m label).map Prod.fst).Nodup := by
  rw [vote_increment_keys]
  split
  · exact hnd
  · rename_i h
    rw [List.nodup_append]
    refine ⟨hnd, List.nodup_singleton _, ?_⟩
    intro a ha hb
    rw [List.mem_singleton] at hb
    subst hb
    exact h ha

theorem vote_increment_mem (m : List (Int × Int)) (label : Int)
    (hnd : (m.map Prod.fst).Nodup) (p : Int × Int) (hp : p ∈ vote_increment m label) :
    (p ∈ m ∧ p.1 ≠ label) ∨
    (p.1 = label ∧ ((∃ v, (label, v) ∈ m ∧ p.2 = v + 1) ∨
      (label ∉ m.map Prod.fst ∧ p.2 = 1))) := by
  induction m with
  | nil =>
    simp only [vote_increment, List.mem_singleton] at hp
    subst hp
    simp
  | cons e rest ih =>
    obtain ⟨key, votes⟩ := e
    rw [List.map_cons, List.nodup_cons] at hnd
    unfold vote_increment at hp
    split at hp
    · rename_i h
      subst h
      rcases List.mem_cons.mp hp with h | h
      · subst h
        exact Or.inr ⟨rfl, Or.inl ⟨votes, List.mem_cons_self _ _, rfl⟩⟩
      · refine Or.inl ⟨List.mem_cons_of_mem _ h, ?_⟩
        intro hkey
        have hmem : p.1 ∈ rest.map Prod.fst := List.mem_map_of_mem Prod.fst h
        rw [hkey] at hmem
        exact hnd.1 hmem
    · rename_i hne
      rcases List.mem_cons.mp hp with h | h
      · subst h
        exact Or.inl ⟨List.mem_cons_self _ _, hne⟩
      · rcases ih hnd.2 h with ⟨hm, hk⟩ | ⟨hk, hcase⟩
        · exact Or.inl ⟨List.mem_cons_of_mem _ hm, hk⟩
        · refine Or.inr ⟨hk, ?_⟩
          rcases hcase with ⟨v, hv, hpv⟩ | ⟨hnot, hp1⟩
          · exact Or.inl ⟨v, List.mem_cons_of_mem _ hv, hpv⟩
          · refine Or.inr ⟨?_, hp1⟩
            simp only [List.map_cons, List.mem_cons, not_or]
            exact ⟨fun h => hne h.symm, hnot⟩

theorem vote_invariant_step (m : List (Int × Int)) (seen : List Int) (label : Int)
    (h : VoteInvariant m seen) : VoteInvariant (vote_increment m label) (seen ++ [label]) := by
  obtain ⟨hnd, hcount, hkeys⟩ := h
  have hk := vote_increment_keys m label
  refine ⟨vote_increment_nodup m label hnd, ?_, ?_⟩
  · intro p hp
    rcases vote_increment_mem m label hnd p hp with ⟨hm, hne⟩ | ⟨heq, hcase⟩
    · obtain ⟨h1, h2⟩ := hcount p hm
      refine ⟨?_, h2⟩
      rw [h1, List.count_append]
      have : List.count p.1 [label] = 0 := by
        simp [List.count_singleton, Ne.symm hne]
      rw [this, Nat.add_zero]
    · rcases hcase with ⟨v, hv, hpv⟩ | ⟨hnot, hp1⟩
      · obtain ⟨h1, h2⟩ := hcount (label, v) hv
        simp only at h1 h2
        rw [hpv, heq, List.count_append]
        simp only [List.count_singleton, beq_self_eq_true, if_true]
        refine ⟨by push_cast; omega, by omega⟩
      · have hzero : seen.count label = 0 :=
          List.count_eq_zero.mpr (fun hmem => hnot (hkeys label hmem))
        rw [hp1, heq, List.count_append, hzero]
        simp
  · intro x hx
    rw [hk]
    rcases List.mem_append.mp hx with hx | hx
    · split
      · exact hkeys x hx
      · exact List.mem_append_left _ (hkeys x hx)
    · rw [List.mem_singleton] at hx
      subst hx
      split
      · assumption
      · exact List.mem_append_right _ (List.mem_singleton_self _)

theorem vote_invariant_foldl (labels : List Int) :
    ∀ (m : List (Int × Int)) (seen : List Int), VoteInvariant m seen →
      VoteInvariant (labels.foldl vote_increment m) (seen ++ labels) := by
  induction labels with
  | nil => intro m seen h; simpa using h
  | cons label rest ih =>
    intro m seen h
    have := ih (vote_increment m label) (seen ++ [label]) (vote_invariant_step m seen label h)
    simpa using this

theorem vote_map_invariant (neighbors : List data) :
    VoteInvariant (vote_map neighbors) (neighbor_labels neighbors) := by
  have h0 : VoteInvariant [] [] := ⟨List.nodup_nil, by simp, by simp⟩
  have := vote_invariant_foldl (neighbor_labels neighbors) [] [] h0
  simpa [vote_map, neighbor_labels, List.foldl_map] using this

/-- The maximum loop either keeps the initial label, when no entry has more votes than
`max_votes`, or returns the key of the first entry that has the largest number of votes. -/
theorem max_votes_loop_spec :
    ∀ (l : List (Int × Int)) (predicted_label max_votes : Int),
      (max_votes_loop l predicted_label max_votes = predicted_label ∧
        ∀ e ∈ l, e.2 ≤ max_votes) ∨
      (∃ pre e post, l = pre ++ e :: post ∧
        max_votes_loop l predicted_label max_votes = e.1 ∧ max_votes < e.2 ∧
        (∀ x ∈ pre, x.2 < e.2) ∧ (∀ x ∈ post, x.2 ≤ e.2)) := by
  intro l
  induction l with
  | nil => intro p mx; left; simp [max_votes_loop]
  | cons a rest ih =>
    intro p mx
    unfold max_votes_loop
    split
    · rename_i hgt
      rcases ih a.1 a.2 with ⟨hres, hall⟩ | ⟨pre, e, post, hl, hres, hlt, hpre, hpost⟩
      · right
        exact ⟨[], a, rest, rfl, hres, hgt, by simp, hall⟩
      · right
        refine ⟨a :: pre, e, post, by rw [hl]; rfl, hres, lt_trans hgt hlt, ?_, hpost⟩
        intro x hx
        rcases List.mem_cons.mp hx with rfl | hx
        · exact hlt
        · exact hpre x hx
    · rename_i hle
      have hle2 : a.2 ≤ mx := not_lt.mp hle
      rcases ih p mx with ⟨hres, hall⟩ | ⟨pre, e, post, hl, hres, hlt, hpre, hpost⟩
      · left
        refine ⟨hres, ?_⟩
        intro x hx
        rcases List.mem_cons.mp hx with rfl | hx
        · exact hle2
        · exact hall x hx
      · right
        refine ⟨a :: pre, e, post, by rw [hl]; rfl, hres, hlt, ?_, hpost⟩
        intro x hx
        rcases List.mem_cons.mp hx with rfl | hx
        · exact lt_of_le_of_lt hle2 hlt
        · exact hpre x hx

theorem predict_eq (L : StdLib) (self self1 : KNN) (q : data)
    (hfind : find_k_nearest_neighbors L self q = some self1) :
    predict L self q =
      some (max_votes_loop (L.iteration (vote_map self1.neighbors)) (-1) (-1), self1) := by
  simp [predict, hfind]

/-- The outcome of the vote over a non-empty neighbour list: the maximum loop returns the
key of an entry of the map; this label has the largest number of votes, and every
label that the iteration visits before it has fewer votes. -/
theorem vote_winner (L : StdLib) (hI : L.IterationContract) (neighbors : List data)
    (hne : neighbors ≠ []) :
    ∃ pre e post, L.iteration (vote_map neighbors) = pre ++ e :: post ∧
      max_votes_loop (L.iteration (vote_map neighbors)) (-1) (-1) = e.1 ∧
      1 ≤ vote_count neighbors e.1 ∧
      (∀ x ∈ pre, vote_count neighbors x.1 < vote_count neighbors e.1) ∧
      (∀ other, vote_count neighbors other ≤ vote_count neighbors e.1) := by
  obtain ⟨-, hcount, hkeys⟩ := vote_map_invariant neighbors
  have hperm := hI (vote_map neighbors)
  have hentry : ∀ x ∈ L.iteration (vote_map neighbors),
      x.2 = (vote_count neighbors x.1 : Int) ∧ 1 ≤ x.2 :=
    fun x hx => hcount x (hperm.subset hx)
  rcases max_votes_loop_spec (L.iteration (vote_map neighbors)) (-1) (-1) with
    ⟨-, hall⟩ | ⟨pre, e, post, hl, hres, -, hpre, hpost⟩
  · exfalso
    obtain ⟨n, rest, hn⟩ := List.exists_cons_of_ne_nil hne
    have hlab : (n.get_enumerated_label : Int) ∈ neighbor_labels neighbors := by
      rw [hn]
      simp [neighbor_labels]
    obtain ⟨x, hx, -⟩ := List.mem_map.mp (hkeys _ hlab)
    have h1 := (hcount x hx).2
    have h2 := hall x (hperm.symm.subset hx)
    omega
  · have hmem : ∀ x, x ∈ L.iteration (vote_map neighbors) ↔ x ∈ pre ∨ x = e ∨ x ∈ post := by
      intro x
      rw [hl]
      simp
    have he := hentry e ((hmem e).mpr (Or.inr (Or.inl rfl)))
    refine ⟨pre, e, post, hl, hres, ?_, ?_, ?_⟩
    · have := he.2
      rw [he.1] at this
      exact_mod_cast this
    · intro x hx
      have hx2 := hentry x ((hmem x).mpr (Or.inl hx))
      have := hpre x hx
      rw [hx2.1, he.1] at this
      exact_mod_cast this
    · intro other
      by_cases hzero : vote_count neighbors other = 0
      · rw [hzero]
        exact Nat.zero_le _
      · have hin : other ∈ neighbor_labels neighbors := by
          by_contra hnot
          exact hzero (List.count_eq_zero.mpr hnot)
        obtain ⟨x, hx, hxo⟩ := List.mem_map.mp (hkeys _ hin)
        have hxit : x ∈ L.iteration (vote_map neighbors) := hperm.symm.subset hx
        have hx2 := hentry x hxit
        have hle : x.2 ≤ e.2 := by
          rcases (hmem x).mp hxit with h | h | h
          · exact le_of_lt (hpre x h)
          · rw [h]
          · exact hpost x h
        rw [hx2.1, he.1, hxo] at hle
        exact_mod_cast hle

end KNN

/-! ## The evaluation loop -/

namespace KNN

theorem predicted_label_neighbors (L : StdLib) (self : KNN) (neighbors : List data) (q : data) :
    predicted_label L { self with neighbors := neighbors } q = predicted_label L self q := by
  cases h : distance_vector L q self.trainingData <;>
    simp [predicted_label, predict, find_k_nearest_neighbors, h]

theorem correct_predictions_neighbors (L : StdLib) (self : KNN) (neighbors : List data)
    (queries : List data) :
    correct_predictions L { self with neighbors := neighbors } queries =
      correct_predictions L self queries := by
  unfold correct_predictions
  simp only [predicted_label_neighbors]

theorem predict_isSome (L : StdLib) (hS : L.SortContract) (self : KNN) (q : data)
    (hwf : ∀ t ∈ self.trainingData, same_dimension q t) :
    ∃ (label : Int) (neighbors : List data),
      predict L self q = some (label, { self with neighbors := neighbors }) := by
  obtain ⟨self1, sorted, hfind, hframe, -⟩ := find_k_nearest_neighbors_core L hS self q hwf
  refine ⟨max_votes_loop (L.iteration (vote_map self1.neighbors)) (-1) (-1), self1.neighbors, ?_⟩
  rw [predict_eq L self self1 q hfind, ← hframe]

/-- The counting loop returns, and adds to the counter the number of queries that are
predicted correctly, as long as the counter stays in the range of `int`. -/
theorem count_correct_spec (L : StdLib) (hS : L.SortContract) :
    ∀ (queries : List data) (self : KNN) (correct : Int),
      (∀ q ∈ queries, ∀ t ∈ self.trainingData, same_dimension q t) →
      0 ≤ correct → correct + (queries.length : Int) ≤ (INT_MAX : Int) →
      ∃ neighbors : List data, count_correct L self queries correct =
        some (correct + (correct_predictions L self queries : Int),
          { self with neighbors := neighbors }) := by
  intro queries
  induction queries with
  | nil =>
    intro self correct _ _ _
    exact ⟨self.neighbors, by simp [count_correct, correct_predictions]⟩
  | cons q rest ih =>
    intro self correct hwf h0 hmax
    obtain ⟨label, n1, hpred⟩ := predict_isSome L hS self q
      (hwf q (List.mem_cons_self _ _))
    have hlabel : predicted_label L self q = some label := by
      simp [predicted_label, hpred]
    have hlen : ((q :: rest).length : Int) = (rest.length : Int) + 1 := by
      simp
    rw [hlen] at hmax
    have hwf1 : ∀ q ∈ rest, ∀ t ∈ ({ self with neighbors := n1 } : KNN).trainingData,
        same_dimension q t := fun x hx t ht => hwf x (List.mem_cons_of_mem _ hx) t ht
    by_cases hc : label = (q.get_enumerated_label : Int)
    · have hwrap : wrap_int32 (correct + 1) = correct + 1 :=
        wrap_int32_of_range _ (by omega) (by omega)
      obtain ⟨n2, hrest⟩ := ih { self with neighbors := n1 } (correct + 1) hwf1 (by omega)
        (by omega)
      refine ⟨n2, ?_⟩
      have hcount : correct_predictions L self (q :: rest) =
          correct_predictions L self rest + 1 := by
        unfold correct_predictions
        rw [List.countP_cons_of_pos]
        simp [hlabel, hc]
      rw [correct_predictions_neighbors] at hrest
      simp only [count_correct, hpred, Option.bind_eq_bind, Option.some_bind, hc, if_true,
        hwrap, hrest, hcount]
      simp only [Nat.cast_add, Nat.cast_one, Option.some.injEq, Prod.mk.injEq, and_true]
      omega
    · obtain ⟨n2, hrest⟩ := ih { self with neighbors := n1 } correct hwf1 h0 (by omega)
      refine ⟨n2, ?_⟩
      have hcount : correct_predictions L self (q :: rest) =
          correct_predictions L self rest := by
        unfold correct_predictions
        rw [List.countP_cons_of_neg]
        simp [hlabel, hc]
      rw [correct_predictions_neighbors] at hrest
      simp only [count_correct, hpred, Option.bind_eq_bind, Option.some_bind, hc, if_false,
        hrest, hcount]

end KNN

namespace Partition

theorem evaluate_eq (p : Partition) (L : StdLib) (self : KNN) :
    p.evaluate L self =
      if (p.queries self).isEmpty then
        some (0, [Diagnostic.cerr p.empty_message], self)
      else
        (KNN.count_correct L self (p.queries self) 0).bind (fun r =>
          some ((r.1 : ℚ) / ((p.queries self).length : ℚ),
            [Diagnostic.cout_accuracy p.accuracy_message
              ((r.1 : ℚ) / ((p.queries self).length : ℚ) * 100)], r.2)) := by
  cases p <;> rfl

end Partition

/-- The quotient `correct / total` of a count that does not exceed a positive total lies
between 0 and 1, and is 1 exactly when the count is the total. -/
theorem accuracy_bounds (correct total : Nat) (hpos : 0 < total) (hle : correct ≤ total) :
    0 ≤ (correct : ℚ) / (total : ℚ) ∧ (correct : ℚ) / (total : ℚ) ≤ 1 ∧
    ((correct : ℚ) / (total : ℚ) = 1 ↔ correct = total) := by
  have ht : (0 : ℚ) < (total : ℚ) := by exact_mod_cast hpos
  refine ⟨by positivity, ?_, ?_⟩
  · rw [div_le_one ht]
    exact_mod_cast hle
  · rw [div_eq_one_iff_eq (ne_of_gt ht)]
    exact_mod_cast Iff.rfl

/-- On a non-empty partition the evaluation returns, with the accuracy
`correct / total` and the accuracy line on `std::cout`. -/
theorem evaluate_nonempty (L : StdLib) (hS : L.SortContract) (self : KNN) (p : Partition)
    (hne : p.queries self ≠ [])
    (hwf : ∀ q ∈ p.queries self, ∀ t ∈ self.trainingData, same_dimension q t)
    (hlen : (p.queries self).length ≤ INT_MAX) :
    ∃ neighbors : List data,
      p.evaluate L self =
        some ((correct_predictions L self (p.queries self) : ℚ) / ((p.queries self).length : ℚ),
          [Diagnostic.cout_accuracy p.accuracy_message
            ((correct_predictions L self (p.queries self) : ℚ) /
              ((p.queries self).length : ℚ) * 100)],
          { self with neighbors := neighbors }) := by
  obtain ⟨neighbors, hcount⟩ := KNN.count_correct_spec L hS (p.queries self) self 0 hwf
    (le_refl 0) (by simpa using (by exact_mod_cast hlen : ((p.queries self).length : Int) ≤ INT_MAX))
  have hempty : (p.queries self).isEmpty = false := by
    cases h : p.queries self with
    | nil => exact absurd h hne
    | cons _ _ => rfl
  refine ⟨neighbors, ?_⟩
  rw [Partition.evaluate_eq, hempty, hcount]
  simp

/-! ## The concrete classifiers -/

theorem calculate_distance_tied (i : Nat) :
    KNN.calculate_distance libstdcxx tied_query (tied_record i) = some 0 := by
  simp [KNN.calculate_distance, data.get_normalized_feature_vector, tied_record, tied_query,
    KNN.distance_loop, libstdcxx]

theorem distance_vector_tied :
    KNN.distance_vector libstdcxx tied_query tied_training =
      some ((List.range 17).map (fun i => ((0 : ℚ), tied_record i))) := by
  simp [tied_training, List.range, List.range.loop, KNN.distance_vector, calculate_distance_tied]

theorem sort_tied :
    introsort.sort distance_less ((List.range 17).map (fun i => ((0 : ℚ), tied_record i))) =
      ([8, 16, 15, 14, 13, 12, 11, 10, 9, 0, 7, 6, 5, 4, 3, 2, 1].map
        (fun i => ((0 : ℚ), tied_record i))) := by
  decide

theorem find_tied (k : Int) :
    KNN.find_k_nearest_neighbors libstdcxx
        { k := k, neighbors := [], trainingData := tied_training, testDataSet := [],
          validationDataSet := [] } tied_query =
      some { k := k,
             neighbors := (([8, 16, 15, 14, 13, 12, 11, 10, 9, 0, 7, 6, 5, 4, 3, 2, 1].map
               tied_record).take (min k 17).toNat),
             trainingData := tied_training, testDataSet := [], validationDataSet := [] } := by
  rw [KNN.find_k_nearest_neighbors_eq _ _ _ _ distance_vector_tied]
  have hs : libstdcxx.sort distance_less ((List.range 17).map (fun i => ((0 : ℚ), tied_record i))) =
      ([8, 16, 15, 14, 13, 12, 11, 10, 9, 0, 7, 6, 5, 4, 3, 2, 1].map
        (fun i => ((0 : ℚ), tied_record i))) := sort_tied
  rw [hs]
  have hc : KNN.selected_count k 17 = (min k 17).toNat := KNN.selected_count_of_le k 17 (by decide)
  simp only [List.length_map, List.length_cons, List.length_nil]
  rw [hc, List.map_take]
  simp

theorem calculate_distance_line (a b : ℚ) (la lb : Int) :
    KNN.calculate_distance libstdcxx (sample_record [a] la) (sample_record [b] lb) =
      some |a - b| := by
  simp only [KNN.calculate_distance, data.get_normalized_feature_vector, sample_record,
    KNN.distance_loop, libstdcxx, List.length_singleton, Option.bind_eq_bind, Option.some_bind,
    List.getElem?_cons_zero, Option.pure_def, zero_add, Rat.sqrt_eq]

theorem distance_vector_vote :
    KNN.distance_vector libstdcxx vote_query vote_knn.trainingData =
      some [(0, sample_record [0] 1), (1, sample_record [1] 1), (2, sample_record [2] 2),
        (3, sample_record [3] 2)] := by
  simp only [vote_knn, vote_query, KNN.distance_vector, calculate_distance_line,
    Option.bind_eq_bind, Option.some_bind, Option.pure_def]
  norm_num

theorem find_vote :
    KNN.find_k_nearest_neighbors libstdcxx vote_knn vote_query =
      some { vote_knn with neighbors := vote_knn.trainingData } := by
  rw [KNN.find_k_nearest_neighbors_eq _ _ _ _ distance_vector_vote]
  decide

/-! ## Evaluation without neighbours -/

namespace KNN

/-- With an empty training collection or `k <= 0` no neighbour is selected and `predict`
returns the sentinel. -/
theorem predict_without_neighbors (L : StdLib) (hS : L.SortContract)
    (hI : L.IterationContract) (self : KNN) (q : data)
    (hwf : ∀ t ∈ self.trainingData, same_dimension q t)
    (hempty : self.trainingData = [] ∨ self.k ≤ 0) :
    predict L self q = some (-1, { self with neighbors := [] }) := by
  obtain ⟨self1, sorted, hfind, hframe, hnb, hperm, -, -⟩ :=
    find_k_nearest_neighbors_core L hS self q hwf
  have hnil : self1.neighbors = [] := by
    rw [hnb]
    rcases hempty with h | h
    · have : sorted = [] := by
        have hlen := hperm.length_eq
        rw [h] at hlen
        exact List.length_eq_zero.mp (by simpa using hlen)
      simp [this]
    · have hzero : selected_count self.k sorted.length = 0 := by
        unfold selected_count
        omega
      simp [hzero]
  have hiter : L.iteration [] = [] := List.Perm.eq_nil (hI [])
  rw [predict_eq L self self1 q hfind, hframe, hnil]
  simp [vote_map, hiter, max_votes_loop]

/-- With an empty training collection or `k <= 0` the counting loop runs over every
query, leaves the counter as it is, and ends with an empty neighbour list. -/
theorem count_correct_without_neighbors (L : StdLib) (hS : L.SortContract)
    (hI : L.IterationContract) :
    ∀ (queries : List data) (self : KNN) (correct : Int),
      (∀ q ∈ queries, ∀ t ∈ self.trainingData, same_dimension q t) →
      (self.trainingData = [] ∨ self.k ≤ 0) →
      count_correct L self queries correct =
        some (correct, if queries = [] then self else { self with neighbors := [] }) := by
  intro queries
  induction queries with
  | nil => intro self correct _ _; simp [count_correct]
  | cons q rest ih =>
    intro self correct hwf hempty
    have hpred := predict_without_neighbors L hS hI self q (hwf q (List.mem_cons_self _ _))
      hempty
    have hlabel : ¬ ((-1 : Int) = (q.get_enumerated_label : Int)) := by omega
    have hrest := ih { self with neighbors := [] } correct
      (fun x hx t ht => hwf x (List.mem_cons_of_mem _ hx) t ht) hempty
    simp only [count_correct, hpred, Option.bind_eq_bind, Option.some_bind, hlabel, if_false,
      hrest]
    by_cases hr : rest = [] <;> simp [hr]

end KNN

/-! ## The distance as a sum of squares -/

theorem squared_distance_nil_left (b : List ℚ) : squared_distance [] b = 0 := by
  simp [squared_distance]

theorem squared_distance_cons (x y : ℚ) (a b : List ℚ) :
    squared_distance (x :: a) (y :: b) = (x - y) ^ 2 + squared_distance a b := by
  simp [squared_distance]

theorem squared_distance_comm : ∀ a b : List ℚ, squared_distance a b = squared_distance b a := by
  intro a
  induction a with
  | nil => intro b; cases b <;> simp [squared_distance]
  | cons x a ih =>
    intro b
    cases b with
    | nil => simp [squared_distance]
    | cons y b =>
      rw [squared_distance_cons, squared_distance_cons, ih b]
      ring

theorem squared_distance_self : ∀ a : List ℚ, squared_distance a a = 0 := by
  intro a
  induction a with
  | nil => simp [squared_distance]
  | cons x a ih => rw [squared_distance_cons, ih]; simp

theorem squared_distance_nonneg : ∀ a b : List ℚ, 0 ≤ squared_distance a b := by
  intro a
  induction a with
  | nil => intro b; simp [squared_distance]
  | cons x a ih =>
    intro b
    cases b with
    | nil => simp [squared_distance]
    | cons y b =>
      rw [squared_distance_cons]
      have := ih b
      positivity

namespace KNN

/-- The loop of `calculate_distance` adds the squared differences of the next
`remaining` positions, when both vectors have them. -/
theorem distance_loop_eq (qf xf : List ℚ) :
    ∀ (remaining i : Nat) (sum : ℚ), i + remaining ≤ qf.length → i + remaining ≤ xf.length →
      distance_loop qf xf remaining i sum =
        some (sum + squared_distance ((qf.drop i).take remaining) ((xf.drop i).take remaining)) := by
  intro remaining
  induction remaining with
  | zero => intro i sum _ _; simp [distance_loop, squared_distance]
  | succ n ih =>
    intro i sum hq hx
    have hiq : i < qf.length := by omega
    have hix : i < xf.length := by omega
    have hdq : qf.drop i = qf[i] :: qf.drop (i + 1) := List.drop_eq_getElem_cons hiq
    have hdx : xf.drop i = xf[i] :: xf.drop (i + 1) := List.drop_eq_getElem_cons hix
    rw [hdq, hdx, List.take_succ_cons, List.take_succ_cons, squared_distance_cons]
    simp only [distance_loop, List.getElem?_eq_getElem hiq, List.getElem?_eq_getElem hix,
      Option.bind_eq_bind, Option.some_bind]
    rw [ih (i + 1) _ (by omega) (by omega)]
    congr 1
    ring

/-- The loop of `calculate_distance` reads past the end of the input vector when it is
shorter than the number of positions left. -/
theorem distance_loop_eq_none (qf xf : List ℚ) :
    ∀ (remaining i : Nat) (sum : ℚ), i ≤ xf.length → xf.length < i + remaining →
      distance_loop qf xf remaining i sum = none := by
  intro remaining
  induction remaining with
  | zero => intro i sum h1 h2; omega
  | succ n ih =>
    intro i sum h1 h2
    by_cases hix : i < xf.length
    · cases hq : qf[i]? with
      | none => simp [distance_loop, hq]
      | some q =>
        simp only [distance_loop, hq, List.getElem?_eq_getElem hix, Option.bind_eq_bind,
          Option.some_bind]
        exact ih (i + 1) _ (by omega) (by omega)
    · have hnone : xf[i]? = none := List.getElem?_eq_none (by omega)
      cases hq : qf[i]? with
      | none => simp [distance_loop, hq]
      | some q => simp [distance_loop, hq, hnone]

/-- `calculate_distance` on two vectors, the second at least as long as the first: the
square root of the sum of squares over the positions of the first. -/
theorem calculate_distance_eq (L : StdLib) (a b : data) (av bv : List ℚ)
    (ha : a.normalized_feature_vector = some av) (hb : b.normalized_feature_vector = some bv)
    (hlen : av.length ≤ bv.length) :
    calculate_distance L a b = some (L.sqrt (squared_distance av (bv.take av.length))) := by
  have hloop := distance_loop_eq av bv av.length 0 0 (by omega) (by omega)
  simp only [List.drop_zero, List.take_length, zero_add] at hloop
  simp [calculate_distance, data.get_normalized_feature_vector, ha, hb, hloop]

end KNN

theorem libstdcxx_sqrt_zero : libstdcxx.sqrt 0 = 0 := by
  show Rat.sqrt 0 = 0
  decide

theorem libstdcxx_sqrt_nonneg (x : ℚ) : 0 ≤ libstdcxx.sqrt x := Rat.sqrt_nonneg x

/-! ## The interpolated square root -/

theorem interpolated_sqrt_bounds (x : ℚ) (hx : 0 ≤ x) :
    ((Nat.sqrt ⌊x⌋₊ : ℚ)) ^ 2 ≤ x ∧ x < ((Nat.sqrt ⌊x⌋₊ : ℚ) + 1) ^ 2 := by
  constructor
  · have h1 : (Nat.sqrt ⌊x⌋₊) ^ 2 ≤ ⌊x⌋₊ := Nat.sqrt_le' _
    have h2 : ((⌊x⌋₊ : ℕ) : ℚ) ≤ x := Nat.floor_le hx
    have h3 : (((Nat.sqrt ⌊x⌋₊) ^ 2 : ℕ) : ℚ) ≤ ((⌊x⌋₊ : ℕ) : ℚ) := by exact_mod_cast h1
    push_cast at h3
    linarith
  · have h1 : ⌊x⌋₊ < (Nat.sqrt ⌊x⌋₊ + 1) ^ 2 := Nat.lt_succ_sqrt' _
    have h2 : x < ((⌊x⌋₊ : ℕ) : ℚ) + 1 := Nat.lt_floor_add_one x
    have h3 : ((⌊x⌋₊ : ℕ) : ℚ) + 1 ≤ (((Nat.sqrt ⌊x⌋₊ + 1) ^ 2 : ℕ) : ℚ) := by
      exact_mod_cast h1
    push_cast at h3
    linarith

theorem interpolated_sqrt_range (x : ℚ) (hx : 0 ≤ x) :
    (Nat.sqrt ⌊x⌋₊ : ℚ) ≤ interpolated_sqrt x ∧
    interpolated_sqrt x < (Nat.sqrt ⌊x⌋₊ : ℚ) + 1 := by
  obtain ⟨hlo, hhi⟩ := interpolated_sqrt_bounds x hx
  have hpos : (0 : ℚ) < 2 * (Nat.sqrt ⌊x⌋₊ : ℚ) + 1 := by positivity
  unfold interpolated_sqrt
  constructor
  · have : 0 ≤ (x - (Nat.sqrt ⌊x⌋₊ : ℚ) ^ 2) / (2 * (Nat.sqrt ⌊x⌋₊ : ℚ) + 1) :=
      div_nonneg (by linarith) (le_of_lt hpos)
    linarith
  · have : (x - (Nat.sqrt ⌊x⌋₊ : ℚ) ^ 2) / (2 * (Nat.sqrt ⌊x⌋₊ : ℚ) + 1) < 1 := by
      rw [div_lt_one hpos]
      nlinarith
    linarith

/-- The interpolated square root is strictly increasing on the non-negative rationals. -/
theorem interpolated_sqrt_strict_mono (x y : ℚ) (hx : 0 ≤ x) (hxy : x < y) :
    interpolated_sqrt x < interpolated_sqrt y := by
  have hy : 0 ≤ y := le_trans hx (le_of_lt hxy)
  have hfloor : ⌊x⌋₊ ≤ ⌊y⌋₊ := Nat.floor_mono (le_of_lt hxy)
  have hsqrt : Nat.sqrt ⌊x⌋₊ ≤ Nat.sqrt ⌊y⌋₊ := Nat.sqrt_le_sqrt hfloor
  rcases Nat.eq_or_lt_of_le hsqrt with heq | hlt
  · unfold interpolated_sqrt
    rw [heq]
    have hpos : (0 : ℚ) < 2 * (Nat.sqrt ⌊y⌋₊ : ℚ) + 1 := by positivity
    have : (x - (Nat.sqrt ⌊y⌋₊ : ℚ) ^ 2) / (2 * (Nat.sqrt ⌊y⌋₊ : ℚ) + 1) <
        (y - (Nat.sqrt ⌊y⌋₊ : ℚ) ^ 2) / (2 * (Nat.sqrt ⌊y⌋₊ : ℚ) + 1) :=
      div_lt_div_of_pos_right (by linarith) hpos
    linarith
  · have h1 := (interpolated_sqrt_range x hx).2
    have h2 := (interpolated_sqrt_range y hy).1
    have h3 : (Nat.sqrt ⌊x⌋₊ : ℚ) + 1 ≤ (Nat.sqrt ⌊y⌋₊ : ℚ) := by exact_mod_cast hlt
    linarith

theorem interpolating_library_sort_contract : interpolating_library.SortContract :=
  fun l => libstdcxx_sort_contract l

theorem interpolating_library_iteration_contract : interpolating_library.IterationContract :=
  fun m => libstdcxx_iteration_contract m

/-! ## The nearest neighbour decides for `k = 1` -/

namespace KNN

theorem distance_vector_isSome_of_defined (L : StdLib) (q : data) :
    ∀ (train : List data), (∀ t ∈ train, ∃ d, calculate_distance L q t = some d) →
      ∃ dv, distance_vector L q train = some dv := by
  intro train
  induction train with
  | nil => intro _; exact ⟨[], rfl⟩
  | cons t rest ih =>
    intro h
    obtain ⟨d, hd⟩ := h t (List.mem_cons_self _ _)
    obtain ⟨tail, htail⟩ := ih (fun x hx => h x (List.mem_cons_of_mem _ hx))
    exact ⟨(d, t) :: tail, by simp [distance_vector, hd, htail]⟩

/-- With `k = 1`, when a training record with the enumerated label `label` is at the
smallest distance and every training record at that distance has the same label,
`predict` returns `label`, and the neighbour list is one training record. -/
theorem predict_nearest (L : StdLib) (hS : L.SortContract) (hI : L.IterationContract)
    (self : KNN) (q : data) (label : Int) (hk : self.k = 1)
    (hlen : self.trainingData.length ≤ INT_MAX)
    (t : data) (dt : ℚ) (ht : t ∈ self.trainingData)
    (hdt : calculate_distance L q t = some dt)
    (hmin : ∀ x ∈ self.trainingData, ∃ dx, calculate_distance L q x = some dx ∧
      (dx ≤ dt → (x.get_enumerated_label : Int) = label)) :
    ∃ n ∈ self.trainingData, (n.get_enumerated_label : Int) = label ∧
      predict L self q = some (label, { self with neighbors := [n] }) := by
  obtain ⟨dv, hdv⟩ := distance_vector_isSome_of_defined L q self.trainingData
    (fun x hx => let ⟨dx, h, _⟩ := hmin x hx; ⟨dx, h⟩)
  obtain ⟨hmap, hdist⟩ := distance_vector_spec L q self.trainingData dv hdv
  obtain ⟨hperm, hsorted⟩ := hS dv
  have hfind := find_k_nearest_neighbors_eq L self q dv hdv
  generalize L.sort distance_less dv = sorted at hperm hsorted hfind
  have hlen2 : sorted.length = self.trainingData.length := by
    rw [hperm.length_eq, ← hmap, List.length_map]
  -- the pair of `t` is in the sorted vector
  obtain ⟨pt, hpt, hpt2⟩ : ∃ p ∈ dv, p.2 = t := by
    rw [← hmap] at ht
    obtain ⟨p, hp, hp2⟩ := List.mem_map.mp ht
    exact ⟨p, hp, hp2⟩
  have hpt1 : pt.1 = dt := by
    have := hdist pt hpt
    rw [hpt2, hdt] at this
    exact (Option.some.inj this).symm
  have hpts : pt ∈ sorted := hperm.symm.subset hpt
  cases hs : sorted with
  | nil => rw [hs] at hpts; exact absurd hpts (List.not_mem_nil _)
  | cons p0 rest =>
    rw [hs] at hpts hsorted hlen2 hfind
    have hp0 : p0 ∈ dv := hperm.subset (by rw [hs]; exact List.mem_cons_self _ _)
    have hp0d := hdist p0 hp0
    have hp0t : p0.2 ∈ self.trainingData := by
      rw [← hmap]
      exact List.mem_map_of_mem Prod.snd hp0
    have hle : p0.1 ≤ dt := by
      rcases List.mem_cons.mp hpts with h | h
      · rw [← hpt1, h]
      · have := (List.pairwise_cons.mp hsorted).1 pt h
        rw [← hpt1]
        simpa [distance_less] using this
    obtain ⟨dx, hdx, hlabel⟩ := hmin p0.2 hp0t
    have hdx2 : dx = p0.1 := by
      rw [hp0d] at hdx
      exact (Option.some.inj hdx).symm
    have hlab0 : (p0.2.get_enumerated_label : Int) = label := hlabel (by rw [hdx2]; exact hle)
    have hcount : selected_count self.k (p0 :: rest).length = 1 := by
      rw [selected_count_of_le _ _ (by rw [hlen2]; exact hlen), hk]
      simp only [List.length_cons]
      omega
    rw [hcount] at hfind
    simp only [List.take_succ_cons, List.take_zero, List.map_cons, List.map_nil] at hfind
    refine ⟨p0.2, hp0t, hlab0, ?_⟩
    rw [predict_eq L self _ q hfind]
    have hvm : vote_map [p0.2] = [((p0.2.get_enumerated_label : Int), 1)] := by
      simp [vote_map, vote_increment]
    have hit : L.iteration [((p0.2.get_enumerated_label : Int), (1 : Int))] =
        [((p0.2.get_enumerated_label : Int), 1)] := List.perm_singleton.mp (hI _)
    simp only [hvm]
    simp only [hit]
    simp [max_votes_loop, hlab0]

theorem calculate_distance_plane (L : StdLib) (a1 a2 b1 b2 : ℚ) (la lb : Int) :
    calculate_distance L (sample_record [a1, a2] la) (sample_record [b1, b2] lb) =
      some (L.sqrt ((a1 - b1) ^ 2 + (a2 - b2) ^ 2)) := by
  rw [calculate_distance_eq L _ _ [a1, a2] [b1, b2] rfl rfl (le_refl _)]
  simp [squared_distance]

end KNN

/-! ## `split_data` -/

namespace data_handler

theorem move_loop_eq (arr : List data) :
    ∀ (count i : Nat) (dest : List data), i + count ≤ arr.length →
      move_loop arr count i dest = some (dest ++ (arr.drop i).take count) := by
  intro count
  induction count with
  | zero => intro i dest _; simp [move_loop]
  | succ n ih =>
    intro i dest h
    have hi : i < arr.length := by omega
    simp only [move_loop, List.getElem?_eq_getElem hi, Option.bind_eq_bind, Option.some_bind]
    rw [ih (i + 1) _ (by omega), List.drop_eq_getElem_cons hi, List.take_succ_cons]
    simp

theorem train_size_eq (n : Nat) : static_cast_size_t ((n : ℚ) * TRAIN_SET_PERCENT) = 3 * n / 4 := by
  unfold static_cast_size_t TRAIN_SET_PERCENT
  have h : (n : ℚ) * (3 / 4) = ((3 * n : ℕ) : ℚ) / ((4 : ℕ) : ℚ) := by
    push_cast
    ring
  rw [h, Nat.floor_div_eq_div]

theorem test_size_eq (n : Nat) : static_cast_size_t ((n : ℚ) * TEST_SET_PERCENT) = n / 5 := by
  unfold static_cast_size_t TEST_SET_PERCENT
  have h : (n : ℚ) * (1 / 5) = ((n : ℕ) : ℚ) / ((5 : ℕ) : ℚ) := by
    push_cast
    ring
  rw [h, Nat.floor_div_eq_div]

/-- What `split_data` does for a shuffle that permutes the vector: it returns, the
first `3 n / 4` records of the shuffled vector are appended to the training partition,
the next `n / 5` to the test partition, the others to the validation partition, and
`data_array` is cleared. -/
theorem split_data_eq (shuffle : List data → List data)
    (hshuffle : ∀ l, (shuffle l).Perm l) (self : data_handler) :
    split_data shuffle self = some { self with
      data_array := [],
      training_data := self.training_data ++
        (shuffle self.data_array).take (3 * self.data_array.length / 4),
      test_data := self.test_data ++
        ((shuffle self.data_array).drop (3 * self.data_array.length / 4)).take
          (self.data_array.length / 5),
      validation_data := self.validation_data ++
        (shuffle self.data_array).drop
          (3 * self.data_array.length / 4 + self.data_array.length / 5) } := by
  have hlen : (shuffle self.data_array).length = self.data_array.length :=
    (hshuffle self.data_array).length_eq
  have h1 := move_loop_eq (shuffle self.data_array) (3 * self.data_array.length / 4) 0
    self.training_data (by omega)
  have h2 := move_loop_eq (shuffle self.data_array) (self.data_array.length / 5)
    (3 * self.data_array.length / 4) self.test_data (by omega)
  have h3 := move_loop_eq (shuffle self.data_array)
    (self.data_array.length - (3 * self.data_array.length / 4 + self.data_array.length / 5))
    (3 * self.data_array.length / 4 + self.data_array.length / 5) self.validation_data
    (by omega)
  have h4 : ((shuffle self.data_array).drop
      (3 * self.data_array.length / 4 + self.data_array.length / 5)).take
      (self.data_array.length - (3 * self.data_array.length / 4 + self.data_array.length / 5)) =
      (shuffle self.data_array).drop
        (3 * self.data_array.length / 4 + self.data_array.length / 5) := by
    apply List.take_of_length_le
    rw [List.length_drop, hlen]
  rw [h4] at h3
  simp only [List.drop_zero] at h1
  simp only [split_data, train_size_eq, test_size_eq, h1, h2, h3, Option.bind_eq_bind,
    Option.some_bind, Option.pure_def]

end data_handler

/-! ## `count_classes` -/

theorem first_appearance_rank_append_of_mem (s t : List Nat) (key : Nat) (hk : key ∈ s) :
    first_appearance_rank (s ++ t) key = first_appearance_rank s key := by
  unfold first_appearance_rank
  have hlt : s.indexOf key < s.length := List.indexOf_lt_length.mpr hk
  rw [List.indexOf_append_of_mem hk, List.take_append_of_le_length (le_of_lt hlt)]

theorem first_appearance_rank_of_not_mem (s t : List Nat) (key : Nat) (hk : key ∉ s) :
    first_appearance_rank (s ++ key :: t) key = s.toFinset.card := by
  unfold first_appearance_rank
  rw [List.indexOf_append_of_not_mem hk, List.indexOf_cons_self, Nat.add_zero,
    List.take_left']
  rfl

theorem not_mem_take_indexOf (l : List Nat) (key : Nat) : key ∉ l.take (l.indexOf key) := by
  induction l with
  | nil => simp
  | cons a rest ih =>
    by_cases h : a = key
    · subst h
      simp
    · rw [List.indexOf_cons_ne _ h, List.take_succ_cons]
      simp only [List.mem_cons, not_or]
      exact ⟨fun h2 => h h2.symm, ih⟩

/-- The rank of a label that occurs is below the number of distinct labels. -/
theorem first_appearance_rank_lt (labels : List Nat) (key : Nat) (hk : key ∈ labels) :
    first_appearance_rank labels key < labels.toFinset.card := by
  unfold first_appearance_rank
  apply Finset.card_lt_card
  rw [Finset.ssubset_iff_of_subset]
  · exact ⟨key, List.mem_toFinset.mpr hk,
      fun h => not_mem_take_indexOf labels key (List.mem_toFinset.mp h)⟩
  · intro x hx
    exact List.mem_toFinset.mpr (List.mem_of_mem_take (List.mem_toFinset.mp hx))

/-- A label that first occurs earlier has a smaller rank. -/
theorem first_appearance_rank_lt_of_indexOf_lt (labels : List Nat) (a b : Nat)
    (ha : a ∈ labels) (hab : labels.indexOf a < labels.indexOf b) :
    first_appearance_rank labels a < first_appearance_rank labels b := by
  unfold first_appearance_rank
  apply Finset.card_lt_card
  rw [Finset.ssubset_iff_of_subset]
  · refine ⟨a, ?_, fun h => not_mem_take_indexOf labels a (List.mem_toFinset.mp h)⟩
    rw [List.mem_toFinset, List.mem_take_iff_getElem]
    have hlt : labels.indexOf a < labels.length := List.indexOf_lt_length.mpr ha
    refine ⟨labels.indexOf a, ?_, ?_⟩
    · exact lt_min hab hlt
    · exact List.getElem_indexOf hlt
  · intro x hx
    rw [List.mem_toFinset] at hx ⊢
    exact (List.take_subset_take_left labels (le_of_lt hab)) hx

/-- Two labels that occur have the same rank exactly when they are equal. -/
theorem first_appearance_rank_inj (labels : List Nat) (a b : Nat) (ha : a ∈ labels)
    (hb : b ∈ labels) :
    first_appearance_rank labels a = first_appearance_rank labels b ↔ a = b := by
  constructor
  · intro h
    rcases Nat.lt_trichotomy (labels.indexOf a) (labels.indexOf b) with hlt | heq | hgt
    · have := first_appearance_rank_lt_of_indexOf_lt labels a b ha hlt
      omega
    · exact List.indexOf_inj ha hb |>.mp heq
    · have := first_appearance_rank_lt_of_indexOf_lt labels b a hb hgt
      omega
  · intro h
    rw [h]

theorem card_toFinset_le_of_bytes (labels : List Nat) (h : ∀ key ∈ labels, key < 256) :
    labels.toFinset.card ≤ 256 := by
  have hsub : labels.toFinset ⊆ Finset.range 256 := by
    intro x hx
    exact Finset.mem_range.mpr (h x (List.mem_toFinset.mp hx))
  simpa using Finset.card_le_card hsub

namespace data_handler

theorem try_emplace_spec (m : List (Nat × Int)) (key : Nat) (value : Int) :
    (∃ v, (key, v) ∈ m ∧ try_emplace m key value = (m, v)) ∨
    (key ∉ m.map Prod.fst ∧ try_emplace m key value = (m ++ [(key, value)], value)) := by
  induction m with
  | nil => right; simp [try_emplace]
  | cons e rest ih =>
    obtain ⟨k, v⟩ := e
    unfold try_emplace
    by_cases h : k = key
    · subst h
      left
      exact ⟨v, List.mem_cons_self _ _, by simp⟩
    · simp only [h, if_false]
      rcases ih with ⟨w, hw, heq⟩ | ⟨hnot, heq⟩
      · left
        exact ⟨w, List.mem_cons_of_mem _ hw, by rw [heq]⟩
      · right
        refine ⟨?_, by rw [heq]; rfl⟩
        simp only [List.map_cons, List.mem_cons, not_or]
        exact ⟨fun h2 => h h2.symm, hnot⟩

theorem class_map_invariant_step (m : List (Nat × Int)) (seen : List Nat) (label : Nat)
    (hlabel : label < 256) (h : ClassMapInvariant m seen) :
    ClassMapInvariant (try_emplace m label (static_cast_int m.length)).1 (seen ++ [label]) ∧
    (try_emplace m label (static_cast_int m.length)).2 =
      (first_appearance_rank (seen ++ [label]) label : Int) := by
  obtain ⟨hentries, hkeys, hsize, hbytes⟩ := h
  have hbytes2 : ∀ key ∈ seen ++ [label], key < 256 := by
    intro key hk
    rcases List.mem_append.mp hk with hk | hk
    · exact hbytes key hk
    · rw [List.mem_singleton.mp hk]
      exact hlabel
  have hold : ∀ p ∈ m, p.1 ∈ seen ++ [label] ∧
      p.2 = (first_appearance_rank (seen ++ [label]) p.1 : Int) := by
    intro p hp
    obtain ⟨h1, h2⟩ := hentries p hp
    exact ⟨List.mem_append_left _ h1, by rw [first_appearance_rank_append_of_mem _ _ _ h1, h2]⟩
  rcases try_emplace_spec m label (static_cast_int m.length) with ⟨v, hv, heq⟩ | ⟨hnot, heq⟩
  · obtain ⟨hseen, hval⟩ := hentries (label, v) hv
    simp only at hseen hval
    rw [heq]
    refine ⟨⟨hold, ?_, ?_, hbytes2⟩, ?_⟩
    · intro key hk
      rcases List.mem_append.mp hk with hk | hk
      · exact hkeys key hk
      · rw [List.mem_singleton.mp hk]
        exact List.mem_map_of_mem Prod.fst hv
    · rw [hsize, List.toFinset_append]
      congr 1
      ext x
      simp only [Finset.mem_union, List.mem_toFinset, List.mem_singleton]
      constructor
      · intro hx; exact Or.inl hx
      · rintro (hx | hx)
        · exact hx
        · rw [hx]; exact hseen
    · simp only
      rw [hval, first_appearance_rank_append_of_mem _ _ _ hseen]
  · have hnew : label ∉ seen := fun hmem => hnot (hkeys label hmem)
    have hcast : static_cast_int m.length = (m.length : Int) := by
      apply static_cast_int_of_le
      rw [hsize]
      have := card_toFinset_le_of_bytes seen hbytes
      unfold INT_MAX
      omega
    have hrank : first_appearance_rank (seen ++ [label]) label = seen.toFinset.card :=
      first_appearance_rank_of_not_mem seen [] label hnew
    rw [heq]
    refine ⟨⟨?_, ?_, ?_, hbytes2⟩, ?_⟩
    · intro p hp
      rcases List.mem_append.mp hp with hp | hp
      · exact hold p hp
      · rw [List.mem_singleton.mp hp]
        simp only
        refine ⟨List.mem_append_right _ (List.mem_singleton_self _), ?_⟩
        rw [hcast, hrank, hsize]
    · intro key hk
      rw [List.map_append]
      rcases List.mem_append.mp hk with hk | hk
      · exact List.mem_append_left _ (hkeys key hk)
      · exact List.mem_append_right _ (by simpa using hk)
    · rw [List.length_append, hsize, List.toFinset_append]
      simp only [List.length_singleton, List.toFinset_cons, List.toFinset_nil,
        insert_emptyc_eq]
      rw [Finset.union_comm, ← Finset.insert_eq, Finset.card_insert_of_not_mem]
      simpa using hnew
    · simp only
      rw [hcast, hrank, hsize]

/-- The first loop of `count_classes` gives every record the first-appearance rank of
its label among the labels seen before and the labels of the records of the loop. -/
theorem enumerate_labels_spec :
    ∀ (todo : List data) (m : List (Nat × Int)) (seen : List Nat), ClassMapInvariant m seen →
      (enumerate_labels todo m).1 = todo.map (fun d => d.set_enumerated_label
        (first_appearance_rank (seen ++ todo.map data.get_label) d.get_label : Int)) ∧
      ClassMapInvariant (enumerate_labels todo m).2 (seen ++ todo.map data.get_label) := by
  intro todo
  induction todo with
  | nil => intro m seen h; simpa [enumerate_labels] using h
  | cons d rest ih =>
    intro m seen h
    have hbyte : d.get_label < 256 := by
      unfold data.get_label
      omega
    obtain ⟨hinv, hval⟩ := class_map_invariant_step m seen d.get_label hbyte h
    obtain ⟨hrecords, hinv2⟩ := ih _ _ hinv
    have happ : seen ++ [d.get_label] ++ rest.map data.get_label =
        seen ++ (d :: rest).map data.get_label := by
      simp
    rw [happ] at hrecords hinv2
    refine ⟨?_, hinv2⟩
    simp only [enumerate_labels, List.map_cons]
    rw [hrecords, hval]
    congr 2
    have hsplit : seen ++ d.get_label :: rest.map data.get_label =
        (seen ++ [d.get_label]) ++ rest.map data.get_label := by simp
    rw [hsplit, first_appearance_rank_append_of_mem _ _ _
      (List.mem_append_right _ (List.mem_singleton_self _))]

theorem set_class_vectors_spec (class_counts : Int) (hc : 0 ≤ class_counts) :
    ∀ records : List data,
      (∀ d ∈ records, 0 ≤ d.enum_label ∧ d.enum_label < class_counts) →
      set_class_vectors class_counts records =
        some (records.map (fun d =>
          { d with class_vector := some (one_hot class_counts d.enum_label) })) := by
  intro records
  induction records with
  | nil => intro _; rfl
  | cons d rest ih =>
    intro h
    have hd := h d (List.mem_cons_self _ _)
    have hrest := ih (fun x hx => h x (List.mem_cons_of_mem _ hx))
    have hnot : ¬ class_counts < 0 := not_lt.mpr hc
    simp [set_class_vectors, data.set_class_vector, hnot, hd, hrest, one_hot]

/-- What `count_classes` does on a handler whose class map is empty: it returns, every
record gets the first-appearance rank of its raw label and the one-hot class vector,
and `class_counts` is the number of distinct raw labels. -/
theorem count_classes_eq (self : data_handler) (hfresh : self.classFromInt = []) :
    ∃ m : List (Nat × Int),
      count_classes self = some { self with
        data_array := self.data_array.map (fun d =>
          { d with
            enum_label :=
              (first_appearance_rank (self.data_array.map data.get_label) d.get_label : Int),
            class_vector := some (one_hot
              ((self.data_array.map data.get_label).toFinset.card : Int)
              (first_appearance_rank (self.data_array.map data.get_label) d.get_label : Int)) }),
        classFromInt := m,
        class_counts := ((self.data_array.map data.get_label).toFinset.card : Int) } := by
  have h0 : ClassMapInvariant [] [] := ⟨by simp, by simp, by simp, by simp⟩
  obtain ⟨hrecords, hinv⟩ := enumerate_labels_spec self.data_array [] [] h0
  simp only [List.nil_append] at hrecords hinv
  obtain ⟨-, -, hsize, hbytes⟩ := hinv
  have hcast : static_cast_int (enumerate_labels self.data_array []).2.length =
      ((self.data_array.map data.get_label).toFinset.card : Int) := by
    rw [static_cast_int_of_le, hsize]
    rw [hsize]
    have := card_toFinset_le_of_bytes _ hbytes
    unfold INT_MAX
    omega
  refine ⟨(enumerate_labels self.data_array []).2, ?_⟩
  have hvec := set_class_vectors_spec
    ((self.data_array.map data.get_label).toFinset.card : Int) (by positivity)
    (enumerate_labels self.data_array []).1 (by
      intro d hd
      rw [hrecords] at hd
      obtain ⟨d0, hd0, rfl⟩ := List.mem_map.mp hd
      simp only [data.set_enumerated_label]
      have := first_appearance_rank_lt (self.data_array.map data.get_label) d0.get_label
        (List.mem_map_of_mem data.get_label hd0)
      constructor
      · exact Int.ofNat_nonneg _
      · exact_mod_cast this)
  rw [hrecords] at hvec
  simp only [count_classes, hfresh, hcast, hrecords, hvec, Option.bind_eq_bind,
    Option.some_bind, Option.pure_def, List.map_map]
  rfl

end data_handler

/-! ## `normalize`: the first pass -/

namespace data_handler

/-- On an empty `data_array`, `normalize` writes one line to `std::cerr` and returns
with the object as it was. -/
theorem normalize_of_empty (L : StdLib) (self : data_handler) (h : self.data_array = []) :
    data_handler.normalize L self =
      some (self, [HandlerOutput.cerr "No data to normalize."]) := by
  simp [data_handler.normalize, h]

/-- The product `delta * delta2` of one step of the first pass is `delta ^ 2 * (1 - 1 / n)`,
which is not negative for `n ≥ 1`. -/
theorem increment_nonneg (n : Nat) (hn : 1 ≤ n) (x m : ℚ) :
    0 ≤ (x - m) * (x - (m + (x - m) / (n : ℚ))) := by
  have hn1 : (1 : ℚ) ≤ (n : ℚ) := by exact_mod_cast hn
  have hpos : (0 : ℚ) < (n : ℚ) := by linarith
  have h : (x - m) * (x - (m + (x - m) / (n : ℚ))) = (x - m) ^ 2 * (1 - 1 / (n : ℚ)) := by
    ring
  rw [h]
  apply mul_nonneg (sq_nonneg _)
  have h1 : 1 / (n : ℚ) ≤ 1 := by
    rw [div_le_one hpos]
    exact hn1
  linarith

/-- The inner loop of the first pass keeps the lengths of `mean` and `M2`. -/
theorem statistics_record_length (n : Nat) (fv : List Nat) :
    ∀ (remaining i : Nat) (mean M2 : List ℚ) (r : List ℚ × List ℚ),
      statistics_record n fv remaining i mean M2 = some r →
      r.1.length = mean.length ∧ r.2.length = M2.length := by
  intro remaining
  induction remaining with
  | zero =>
    intro i mean M2 r h
    simp only [statistics_record, Option.some.injEq] at h
    subst h
    exact ⟨rfl, rfl⟩
  | succ k ih =>
    intro i mean M2 r h
    simp only [statistics_record, Option.bind_eq_bind] at h
    obtain ⟨byte, _, h⟩ := Option.bind_eq_some.mp h
    obtain ⟨m, _, h⟩ := Option.bind_eq_some.mp h
    obtain ⟨s, _, h⟩ := Option.bind_eq_some.mp h
    have hr := ih (i + 1) _ _ r h
    simpa using hr

/-- The inner loop of the first pass keeps every entry of `M2` non-negative. -/
theorem statistics_record_nonneg (n : Nat) (hn : 1 ≤ n) (fv : List Nat) :
    ∀ (remaining i : Nat) (mean M2 : List ℚ) (r : List ℚ × List ℚ),
      statistics_record n fv remaining i mean M2 = some r →
      (∀ s ∈ M2, 0 ≤ s) → ∀ s ∈ r.2, 0 ≤ s := by
  intro remaining
  induction remaining with
  | zero =>
    intro i mean M2 r h hM
    simp only [statistics_record, Option.some.injEq] at h
    subst h
    exact hM
  | succ k ih =>
    intro i mean M2 r h hM
    simp only [statistics_record, Option.bind_eq_bind] at h
    obtain ⟨byte, _, h⟩ := Option.bind_eq_some.mp h
    obtain ⟨m, _, h⟩ := Option.bind_eq_some.mp h
    obtain ⟨s, hs, h⟩ := Option.bind_eq_some.mp h
    refine ih (i + 1) _ _ r h ?_
    intro t ht
    rcases List.mem_or_eq_of_mem_set ht with ht1 | ht2
    · exact hM t ht1
    · rw [ht2]
      exact add_nonneg (hM s (List.getElem?_mem hs)) (increment_nonneg n hn _ _)

/-- The inner loop of the first pass returns when the record has a byte, `mean` a
slot and `M2` a slot at every index it visits. -/
theorem statistics_record_isSome (n : Nat) (fv : List Nat) :
    ∀ (remaining i : Nat) (mean M2 : List ℚ),
      i + remaining ≤ fv.length → i + remaining ≤ mean.length → i + remaining ≤ M2.length →
      (statistics_record n fv remaining i mean M2).isSome = true := by
  intro remaining
  induction remaining with
  | zero =>
    intro i mean M2 _ _ _
    simp [statistics_record]
  | succ k ih =>
    intro i mean M2 h1 h2 h3
    have hi1 : i < fv.length := by omega
    have hi2 : i < mean.length := by omega
    have hi3 : i < M2.length := by omega
    simp only [statistics_record, List.getElem?_eq_getElem hi1, List.getElem?_eq_getElem hi2,
      List.getElem?_eq_getElem hi3, Option.bind_eq_bind, Option.some_bind]
    apply ih
    · omega
    · rw [List.length_set]; omega
    · rw [List.length_set]; omega

/-- The first pass keeps the lengths of `mean` and `M2`. -/
theorem statistics_pass_length (n size : Nat) :
    ∀ (records : List data) (mean M2 : List ℚ) (r : List ℚ × List ℚ),
      statistics_pass n size records mean M2 = some r →
      r.1.length = mean.length ∧ r.2.length = M2.length := by
  intro records
  induction records with
  | nil =>
    intro mean M2 r h
    simp only [statistics_pass, Option.some.injEq] at h
    subst h
    exact ⟨rfl, rfl⟩
  | cons d rest ih =>
    intro mean M2 r h
    simp only [statistics_pass, Option.bind_eq_bind] at h
    obtain ⟨r1, hr1, h⟩ := Option.bind_eq_some.mp h
    have hl := statistics_record_length n _ size 0 mean M2 r1 hr1
    have hr := ih r1.1 r1.2 r h
    exact ⟨hr.1.trans hl.1, hr.2.trans hl.2⟩

/-- The first pass keeps every entry of `M2` non-negative. -/
theorem statistics_pass_nonneg (n : Nat) (hn : 1 ≤ n) (size : Nat) :
    ∀ (records : List data) (mean M2 : List ℚ) (r : List ℚ × List ℚ),
      statistics_pass n size records mean M2 = some r →
      (∀ s ∈ M2, 0 ≤ s) → ∀ s ∈ r.2, 0 ≤ s := by
  intro records
  induction records with
  | nil =>
    intro mean M2 r h hM
    simp only [statistics_pass, Option.some.injEq] at h
    subst h
    exact hM
  | cons d rest ih =>
    intro mean M2 r h hM
    simp only [statistics_pass, Option.bind_eq_bind] at h
    obtain ⟨r1, hr1, h⟩ := Option.bind_eq_some.mp h
    exact ih r1.1 r1.2 r h (statistics_record_nonneg n hn _ size 0 mean M2 r1 hr1 hM)

/-- The first pass returns when every record has at least `size` bytes and `mean` and
`M2` have at least `size` slots. -/
theorem statistics_pass_isSome (n size : Nat) :
    ∀ (records : List data) (mean M2 : List ℚ),
      (∀ d ∈ records, size ≤ d.feature_vector.length) → size ≤ mean.length →
      size ≤ M2.length → (statistics_pass n size records mean M2).isSome = true := by
  intro records
  induction records with
  | nil =>
    intro mean M2 _ _ _
    simp [statistics_pass]
  | cons d rest ih =>
    intro mean M2 hrec h2 h3
    have hd : size ≤ d.get_feature_vector.length := hrec d (List.mem_cons_self d rest)
    have h := statistics_record_isSome n d.get_feature_vector size 0 mean M2
      (by omega) (by omega) (by omega)
    obtain ⟨r1, hr1⟩ := Option.isSome_iff_exists.mp h
    have hl := statistics_record_length n _ size 0 mean M2 r1 hr1
    simp only [statistics_pass, hr1, Option.bind_eq_bind, Option.some_bind]
    apply ih
    · intro e he
      exact hrec e (List.mem_cons_of_mem d he)
    · omega
    · omega

/-- The vectors after the first pass of `normalize` on a non-empty `data_array` whose
records have at least `feature_vector_size` bytes: both have `feature_vector_size`
entries and no entry of `M2` is negative. -/
theorem statistics_spec (self : data_handler) (hne : self.data_array ≠ [])
    (hsize : 0 ≤ self.feature_vector_size)
    (hrec : ∀ d ∈ self.data_array, self.feature_vector_size.toNat ≤ d.feature_vector.length) :
    ∃ mean M2 : List ℚ, self.statistics = some (mean, M2) ∧
      mean.length = self.feature_vector_size.toNat ∧
      M2.length = self.feature_vector_size.toNat ∧ ∀ s ∈ M2, 0 ≤ s := by
  have hn : 1 ≤ self.data_array.length := List.length_pos.mpr hne
  have hnot : ¬ self.feature_vector_size < 0 := not_lt.mpr hsize
  have h := statistics_pass_isSome self.data_array.length self.feature_vector_size.toNat
    self.data_array (List.replicate self.feature_vector_size.toNat 0)
    (List.replicate self.feature_vector_size.toNat 0) hrec (by simp) (by simp)
  obtain ⟨r, hr⟩ := Option.isSome_iff_exists.mp h
  have hl := statistics_pass_length _ _ _ _ _ r hr
  have hnn := statistics_pass_nonneg _ hn _ _ _ _ r hr (by
    intro s hs
    rw [List.eq_of_mem_replicate hs])
  refine ⟨r.1, r.2, ?_, ?_, ?_, hnn⟩
  · simp only [statistics, hnot, if_false, hr]
  · simpa using hl.1
  · simpa using hl.2

end data_handler

/-! ## `normalize`: the divisors and the last pass -/

namespace data_handler

theorem standard_deviation_length (L : StdLib) (n : Nat) (M2 : List ℚ) :
    (standard_deviation L n M2).length = M2.length := by
  simp [standard_deviation]

theorem replace_zero_length (std_dev : List ℚ) :
    (replace_zero std_dev).length = std_dev.length := by
  simp [replace_zero]

/-- After the third loop of `normalize` no standard deviation is 0. -/
theorem replace_zero_ne_zero (std_dev : List ℚ) : ∀ s ∈ replace_zero std_dev, s ≠ 0 := by
  intro s hs
  simp only [replace_zero, List.mem_map] at hs
  obtain ⟨t, _, ht⟩ := hs
  by_cases h0 : t = 0
  · rw [if_pos h0] at ht
    rw [← ht]
    exact one_ne_zero
  · rw [if_neg h0] at ht
    rw [← ht]
    exact h0

/-- The third loop of `normalize` at one index: 1 where the standard deviation is 0,
the standard deviation elsewhere. -/
theorem replace_zero_getElem? (std_dev : List ℚ) (j : Nat) :
    (replace_zero std_dev)[j]? = (std_dev[j]?).map (fun s => if s = 0 then 1 else s) := by
  simp [replace_zero]

/-- With fewer than two records every divisor of the last pass is 1. -/
theorem replace_zero_of_few (L : StdLib) (n : Nat) (hn : n < 2) (M2 : List ℚ) :
    replace_zero (standard_deviation L n M2) = List.replicate M2.length 1 := by
  induction M2 with
  | nil => rfl
  | cons s rest ih =>
    simp only [standard_deviation, replace_zero, List.map_cons, List.map_map] at ih ⊢
    simp only [hn, if_true, List.length_cons, List.replicate_succ]
    rw [← ih]
    simp [hn]

/-- The inner loop of the last pass returns a vector with one entry for every index it
visits: the byte, minus the mean, over the divisor of that index. -/
theorem normalized_vector_spec (fv : List Nat) (mean std_dev : List ℚ) :
    ∀ (remaining j : Nat), j + remaining ≤ fv.length → j + remaining ≤ mean.length →
      j + remaining ≤ std_dev.length →
      ∃ v : List ℚ, normalized_vector fv mean std_dev remaining j = some v ∧
        v.length = remaining ∧
        ∀ t : Nat, t < remaining → ∃ (byte : Nat) (m s : ℚ), fv[j + t]? = some byte ∧
          mean[j + t]? = some m ∧ std_dev[j + t]? = some s ∧
          v[t]? = some (((byte : ℚ) - m) / s) := by
  intro remaining
  induction remaining with
  | zero =>
    intro j _ _ _
    exact ⟨[], by simp [normalized_vector], rfl, fun t ht => absurd ht (Nat.not_lt_zero t)⟩
  | succ k ih =>
    intro j h1 h2 h3
    have hj1 : j < fv.length := by omega
    have hj2 : j < mean.length := by omega
    have hj3 : j < std_dev.length := by omega
    obtain ⟨tail, htail, hlen, hspec⟩ := ih (j + 1) (by omega) (by omega) (by omega)
    refine ⟨(((fv[j] : Nat) : ℚ) - mean[j]) / std_dev[j] :: tail, ?_, ?_, ?_⟩
    · simp only [normalized_vector, List.getElem?_eq_getElem hj1, List.getElem?_eq_getElem hj2,
        List.getElem?_eq_getElem hj3, htail, Option.bind_eq_bind, Option.some_bind,
        Option.pure_def]
    · simp [hlen]
    · intro t ht
      cases t with
      | zero =>
        exact ⟨fv[j], mean[j], std_dev[j], by simp [List.getElem?_eq_getElem hj1],
          by simp [List.getElem?_eq_getElem hj2], by simp [List.getElem?_eq_getElem hj3],
          by simp⟩
      | succ u =>
        obtain ⟨byte, m, s, hb, hm, hs, hv⟩ := hspec u (by omega)
        have hidx : j + (u + 1) = j + 1 + u := by omega
        refine ⟨byte, m, s, ?_, ?_, ?_, ?_⟩
        · rw [hidx]; exact hb
        · rw [hidx]; exact hm
        · rw [hidx]; exact hs
        · simpa using hv

/-- The last pass of `normalize` returns; it leaves as many records as it found, and
every record it leaves is a record it found with the normalized vector set to the
vector of the inner loop. -/
theorem normalize_records_spec (size : Nat) (mean std_dev : List ℚ)
    (hm : size ≤ mean.length) (hs : size ≤ std_dev.length) :
    ∀ records : List data, (∀ d ∈ records, size ≤ d.feature_vector.length) →
      ∃ arr : List data, normalize_records size mean std_dev records = some arr ∧
        arr.length = records.length ∧
        ∀ d ∈ arr, ∃ d0 ∈ records, ∃ v : List ℚ,
          normalized_vector d0.get_feature_vector mean std_dev size 0 = some v ∧
          d = d0.set_normalized_feature_vector v := by
  intro records
  induction records with
  | nil =>
    intro _
    exact ⟨[], by simp [normalize_records], rfl, fun d hd => absurd hd (List.not_mem_nil d)⟩
  | cons d0 rest ih =>
    intro hrec
    have hd0 : size ≤ d0.get_feature_vector.length := hrec d0 (List.mem_cons_self d0 rest)
    obtain ⟨v, hv, _, _⟩ := normalized_vector_spec d0.get_feature_vector mean std_dev size 0
      (by omega) (by omega) (by omega)
    obtain ⟨tail, htail, hlen, hspec⟩ := ih (fun e he => hrec e (List.mem_cons_of_mem d0 he))
    refine ⟨d0.set_normalized_feature_vector v :: tail, ?_, ?_, ?_⟩
    · simp only [normalize_records, hv, htail, Option.bind_eq_bind, Option.some_bind,
        Option.pure_def]
    · simp [hlen]
    · intro d hd
      rcases List.mem_cons.mp hd with h | h
      · exact ⟨d0, List.mem_cons_self d0 rest, v, hv, h⟩
      · obtain ⟨e, he, w, hw, hdw⟩ := hspec d h
        exact ⟨e, List.mem_cons_of_mem d0 he, w, hw, hdw⟩

/-- What `normalize` does on a non-empty `data_array` whose records have at least
`feature_vector_size` bytes: the first pass returns `mean` and `M2`, the last pass
returns the records `arr` with the divisors `replace_zero (standard_deviation ..)`,
and `normalize` returns with `arr` in `data_array`. -/
theorem normalize_spec (L : StdLib) (self : data_handler) (hne : self.data_array ≠ [])
    (hsize : 0 ≤ self.feature_vector_size)
    (hrec : ∀ d ∈ self.data_array, self.feature_vector_size.toNat ≤ d.feature_vector.length) :
    ∃ (mean M2 : List ℚ) (arr : List data), self.statistics = some (mean, M2) ∧
      mean.length = self.feature_vector_size.toNat ∧
      M2.length = self.feature_vector_size.toNat ∧ (∀ s ∈ M2, 0 ≤ s) ∧
      normalize_records self.feature_vector_size.toNat mean
        (replace_zero (standard_deviation L self.data_array.length M2)) self.data_array =
        some arr ∧
      arr.length = self.data_array.length ∧
      (∀ d ∈ arr, ∃ d0 ∈ self.data_array, ∃ v : List ℚ,
        normalized_vector d0.get_feature_vector mean
          (replace_zero (standard_deviation L self.data_array.length M2))
          self.feature_vector_size.toNat 0 = some v ∧
        d = d0.set_normalized_feature_vector v) ∧
      data_handler.normalize L self = some ({ self with data_array := arr },
        zero_deviation_output 0 (standard_deviation L self.data_array.length M2) ++
          [HandlerOutput.cout "Data normalization completed successfully."]) := by
  obtain ⟨mean, M2, hstat, hlm, hlM, hnn⟩ := statistics_spec self hne hsize hrec
  obtain ⟨arr, harr, hlen, hspec⟩ := normalize_records_spec self.feature_vector_size.toNat mean
    (replace_zero (standard_deviation L self.data_array.length M2)) (by omega)
    (by rw [replace_zero_length, standard_deviation_length]; omega) self.data_array hrec
  have hn : ¬ self.data_array.length = 0 := fun h => hne (List.length_eq_zero.mp h)
  refine ⟨mean, M2, arr, hstat, hlm, hlM, hnn, harr, hlen, hspec, ?_⟩
  simp only [data_handler.normalize, hn, if_false, hstat, harr, Option.bind_eq_bind,
    Option.some_bind, Option.pure_def]

end data_handler

/-! ## `normalize`: what the claims share -/

namespace data_handler

/-- Whenever the first pass of `normalize` on a non-empty `data_array` returns, no
entry of `M2` is negative. -/
theorem statistics_nonneg (self : data_handler) (hne : self.data_array ≠ [])
    (mean M2 : List ℚ) (h : self.statistics = some (mean, M2)) : ∀ s ∈ M2, 0 ≤ s := by
  have hn : 1 ≤ self.data_array.length := List.length_pos.mpr hne
  unfold data_handler.statistics at h
  split at h
  · exact absurd h (by simp)
  · exact statistics_pass_nonneg _ hn _ _ _ _ _ h (by
      intro s hs
      rw [List.eq_of_mem_replicate hs])

/-- Once the first pass has returned `mean` and `M2`, `normalize` on a non-empty
`data_array` is the last pass with the divisors `replace_zero (standard_deviation ..)`. -/
theorem normalize_of_statistics (L : StdLib) (self : data_handler) (hne : self.data_array ≠ [])
    (mean M2 : List ℚ) (h : self.statistics = some (mean, M2)) :
    data_handler.normalize L self =
      (normalize_records self.feature_vector_size.toNat mean
        (replace_zero (standard_deviation L self.data_array.length M2)) self.data_array).map
        (fun arr => ({ self with data_array := arr },
          zero_deviation_output 0 (standard_deviation L self.data_array.length M2) ++
            [HandlerOutput.cout "Data normalization completed successfully."])) := by
  have hn : ¬ self.data_array.length = 0 := fun h0 => hne (List.length_eq_zero.mp h0)
  simp only [data_handler.normalize, hn, if_false, h, Option.bind_eq_bind, Option.some_bind]
  cases normalize_records self.feature_vector_size.toNat mean
    (replace_zero (standard_deviation L self.data_array.length M2)) self.data_array <;> rfl

/-- Every entry of a vector that the inner loop of the last pass returns is the byte
minus the mean over the divisor of its index. -/
theorem normalized_vector_entries (fv : List Nat) (mean std_dev : List ℚ) (size : Nat)
    (h1 : size ≤ fv.length) (h2 : size ≤ mean.length) (h3 : size ≤ std_dev.length)
    (v : List ℚ) (hv : normalized_vector fv mean std_dev size 0 = some v) :
    v.length = size ∧
    ∀ t : Nat, t < size → ∃ (byte : Nat) (m s : ℚ), fv[t]? = some byte ∧
      mean[t]? = some m ∧ std_dev[t]? = some s ∧ v[t]? = some (((byte : ℚ) - m) / s) := by
  obtain ⟨w, hw, hlen, hspec⟩ := normalized_vector_spec fv mean std_dev size 0
    (by omega) (by omega) (by omega)
  rw [hv] at hw
  cases hw
  refine ⟨hlen, ?_⟩
  intro t ht
  simpa using hspec t ht

end data_handler

/-! ## `split_data` and `normalize` in either order -/

namespace data_handler

/-- With no partition filled before and a shuffle that permutes the vector, `split_data`
returns, clears `data_array`, and the three partitions together are a permutation of
the records that were in `data_array`. -/
theorem split_data_perm (shuffle : List data → List data)
    (hshuffle : ∀ l, (shuffle l).Perm l) (self : data_handler)
    (htraining : self.training_data = []) (htest : self.test_data = [])
    (hvalidation : self.validation_data = []) :
    ∃ self1 : data_handler, split_data shuffle self = some self1 ∧ self1.data_array = [] ∧
      (self1.training_data ++ self1.test_data ++ self1.validation_data).Perm
        self.data_array := by
  refine ⟨_, split_data_eq shuffle hshuffle self, rfl, ?_⟩
  simp only [htraining, htest, hvalidation, List.nil_append]
  have hdd : ((shuffle self.data_array).drop (3 * self.data_array.length / 4)).drop
      (self.data_array.length / 5) =
      (shuffle self.data_array).drop
        (3 * self.data_array.length / 4 + self.data_array.length / 5) := by
    simp [List.drop_drop, Nat.add_comm]
  rw [List.append_assoc, ← hdd, List.take_append_drop, List.take_append_drop]
  exact hshuffle self.data_array

end data_handler

/-! # Part III: the claims -/

/-! ## `find_k_nearest_neighbors`: C1 to C5 -/

/-- C1. For every query, every training collection of `n` records (with `n` in the
range of `int`, and with normalized vectors of the query's length) and every integer
`k`, `find_k_nearest_neighbors` returns and leaves exactly `min(k, n)` neighbours when
`k >= 1`, and no neighbour when `k <= 0` or `n = 0`; a `k` larger than `n` gives `n`
neighbours. -/
theorem find_k_nearest_neighbors_size (L : StdLib) (hL : L.SortContract) (self : KNN) (q : data)
    (hwf : ∀ t ∈ self.trainingData, same_dimension q t)
    (hn : self.trainingData.length ≤ INT_MAX) :
    ∃ self1 : KNN, KNN.find_k_nearest_neighbors L self q = some self1 ∧
      (1 ≤ self.k →
        (self1.neighbors.length : Int) = min self.k (self.trainingData.length : Int)) ∧
      (self.k ≤ 0 ∨ self.trainingData.length = 0 → self1.neighbors = []) ∧
      ((self.trainingData.length : Int) < self.k →
        self1.neighbors.length = self.trainingData.length) := by
  obtain ⟨self1, sorted, hfind, -, hnb, hperm, -, -⟩ :=
    KNN.find_k_nearest_neighbors_core L hL self q hwf
  have hlen : sorted.length = self.trainingData.length := by
    simpa using hperm.length_eq
  refine ⟨self1, hfind, ?_, ?_, ?_⟩
  · intro hk
    rw [hnb]
    simp only [List.length_map, List.length_take, hlen, KNN.selected_count_of_le _ _ hn]
    omega
  · intro h
    rw [hnb]
    have h0 : KNN.selected_count self.k sorted.length = 0 ∨ sorted = [] := by
      rcases h with h | h
      · left
        rw [hlen, KNN.selected_count_of_le _ _ hn]
        omega
      · right
        exact List.length_eq_zero.mp (by omega)
    rcases h0 with h0 | h0
    · simp [h0]
    · simp [h0]
  · intro hk
    rw [hnb]
    simp only [List.length_map, List.length_take, hlen, KNN.selected_count_of_le _ _ hn]
    omega

/-- Instance of `find_k_nearest_neighbors_size`. -/
theorem find_k_nearest_neighbors_size_witness :
    libstdcxx.SortContract ∧
    (∀ t ∈ sample_knn.trainingData, same_dimension sample_query t) ∧
    sample_knn.trainingData.length ≤ INT_MAX ∧
    ∃ self1 : KNN, KNN.find_k_nearest_neighbors libstdcxx sample_knn sample_query = some self1 ∧
      (1 ≤ sample_knn.k →
        (self1.neighbors.length : Int) =
          min sample_knn.k (sample_knn.trainingData.length : Int)) ∧
      (sample_knn.k ≤ 0 ∨ sample_knn.trainingData.length = 0 → self1.neighbors = []) ∧
      ((sample_knn.trainingData.length : Int) < sample_knn.k →
        self1.neighbors.length = sample_knn.trainingData.length) :=
  ⟨libstdcxx_sort_contract, by decide, by decide,
    find_k_nearest_neighbors_size libstdcxx libstdcxx_sort_contract sample_knn sample_query
      (by decide) (by decide)⟩

/-- C2. For every query and training collection whose records all have normalized
vectors of the query's length, `find_k_nearest_neighbors` returns and the neighbour
list is non-decreasing in distance to the query: for positions `i < j` of the list the
distance of `neighbors[i]` is at most the distance of `neighbors[j]`. -/
theorem find_k_nearest_neighbors_sorted (L : StdLib) (hL : L.SortContract) (self : KNN)
    (q : data) (hwf : ∀ t ∈ self.trainingData, same_dimension q t) :
    ∃ self1 : KNN, KNN.find_k_nearest_neighbors L self q = some self1 ∧
      ∀ (i j : Nat) (_ : i < j) (hj : j < self1.neighbors.length),
        ∃ di dj, KNN.calculate_distance L q (self1.neighbors[i]) = some di ∧
          KNN.calculate_distance L q (self1.neighbors[j]) = some dj ∧ di ≤ dj := by
  obtain ⟨self1, sorted, hfind, -, hnb, -, hsorted, hdist⟩ :=
    KNN.find_k_nearest_neighbors_core L hL self q hwf
  refine ⟨self1, hfind, ?_⟩
  have hpw : sorted.Pairwise (fun a b => ∃ da db, KNN.calculate_distance L q a.2 = some da ∧
      KNN.calculate_distance L q b.2 = some db ∧ da ≤ db) := by
    refine hsorted.imp_of_mem ?_
    intro a b ha hb hab
    exact ⟨a.1, b.1, hdist a ha, hdist b hb, hab⟩
  have hpw2 : self1.neighbors.Pairwise
      (fun a b => ∃ da db, KNN.calculate_distance L q a = some da ∧
        KNN.calculate_distance L q b = some db ∧ da ≤ db) := by
    rw [hnb, List.pairwise_map]
    exact hpw.sublist (List.take_sublist _ _)
  intro i j hij hj
  exact (List.pairwise_iff_getElem.mp hpw2) i j (lt_trans hij hj) hj hij

/-- Instance of `find_k_nearest_neighbors_sorted`. -/
theorem find_k_nearest_neighbors_sorted_witness :
    libstdcxx.SortContract ∧
    (∀ t ∈ sample_knn.trainingData, same_dimension sample_query t) ∧
    ∃ self1 : KNN, KNN.find_k_nearest_neighbors libstdcxx sample_knn sample_query = some self1 ∧
      ∀ (i j : Nat) (_ : i < j) (hj : j < self1.neighbors.length),
        ∃ di dj, KNN.calculate_distance libstdcxx sample_query (self1.neighbors[i]) = some di ∧
          KNN.calculate_distance libstdcxx sample_query (self1.neighbors[j]) = some dj ∧
          di ≤ dj :=
  ⟨libstdcxx_sort_contract, by decide,
    find_k_nearest_neighbors_sorted libstdcxx libstdcxx_sort_contract sample_knn sample_query
      (by decide)⟩

/-- C3. `find_k_nearest_neighbors` selects the smallest distances: it returns, the
training collection splits into the neighbours and the records left out, and every
record left out is at a distance greater than or equal to the distance of every
neighbour; so is every training record that does not occur in the neighbour list. -/
theorem find_k_nearest_neighbors_k_smallest (L : StdLib) (hL : L.SortContract) (self : KNN)
    (q : data) (hwf : ∀ t ∈ self.trainingData, same_dimension q t) :
    ∃ (self1 : KNN) (rest : List data), KNN.find_k_nearest_neighbors L self q = some self1 ∧
      (self1.neighbors ++ rest).Perm self.trainingData ∧
      (∀ a ∈ self1.neighbors, ∀ b ∈ rest,
        ∃ da db, KNN.calculate_distance L q a = some da ∧
          KNN.calculate_distance L q b = some db ∧ da ≤ db) ∧
      (∀ t ∈ self.trainingData, t ∉ self1.neighbors → ∀ a ∈ self1.neighbors,
        ∃ da dt, KNN.calculate_distance L q a = some da ∧
          KNN.calculate_distance L q t = some dt ∧ da ≤ dt) := by
  obtain ⟨self1, sorted, hfind, -, hnb, hperm, hsorted, hdist⟩ :=
    KNN.find_k_nearest_neighbors_core L hL self q hwf
  have hsplit : (self1.neighbors ++
      (sorted.drop (KNN.selected_count self.k sorted.length)).map Prod.snd).Perm
      self.trainingData := by
    rw [hnb, ← List.map_append, List.take_append_drop]
    exact hperm
  have hle : ∀ a ∈ self1.neighbors,
      ∀ b ∈ (sorted.drop (KNN.selected_count self.k sorted.length)).map Prod.snd,
      ∃ da db, KNN.calculate_distance L q a = some da ∧
        KNN.calculate_distance L q b = some db ∧ da ≤ db := by
    intro a ha b hb
    rw [hnb] at ha
    obtain ⟨pa, hpa, rfl⟩ := List.mem_map.mp ha
    obtain ⟨pb, hpb, rfl⟩ := List.mem_map.mp hb
    have hs : (sorted.take (KNN.selected_count self.k sorted.length) ++
        sorted.drop (KNN.selected_count self.k sorted.length)).Pairwise
        (fun a b => a.1 ≤ b.1) := by
      rw [List.take_append_drop]
      exact hsorted
    exact ⟨pa.1, pb.1, hdist pa (List.mem_of_mem_take hpa), hdist pb (List.mem_of_mem_drop hpb),
      (List.pairwise_append.mp hs).2.2 pa hpa pb hpb⟩
  refine ⟨self1, _, hfind, hsplit, hle, ?_⟩
  intro t ht hnot a ha
  rcases List.mem_append.mp (hsplit.symm.subset ht) with h | h
  · exact absurd h hnot
  · exact hle a ha t h

/-- Instance of `find_k_nearest_neighbors_k_smallest`. -/
theorem find_k_nearest_neighbors_k_smallest_witness :
    libstdcxx.SortContract ∧
    (∀ t ∈ sample_knn.trainingData, same_dimension sample_query t) ∧
    ∃ (self1 : KNN) (rest : List data),
      KNN.find_k_nearest_neighbors libstdcxx sample_knn sample_query = some self1 ∧
      (self1.neighbors ++ rest).Perm sample_knn.trainingData ∧
      (∀ a ∈ self1.neighbors, ∀ b ∈ rest,
        ∃ da db, KNN.calculate_distance libstdcxx sample_query a = some da ∧
          KNN.calculate_distance libstdcxx sample_query b = some db ∧ da ≤ db) ∧
      (∀ t ∈ sample_knn.trainingData, t ∉ self1.neighbors → ∀ a ∈ self1.neighbors,
        ∃ da dt, KNN.calculate_distance libstdcxx sample_query a = some da ∧
          KNN.calculate_distance libstdcxx sample_query t = some dt ∧ da ≤ dt) :=
  ⟨libstdcxx_sort_contract, by decide,
    find_k_nearest_neighbors_k_smallest libstdcxx libstdcxx_sort_contract sample_knn
      sample_query (by decide)⟩

/-- C4. The neighbour list of `find_k_nearest_neighbors` holds no record twice: the
function returns, the list is a prefix of a permutation of the training collection,
every neighbour is a training record, no record occurs more often among the
neighbours than in the training collection, and a training collection of distinct
records gives distinct neighbours. -/
theorem find_k_nearest_neighbors_no_duplicates (L : StdLib) (hL : L.SortContract) (self : KNN)
    (q : data) (hwf : ∀ t ∈ self.trainingData, same_dimension q t) :
    ∃ (self1 : KNN) (l : List data), KNN.find_k_nearest_neighbors L self q = some self1 ∧
      l.Perm self.trainingData ∧
      self1.neighbors = l.take self1.neighbors.length ∧
      (∀ a ∈ self1.neighbors, a ∈ self.trainingData) ∧
      (∀ a, self1.neighbors.count a ≤ self.trainingData.count a) ∧
      (self.trainingData.Nodup → self1.neighbors.Nodup) := by
  obtain ⟨self1, sorted, hfind, -, hnb, hperm, -, -⟩ :=
    KNN.find_k_nearest_neighbors_core L hL self q hwf
  have htake : self1.neighbors =
      (sorted.map Prod.snd).take (KNN.selected_count self.k sorted.length) := by
    rw [hnb, List.map_take]
  have hsub : self1.neighbors.Sublist (sorted.map Prod.snd) := by
    rw [htake]
    exact List.take_sublist _ _
  refine ⟨self1, sorted.map Prod.snd, hfind, hperm, ?_, ?_, ?_, ?_⟩
  · conv_lhs => rw [htake]
    rw [htake]
    simp only [List.length_take, List.length_map]
    rw [List.take_eq_take]
    simp
  · intro a ha
    exact hperm.subset (hsub.subset ha)
  · intro a
    rw [← hperm.count_eq a]
    exact hsub.count_le a
  · intro hnd
    exact (hperm.nodup_iff.mpr hnd).sublist hsub

/-- Instance of `find_k_nearest_neighbors_no_duplicates`. -/
theorem find_k_nearest_neighbors_no_duplicates_witness :
    libstdcxx.SortContract ∧
    (∀ t ∈ sample_knn.trainingData, same_dimension sample_query t) ∧
    ∃ (self1 : KNN) (l : List data),
      KNN.find_k_nearest_neighbors libstdcxx sample_knn sample_query = some self1 ∧
      l.Perm sample_knn.trainingData ∧
      self1.neighbors = l.take self1.neighbors.length ∧
      (∀ a ∈ self1.neighbors, a ∈ sample_knn.trainingData) ∧
      (∀ a, self1.neighbors.count a ≤ sample_knn.trainingData.count a) ∧
      (sample_knn.trainingData.Nodup → self1.neighbors.Nodup) :=
  ⟨libstdcxx_sort_contract, by decide,
    find_k_nearest_neighbors_no_duplicates libstdcxx libstdcxx_sort_contract sample_knn
      sample_query (by decide)⟩

/-- C5, as stated, fails. With the introsort of libstdc++ and seventeen training records
at the same distance from the query, the records at positions 0 and 8 are at equal
distance, yet for `k = 1` the only neighbour is the record at position 8, and for
`k = 17` the record at position 8 comes first and the record at position 0 tenth. -/
theorem tie_break_counterexample :
    libstdcxx.SortContract ∧
    tied_training[0]? = some (tied_record 0) ∧ tied_training[8]? = some (tied_record 8) ∧
    KNN.calculate_distance libstdcxx tied_query (tied_record 0) =
      KNN.calculate_distance libstdcxx tied_query (tied_record 8) ∧
    KNN.find_k_nearest_neighbors libstdcxx
        { k := 1, neighbors := [], trainingData := tied_training, testDataSet := [],
          validationDataSet := [] } tied_query =
      some { k := 1, neighbors := [tied_record 8], trainingData := tied_training,
             testDataSet := [], validationDataSet := [] } ∧
    KNN.find_k_nearest_neighbors libstdcxx
        { k := 17, neighbors := [], trainingData := tied_training, testDataSet := [],
          validationDataSet := [] } tied_query =
      some { k := 17,
             neighbors := [8, 16, 15, 14, 13, 12, 11, 10, 9, 0, 7, 6, 5, 4, 3, 2, 1].map
               tied_record,
             trainingData := tied_training, testDataSet := [], validationDataSet := [] } := by
  refine ⟨libstdcxx_sort_contract, by decide, by decide, ?_, ?_, ?_⟩
  · rw [calculate_distance_tied, calculate_distance_tied]
  · rw [find_tied]
    rfl
  · rw [find_tied]
    rfl

/-- C5, amended. Records at equal distance are ranked in the order `std::sort` leaves
them. For every conforming `std::sort`, `find_k_nearest_neighbors` returns a neighbour
list that has, position by position, the distances of the neighbour list of the stable
ranking (sort by distance, enumeration order kept among equal distances), and that is
the neighbour list of the stable ranking when no two training records are at the same
distance from the query. -/
theorem find_k_nearest_neighbors_up_to_ties (L : StdLib) (hL : L.SortContract) (self : KNN)
    (q : data) (hwf : ∀ t ∈ self.trainingData, same_dimension q t) :
    ∃ self1 self2 : KNN, KNN.find_k_nearest_neighbors L self q = some self1 ∧
      KNN.find_k_nearest_neighbors L.with_stable_sort self q = some self2 ∧
      self1.neighbors.map (KNN.calculate_distance L q) =
        self2.neighbors.map (KNN.calculate_distance L q) ∧
      ((self.trainingData.map (KNN.calculate_distance L q)).Nodup → self1 = self2) := by
  obtain ⟨dv, hdv⟩ := KNN.distance_vector_isSome L q self.trainingData hwf
  obtain ⟨hmap, hdist⟩ := KNN.distance_vector_spec L q self.trainingData dv hdv
  have hdv2 : KNN.distance_vector L.with_stable_sort q self.trainingData = some dv := by
    rw [distance_vector_with_stable_sort, hdv]
  obtain ⟨hp1, hs1⟩ := hL dv
  obtain ⟨hp2, hs2⟩ := with_stable_sort_contract L dv
  have hf1 := KNN.find_k_nearest_neighbors_eq L self q dv hdv
  have hf2 := KNN.find_k_nearest_neighbors_eq L.with_stable_sort self q dv hdv2
  generalize L.sort distance_less dv = s1 at hp1 hs1 hf1
  generalize L.with_stable_sort.sort distance_less dv = s2 at hp2 hs2 hf2
  have hle1 : s1.Pairwise (fun a b => a.1 ≤ b.1) :=
    hs1.imp (fun hab => by simpa [distance_less] using hab)
  have hle2 : s2.Pairwise (fun a b => a.1 ≤ b.1) :=
    hs2.imp (fun hab => by simpa [distance_less] using hab)
  have hlen : s1.length = s2.length := (hp1.trans hp2.symm).length_eq
  have hkeys : s1.map Prod.fst = s2.map Prod.fst := sorted_keys_unique dv s1 s2 hp1 hp2 hle1 hle2
  have hdistances : ∀ (s : List (ℚ × data)) (n : Nat), s.Perm dv →
      ((s.take n).map Prod.snd).map (KNN.calculate_distance L q) =
        ((s.map Prod.fst).take n).map some := by
    intro s n hp
    rw [List.map_map, ← List.map_take, List.map_map]
    apply List.map_congr_left
    intro p hpmem
    exact hdist p (hp.subset (List.mem_of_mem_take hpmem))
  have hd1 := hdistances s1 (KNN.selected_count self.k s1.length) hp1
  have hd2 := hdistances s2 (KNN.selected_count self.k s2.length) hp2
  generalize hn1 : (s1.take (KNN.selected_count self.k s1.length)).map Prod.snd = n1 at hf1 hd1
  generalize hn2 : (s2.take (KNN.selected_count self.k s2.length)).map Prod.snd = n2 at hf2 hd2
  rw [hkeys, hlen] at hd1
  refine ⟨{ self with neighbors := n1 }, { self with neighbors := n2 }, hf1, hf2,
    hd1.trans hd2.symm, ?_⟩
  intro hnd
  have hnd2 : (dv.map Prod.fst).Nodup := by
    have hsome : (dv.map Prod.fst).map some =
        self.trainingData.map (KNN.calculate_distance L q) := by
      rw [← hmap, List.map_map, List.map_map]
      apply List.map_congr_left
      intro p hpmem
      exact (hdist p hpmem).symm
    rw [← hsome] at hnd
    exact hnd.of_map some
  have heq : s1 = s2 := sorted_unique_of_nodup dv s1 s2 hp1 hp2 hle1 hle2 hnd2
  rw [← hn1, ← hn2, heq]

/-- Instance of `find_k_nearest_neighbors_up_to_ties`: the seventeen equidistant records
with the introsort of libstdc++. -/
theorem find_k_nearest_neighbors_up_to_ties_witness :
    libstdcxx.SortContract ∧
    (∀ t ∈ tied_training, same_dimension tied_query t) ∧
    ∃ self1 self2 : KNN,
      KNN.find_k_nearest_neighbors libstdcxx
        { k := 3, neighbors := [], trainingData := tied_training, testDataSet := [],
          validationDataSet := [] } tied_query = some self1 ∧
      KNN.find_k_nearest_neighbors libstdcxx.with_stable_sort
        { k := 3, neighbors := [], trainingData := tied_training, testDataSet := [],
          validationDataSet := [] } tied_query = some self2 ∧
      self1.neighbors.map (KNN.calculate_distance libstdcxx tied_query) =
        self2.neighbors.map (KNN.calculate_distance libstdcxx tied_query) ∧
      ((tied_training.map (KNN.calculate_distance libstdcxx tied_query)).Nodup →
        self1 = self2) :=
  ⟨libstdcxx_sort_contract, by decide,
    find_k_nearest_neighbors_up_to_ties libstdcxx libstdcxx_sort_contract
      { k := 3, neighbors := [], trainingData := tied_training, testDataSet := [],
        validationDataSet := [] } tied_query (by decide)⟩

/-! ## `predict`: C6 to C8 -/

/-- C6. For every query whose neighbour list is not empty, `predict` returns a label
with the highest vote count: no label has more neighbours than the returned label,
the returned label has at least one neighbour, and it is the enumerated label of some
neighbour. -/
theorem predict_majority (L : StdLib) (hI : L.IterationContract) (self self1 : KNN) (q : data)
    (hfind : KNN.find_k_nearest_neighbors L self q = some self1)
    (hne : self1.neighbors ≠ []) :
    ∃ label : Int, KNN.predict L self q = some (label, self1) ∧
      (∀ other : Int, vote_count self1.neighbors other ≤ vote_count self1.neighbors label) ∧
      1 ≤ vote_count self1.neighbors label ∧
      ∃ n ∈ self1.neighbors, (n.get_enumerated_label : Int) = label := by
  obtain ⟨pre, e, post, -, hres, hone, -, hmax⟩ := KNN.vote_winner L hI self1.neighbors hne
  refine ⟨e.1, ?_, hmax, hone, ?_⟩
  · rw [KNN.predict_eq L self self1 q hfind, hres]
  · have hmem : e.1 ∈ neighbor_labels self1.neighbors := List.count_pos_iff.mp hone
    obtain ⟨n, hn, hlab⟩ := List.mem_map.mp hmem
    exact ⟨n, hn, hlab⟩

/-- Instance of `predict_majority`: the four records on a line. -/
theorem predict_majority_witness :
    libstdcxx.IterationContract ∧
    KNN.find_k_nearest_neighbors libstdcxx vote_knn vote_query =
      some { vote_knn with neighbors := vote_knn.trainingData } ∧
    vote_knn.trainingData ≠ [] ∧
    ∃ label : Int, KNN.predict libstdcxx vote_knn vote_query =
        some (label, { vote_knn with neighbors := vote_knn.trainingData }) ∧
      (∀ other : Int, vote_count vote_knn.trainingData other ≤
        vote_count vote_knn.trainingData label) ∧
      1 ≤ vote_count vote_knn.trainingData label ∧
      ∃ n ∈ vote_knn.trainingData, (n.get_enumerated_label : Int) = label :=
  ⟨libstdcxx_iteration_contract, find_vote, by decide,
    predict_majority libstdcxx libstdcxx_iteration_contract vote_knn
      { vote_knn with neighbors := vote_knn.trainingData } vote_query find_vote (by decide)⟩

/-- C7, as stated, fails. The four neighbours, in ascending order of distance, carry the
enumerated labels 1, 1, 2, 2 and `k = 4`; the map is visited most recent key first, as
libstdc++ does, and `predict` returns 2, although label 1 occurs first in the
neighbour list. -/
theorem predict_tie_counterexample :
    libstdcxx.SortContract ∧ libstdcxx.IterationContract ∧
    KNN.find_k_nearest_neighbors libstdcxx vote_knn vote_query =
      some { vote_knn with neighbors := vote_knn.trainingData } ∧
    vote_knn.trainingData.map (KNN.calculate_distance libstdcxx vote_query) =
      [some 0, some 1, some 2, some 3] ∧
    neighbor_labels vote_knn.trainingData = [1, 1, 2, 2] ∧
    KNN.predict libstdcxx vote_knn vote_query =
      some (2, { vote_knn with neighbors := vote_knn.trainingData }) := by
  refine ⟨libstdcxx_sort_contract, libstdcxx_iteration_contract, find_vote, ?_, by decide, ?_⟩
  · simp only [vote_knn, vote_query, List.map_cons, List.map_nil, calculate_distance_line]
    norm_num
  · rw [KNN.predict_eq _ _ _ _ find_vote]
    decide

/-- C7, amended. Vote ties are broken by the iteration order of the `unordered_map`:
for every query whose neighbour list is not empty, `predict` returns the label that the
iteration over `vote_map` visits first among the labels with the highest vote count;
every label visited before it has fewer votes. -/
theorem predict_tie_break_by_iteration (L : StdLib) (hI : L.IterationContract)
    (self self1 : KNN) (q : data)
    (hfind : KNN.find_k_nearest_neighbors L self q = some self1)
    (hne : self1.neighbors ≠ []) :
    ∃ pre e post, L.iteration (KNN.vote_map self1.neighbors) = pre ++ e :: post ∧
      KNN.predict L self q = some (e.1, self1) ∧
      (∀ other : Int, vote_count self1.neighbors other ≤ vote_count self1.neighbors e.1) ∧
      (∀ x ∈ pre, vote_count self1.neighbors x.1 < vote_count self1.neighbors e.1) := by
  obtain ⟨pre, e, post, hl, hres, -, hpre, hmax⟩ := KNN.vote_winner L hI self1.neighbors hne
  refine ⟨pre, e, post, hl, ?_, hmax, hpre⟩
  rw [KNN.predict_eq L self self1 q hfind, hres]

/-- Instance of `predict_tie_break_by_iteration`: the four records on a line. -/
theorem predict_tie_break_by_iteration_witness :
    libstdcxx.IterationContract ∧
    KNN.find_k_nearest_neighbors libstdcxx vote_knn vote_query =
      some { vote_knn with neighbors := vote_knn.trainingData } ∧
    vote_knn.trainingData ≠ [] ∧
    ∃ pre e post,
      libstdcxx.iteration (KNN.vote_map vote_knn.trainingData) = pre ++ e :: post ∧
      KNN.predict libstdcxx vote_knn vote_query =
        some (e.1, { vote_knn with neighbors := vote_knn.trainingData }) ∧
      (∀ other : Int, vote_count vote_knn.trainingData other ≤
        vote_count vote_knn.trainingData e.1) ∧
      (∀ x ∈ pre, vote_count vote_knn.trainingData x.1 <
        vote_count vote_knn.trainingData e.1) :=
  ⟨libstdcxx_iteration_contract, find_vote, by decide,
    predict_tie_break_by_iteration libstdcxx libstdcxx_iteration_contract vote_knn
      { vote_knn with neighbors := vote_knn.trainingData } vote_query find_vote (by decide)⟩

/-- C8. When the training collection is empty or `k <= 0`, `predict` returns the sentinel
`-1` and leaves the neighbour list empty, for every query (with `k <= 0` and training
records present, for every query whose distances to them are defined); and `-1` is not
the enumerated label of any record, which is read as a value from 0 to 255. -/
theorem predict_sentinel (L : StdLib) (hS : L.SortContract) (hI : L.IterationContract)
    (self : KNN) (q : data) (hwf : ∀ t ∈ self.trainingData, same_dimension q t)
    (hempty : self.trainingData = [] ∨ self.k ≤ 0) :
    KNN.predict L self q = some (-1, { self with neighbors := [] }) ∧
    ∀ d : data, (d.get_enumerated_label : Int) ≠ -1 ∧ d.get_enumerated_label ≤ 255 := by
  refine ⟨?_, ?_⟩
  · obtain ⟨self1, sorted, hfind, hframe, hnb, hperm, -, -⟩ :=
      KNN.find_k_nearest_neighbors_core L hS self q hwf
    have hnil : self1.neighbors = [] := by
      rw [hnb]
      rcases hempty with h | h
      · have : sorted = [] := by
          have hlen := hperm.length_eq
          rw [h] at hlen
          exact List.length_eq_zero.mp (by simpa using hlen)
        simp [this]
      · have hzero : KNN.selected_count self.k sorted.length = 0 := by
          unfold KNN.selected_count
          omega
        simp [hzero]
    have hiter : L.iteration [] = [] := List.Perm.eq_nil (hI [])
    rw [KNN.predict_eq L self self1 q hfind, hframe, hnil]
    simp [KNN.vote_map, hiter, KNN.max_votes_loop]
  · intro d
    unfold data.get_enumerated_label
    omega

/-- Instance of `predict_sentinel`: the small classifier with `k = 0`. -/
theorem predict_sentinel_witness :
    libstdcxx.SortContract ∧ libstdcxx.IterationContract ∧
    (∀ t ∈ ({ sample_knn with k := 0 } : KNN).trainingData, same_dimension sample_query t) ∧
    (({ sample_knn with k := 0 } : KNN).trainingData = [] ∨
      ({ sample_knn with k := 0 } : KNN).k ≤ 0) ∧
    (KNN.predict libstdcxx { sample_knn with k := 0 } sample_query =
        some (-1, { ({ sample_knn with k := 0 } : KNN) with neighbors := [] }) ∧
      ∀ d : data, (d.get_enumerated_label : Int) ≠ -1 ∧ d.get_enumerated_label ≤ 255) :=
  ⟨libstdcxx_sort_contract, libstdcxx_iteration_contract, by decide, Or.inr (by decide),
    predict_sentinel libstdcxx libstdcxx_sort_contract libstdcxx_iteration_contract
      { sample_knn with k := 0 } sample_query (by decide) (Or.inr (by decide))⟩

/-! ## `validate` and `test`: C9 and C10 -/

/-- C9. For every non-empty query partition (with at most `INT_MAX` records, and
distances to the training records defined), `validate` and `test` return the accuracy
`correct / total`, where `total` is the number of query records and `correct` the
number of query records whose prediction equals their own enumerated label; so
`correct <= total`, the accuracy lies between 0 and 1, and it is 1 exactly when every
query is predicted correctly. -/
theorem evaluate_accuracy (L : StdLib) (hS : L.SortContract) (self : KNN) (p : Partition)
    (hne : p.queries self ≠ [])
    (hwf : ∀ q ∈ p.queries self, ∀ t ∈ self.trainingData, same_dimension q t)
    (hlen : (p.queries self).length ≤ INT_MAX) :
    ∃ (accuracy : ℚ) (neighbors : List data),
      p.evaluate L self =
        some (accuracy, [Diagnostic.cout_accuracy p.accuracy_message (accuracy * 100)],
          { self with neighbors := neighbors }) ∧
      accuracy = (correct_predictions L self (p.queries self) : ℚ) /
        ((p.queries self).length : ℚ) ∧
      correct_predictions L self (p.queries self) ≤ (p.queries self).length ∧
      0 ≤ accuracy ∧ accuracy ≤ 1 ∧
      (accuracy = 1 ↔ ∀ q ∈ p.queries self,
        predicted_label L self q = some (q.get_enumerated_label : Int)) := by
  obtain ⟨neighbors, heval⟩ := evaluate_nonempty L hS self p hne hwf hlen
  have hle : correct_predictions L self (p.queries self) ≤ (p.queries self).length :=
    List.countP_le_length _
  have hpos : 0 < (p.queries self).length := List.length_pos.mpr hne
  obtain ⟨h0, h1, hiff⟩ := accuracy_bounds _ _ hpos hle
  refine ⟨(correct_predictions L self (p.queries self) : ℚ) / ((p.queries self).length : ℚ),
    neighbors, heval, rfl, hle, h0, h1, ?_⟩
  rw [hiff]
  unfold correct_predictions
  rw [List.countP_eq_length]
  simp

/-- Instance of `evaluate_accuracy`: `validate` on the small classifier. -/
theorem evaluate_accuracy_witness :
    libstdcxx.SortContract ∧
    Partition.validation.queries sample_knn ≠ [] ∧
    (∀ q ∈ Partition.validation.queries sample_knn, ∀ t ∈ sample_knn.trainingData,
      same_dimension q t) ∧
    (Partition.validation.queries sample_knn).length ≤ INT_MAX ∧
    ∃ (accuracy : ℚ) (neighbors : List data),
      Partition.validation.evaluate libstdcxx sample_knn =
        some (accuracy,
          [Diagnostic.cout_accuracy Partition.validation.accuracy_message (accuracy * 100)],
          { sample_knn with neighbors := neighbors }) ∧
      accuracy =
        (correct_predictions libstdcxx sample_knn (Partition.validation.queries sample_knn) : ℚ) /
          ((Partition.validation.queries sample_knn).length : ℚ) ∧
      correct_predictions libstdcxx sample_knn (Partition.validation.queries sample_knn) ≤
        (Partition.validation.queries sample_knn).length ∧
      0 ≤ accuracy ∧ accuracy ≤ 1 ∧
      (accuracy = 1 ↔ ∀ q ∈ Partition.validation.queries sample_knn,
        predicted_label libstdcxx sample_knn q = some (q.get_enumerated_label : Int)) :=
  ⟨libstdcxx_sort_contract, by decide, by decide, by decide,
    evaluate_accuracy libstdcxx libstdcxx_sort_contract sample_knn Partition.validation
      (by decide) (by decide) (by decide)⟩

/-- C10. Evaluating an empty query partition with `validate` or `test` runs no prediction
and no division: it returns the accuracy 0 and writes the "dataset is empty" line to
`std::cerr`. Every evaluation of a non-empty partition writes the accuracy line to
`std::cout` instead, so the two results differ, whatever the accuracy; on a non-empty
partition without a correct prediction the returned accuracy is 0 as well, and the
output is the accuracy line with 0. -/
theorem evaluate_empty (L : StdLib) (self : KNN) (p : Partition)
    (hempty : p.queries self = []) :
    p.evaluate L self = some (0, [Diagnostic.cerr p.empty_message], self) ∧
    (∀ (other : KNN) (accuracy : ℚ) (out : List Diagnostic) (other1 : KNN),
      p.queries other ≠ [] → p.evaluate L other = some (accuracy, out, other1) →
      out = [Diagnostic.cout_accuracy p.accuracy_message (accuracy * 100)] ∧
      (accuracy, out, other1) ≠ ((0 : ℚ), [Diagnostic.cerr p.empty_message], self)) ∧
    (∀ other : KNN, L.SortContract → p.queries other ≠ [] →
      (∀ q ∈ p.queries other, ∀ t ∈ other.trainingData, same_dimension q t) →
      (p.queries other).length ≤ INT_MAX →
      correct_predictions L other (p.queries other) = 0 →
      ∃ neighbors : List data, p.evaluate L other =
        some (0, [Diagnostic.cout_accuracy p.accuracy_message 0],
          { other with neighbors := neighbors })) := by
  refine ⟨?_, ?_, ?_⟩
  · rw [Partition.evaluate_eq, hempty]
    rfl
  · intro other accuracy out other1 hne heval
    have hnonempty : (p.queries other).isEmpty = false := by
      cases h : p.queries other with
      | nil => exact absurd h hne
      | cons _ _ => rfl
    rw [Partition.evaluate_eq, hnonempty] at heval
    simp only [Bool.false_eq_true, if_false, Option.bind_eq_some, Option.some.injEq,
      Prod.mk.injEq] at heval
    obtain ⟨r, -, hacc, hout, -⟩ := heval
    have hout2 : out = [Diagnostic.cout_accuracy p.accuracy_message (accuracy * 100)] := by
      rw [← hout, ← hacc]
    refine ⟨hout2, ?_⟩
    intro heq
    have h2 : out = [Diagnostic.cerr p.empty_message] := by
      have := congrArg (fun t => t.2.1) heq
      simpa using this
    rw [hout2] at h2
    simp at h2
  · intro other hS hne hwf hlen hzero
    obtain ⟨neighbors, heval⟩ := evaluate_nonempty L hS other p hne hwf hlen
    refine ⟨neighbors, ?_⟩
    rw [heval, hzero]
    simp

/-- Instance of `evaluate_empty`: `validate` on the small classifier without validation
records. -/
theorem evaluate_empty_witness :
    Partition.validation.queries { sample_knn with validationDataSet := [] } = [] ∧
    (Partition.validation.evaluate libstdcxx { sample_knn with validationDataSet := [] } =
        some (0, [Diagnostic.cerr Partition.validation.empty_message],
          { sample_knn with validationDataSet := [] }) ∧
      (∀ (other : KNN) (accuracy : ℚ) (out : List Diagnostic) (other1 : KNN),
        Partition.validation.queries other ≠ [] →
        Partition.validation.evaluate libstdcxx other = some (accuracy, out, other1) →
        out = [Diagnostic.cout_accuracy Partition.validation.accuracy_message
          (accuracy * 100)] ∧
        (accuracy, out, other1) ≠
          ((0 : ℚ), [Diagnostic.cerr Partition.validation.empty_message],
            ({ sample_knn with validationDataSet := [] } : KNN))) ∧
      (∀ other : KNN, libstdcxx.SortContract → Partition.validation.queries other ≠ [] →
        (∀ q ∈ Partition.validation.queries other, ∀ t ∈ other.trainingData,
          same_dimension q t) →
        (Partition.validation.queries other).length ≤ INT_MAX →
        correct_predictions libstdcxx other (Partition.validation.queries other) = 0 →
        ∃ neighbors : List data, Partition.validation.evaluate libstdcxx other =
          some (0, [Diagnostic.cout_accuracy Partition.validation.accuracy_message 0],
            { other with neighbors := neighbors }))) :=
  ⟨rfl, evaluate_empty libstdcxx { sample_knn with validationDataSet := [] }
    Partition.validation rfl⟩

/-! ## `validate`, `test` and `predict`: C11 and C12 -/

/-- C11. A missing prediction counts as incorrect and the evaluation goes on: for every
non-empty query partition, when the training collection is empty or `k <= 0`, every
query is predicted as the sentinel `-1`, no query counts as correct, and `validate` and
`test` return, with the accuracy 0 on the accuracy line of `std::cout`. -/
theorem evaluate_without_neighbors (L : StdLib) (hS : L.SortContract)
    (hI : L.IterationContract) (self : KNN) (p : Partition)
    (hne : p.queries self ≠ [])
    (hwf : ∀ q ∈ p.queries self, ∀ t ∈ self.trainingData, same_dimension q t)
    (hempty : self.trainingData = [] ∨ self.k ≤ 0) :
    (∀ q ∈ p.queries self, predicted_label L self q = some (-1) ∧
      (-1 : Int) ≠ (q.get_enumerated_label : Int)) ∧
    correct_predictions L self (p.queries self) = 0 ∧
    p.evaluate L self =
      some (0, [Diagnostic.cout_accuracy p.accuracy_message 0],
        { self with neighbors := [] }) := by
  have hpred : ∀ q ∈ p.queries self, predicted_label L self q = some (-1) := by
    intro q hq
    unfold predicted_label
    rw [KNN.predict_without_neighbors L hS hI self q (hwf q hq) hempty]
    rfl
  refine ⟨fun q hq => ⟨hpred q hq, by omega⟩, ?_, ?_⟩
  · unfold correct_predictions
    rw [List.countP_eq_zero]
    intro q hq
    rw [hpred q hq]
    have hlabel : ¬ ((-1 : Int) = (q.get_enumerated_label : Int)) := by omega
    simp [hlabel]
  · have hcount := KNN.count_correct_without_neighbors L hS hI (p.queries self) self 0 hwf hempty
    have hnonempty : (p.queries self).isEmpty = false := by
      cases h : p.queries self with
      | nil => exact absurd h hne
      | cons _ _ => rfl
    rw [Partition.evaluate_eq, hnonempty, hcount]
    simp [hne]

/-- Instance of `evaluate_without_neighbors`: `validate` on the small classifier with
`k = 0`. -/
theorem evaluate_without_neighbors_witness :
    libstdcxx.SortContract ∧ libstdcxx.IterationContract ∧
    Partition.validation.queries { sample_knn with k := 0 } ≠ [] ∧
    (∀ q ∈ Partition.validation.queries { sample_knn with k := 0 },
      ∀ t ∈ ({ sample_knn with k := 0 } : KNN).trainingData, same_dimension q t) ∧
    (({ sample_knn with k := 0 } : KNN).trainingData = [] ∨
      ({ sample_knn with k := 0 } : KNN).k ≤ 0) ∧
    ((∀ q ∈ Partition.validation.queries { sample_knn with k := 0 },
        predicted_label libstdcxx { sample_knn with k := 0 } q = some (-1) ∧
        (-1 : Int) ≠ (q.get_enumerated_label : Int)) ∧
      correct_predictions libstdcxx { sample_knn with k := 0 }
        (Partition.validation.queries { sample_knn with k := 0 }) = 0 ∧
      Partition.validation.evaluate libstdcxx { sample_knn with k := 0 } =
        some (0, [Diagnostic.cout_accuracy Partition.validation.accuracy_message 0],
          { ({ sample_knn with k := 0 } : KNN) with neighbors := [] })) :=
  ⟨libstdcxx_sort_contract, libstdcxx_iteration_contract, by decide, by decide,
    Or.inr (by decide),
    evaluate_without_neighbors libstdcxx libstdcxx_sort_contract libstdcxx_iteration_contract
      { sample_knn with k := 0 } Partition.validation (by decide) (by decide)
      (Or.inr (by decide))⟩

/-- C12. End-to-end geometry. With the training collection `(0,0) -> A`, `(0,1) -> A`,
`(10,10) -> B`, `(10,11) -> B` and `k = 1`, for a square root that is strictly increasing
on the non-negative numbers: `predict` on each of the four points returns that point's own
label, `validate` and `test` over the four points return the accuracy 1, and `predict`
on the query `(10, 10.5)` returns the label of the `B` records. For every classifier
with `k = 1`: when one training record is strictly closer to the query than every
other training record, `predict` returns that record's label. -/
theorem geometry_end_to_end (L : StdLib) (hS : L.SortContract) (hI : L.IterationContract)
    (hsqrt : ∀ x y : ℚ, 0 ≤ x → x < y → L.sqrt x < L.sqrt y) (A B : Int) :
    (∀ q ∈ geometry_training A B, ∃ n : data,
      KNN.predict L (geometry_knn A B) q =
        some ((q.get_enumerated_label : Int), { geometry_knn A B with neighbors := [n] })) ∧
    (∀ p : Partition, ∃ neighbors : List data,
      p.evaluate L (geometry_knn A B) =
        some (1, [Diagnostic.cout_accuracy p.accuracy_message 100],
          { geometry_knn A B with neighbors := neighbors })) ∧
    (∃ n : data, KNN.predict L (geometry_knn A B) geometry_query =
      some (((sample_record [10, 10] B).get_enumerated_label : Int),
        { geometry_knn A B with neighbors := [n] })) ∧
    (∀ (self : KNN) (q t : data) (before after : List data) (dt : ℚ),
      self.k = 1 → self.trainingData = before ++ t :: after →
      self.trainingData.length ≤ INT_MAX →
      KNN.calculate_distance L q t = some dt →
      (∀ x ∈ before ++ after, ∃ dx, KNN.calculate_distance L q x = some dx ∧ dt < dx) →
      ∃ n : data, KNN.predict L self q =
        some ((t.get_enumerated_label : Int), { self with neighbors := [n] })) := by
  have far : ∀ (a b : ℚ) (P : Prop), 0 ≤ a → a < b → L.sqrt b ≤ L.sqrt a → P :=
    fun a b P ha hab h => absurd h (not_le.mpr (hsqrt a b ha hab))
  have hlen : (geometry_knn A B).trainingData.length ≤ INT_MAX := by
    simp [geometry_knn, geometry_training, INT_MAX]
  have hpoint : ∀ q ∈ geometry_training A B, ∃ n : data,
      KNN.predict L (geometry_knn A B) q =
        some ((q.get_enumerated_label : Int), { geometry_knn A B with neighbors := [n] }) := by
    intro q hq
    have hq2 := hq
    simp only [geometry_training, List.mem_cons, List.mem_singleton, List.not_mem_nil,
      or_false] at hq2
    have hself : KNN.calculate_distance L q q = some (L.sqrt 0) := by
      rcases hq2 with rfl | rfl | rfl | rfl <;>
        (rw [KNN.calculate_distance_plane]; norm_num)
    obtain ⟨n, -, -, hn⟩ := KNN.predict_nearest L hS hI (geometry_knn A B) q
      (q.get_enumerated_label : Int) rfl hlen q (L.sqrt 0) hq hself (by
        intro x hx
        simp only [geometry_knn, geometry_training, List.mem_cons, List.mem_singleton,
          List.not_mem_nil, or_false] at hx
        rcases hq2 with rfl | rfl | rfl | rfl <;> rcases hx with rfl | rfl | rfl | rfl <;>
          refine ⟨_, KNN.calculate_distance_plane L _ _ _ _ _ _, ?_⟩ <;>
          first
            | exact fun _ => rfl
            | exact far 0 _ _ (le_refl 0) (by norm_num))
    exact ⟨n, hn⟩
  refine ⟨hpoint, ?_, ?_, ?_⟩
  · intro p
    have hq : p.queries (geometry_knn A B) = geometry_training A B := by
      cases p <;> rfl
    have hne : p.queries (geometry_knn A B) ≠ [] := by
      rw [hq]
      simp [geometry_training]
    have hwf : ∀ q ∈ p.queries (geometry_knn A B), ∀ t ∈ (geometry_knn A B).trainingData,
        same_dimension q t := by
      rw [hq]
      intro q hq1 t ht
      simp only [geometry_knn, geometry_training, List.mem_cons, List.mem_singleton,
        List.not_mem_nil, or_false] at hq1 ht
      rcases hq1 with rfl | rfl | rfl | rfl <;> rcases ht with rfl | rfl | rfl | rfl <;>
        simp [same_dimension, sample_record]
    have hlen2 : (p.queries (geometry_knn A B)).length ≤ INT_MAX := by
      rw [hq]
      simp [geometry_training, INT_MAX]
    obtain ⟨neighbors, heval⟩ := evaluate_nonempty L hS (geometry_knn A B) p hne hwf hlen2
    have hall : correct_predictions L (geometry_knn A B) (p.queries (geometry_knn A B)) =
        (p.queries (geometry_knn A B)).length := by
      unfold correct_predictions
      rw [List.countP_eq_length]
      intro q hq1
      rw [hq] at hq1
      obtain ⟨n, hn⟩ := hpoint q hq1
      simp [predicted_label, hn]
    refine ⟨neighbors, ?_⟩
    rw [heval, hall, hq]
    simp [geometry_training]
  · obtain ⟨n, -, -, hn⟩ := KNN.predict_nearest L hS hI (geometry_knn A B) geometry_query
      ((sample_record [10, 10] B).get_enumerated_label : Int) rfl hlen
      (sample_record [10, 10] B) _ (by simp [geometry_knn, geometry_training])
      (KNN.calculate_distance_plane L _ _ _ _ _ _) (by
        intro x hx
        simp only [geometry_knn, geometry_training, List.mem_cons, List.mem_singleton,
          List.not_mem_nil, or_false] at hx
        rcases hx with rfl | rfl | rfl | rfl <;>
          refine ⟨_, KNN.calculate_distance_plane L _ _ _ _ _ _, ?_⟩ <;>
          first
            | exact fun _ => rfl
            | exact far _ _ _ (by norm_num) (by norm_num))
    exact ⟨n, hn⟩
  · intro self q t before after dt hk htrain hlen3 hdt hfar
    have ht : t ∈ self.trainingData := by
      rw [htrain]
      simp
    obtain ⟨n, -, -, hn⟩ := KNN.predict_nearest L hS hI self q (t.get_enumerated_label : Int)
      hk hlen3 t dt ht hdt (by
        intro x hx
        rw [htrain] at hx
        rcases List.mem_append.mp hx with h | h
        · obtain ⟨dx, hdx, hlt⟩ := hfar x (List.mem_append_left _ h)
          exact ⟨dx, hdx, fun hle => absurd hle (not_le.mpr hlt)⟩
        · rcases List.mem_cons.mp h with h | h
          · subst h
            exact ⟨dt, hdt, fun _ => rfl⟩
          · obtain ⟨dx, hdx, hlt⟩ := hfar x (List.mem_append_right _ h)
            exact ⟨dx, hdx, fun hle => absurd hle (not_le.mpr hlt)⟩)
    exact ⟨n, hn⟩

/-- Instance of `geometry_end_to_end`: the interpolated square root and the labels 0
and 1. -/
theorem geometry_end_to_end_witness :
    interpolating_library.SortContract ∧ interpolating_library.IterationContract ∧
    (∀ x y : ℚ, 0 ≤ x → x < y → interpolating_library.sqrt x < interpolating_library.sqrt y) ∧
    ((∀ q ∈ geometry_training 0 1, ∃ n : data,
        KNN.predict interpolating_library (geometry_knn 0 1) q =
          some ((q.get_enumerated_label : Int), { geometry_knn 0 1 with neighbors := [n] })) ∧
      (∀ p : Partition, ∃ neighbors : List data,
        p.evaluate interpolating_library (geometry_knn 0 1) =
          some (1, [Diagnostic.cout_accuracy p.accuracy_message 100],
            { geometry_knn 0 1 with neighbors := neighbors })) ∧
      (∃ n : data, KNN.predict interpolating_library (geometry_knn 0 1) geometry_query =
        some (((sample_record [10, 10] 1).get_enumerated_label : Int),
          { geometry_knn 0 1 with neighbors := [n] })) ∧
      (∀ (self : KNN) (q t : data) (before after : List data) (dt : ℚ),
        self.k = 1 → self.trainingData = before ++ t :: after →
        self.trainingData.length ≤ INT_MAX →
        KNN.calculate_distance interpolating_library q t = some dt →
        (∀ x ∈ before ++ after, ∃ dx,
          KNN.calculate_distance interpolating_library q x = some dx ∧ dt < dx) →
        ∃ n : data, KNN.predict interpolating_library self q =
          some ((t.get_enumerated_label : Int), { self with neighbors := [n] }))) :=
  ⟨interpolating_library_sort_contract, interpolating_library_iteration_contract,
    interpolated_sqrt_strict_mono,
    geometry_end_to_end interpolating_library interpolating_library_sort_contract
      interpolating_library_iteration_contract interpolated_sqrt_strict_mono 0 1⟩

/-! ## `calculate_distance`: C13 and C14 -/

/-- C13. For all records `a` and `b` whose normalized vectors have the same length,
`calculate_distance(a, b)` is the square root of the sum over `i` of `(a[i] - b[i])^2`,
it equals `calculate_distance(b, a)`, `calculate_distance(a, a)` is 0, and the value is
not negative, for a square root that is 0 at 0 and not negative on non-negative
numbers. -/
theorem calculate_distance_symmetric (L : StdLib) (h0 : L.sqrt 0 = 0)
    (hnn : ∀ x : ℚ, 0 ≤ x → 0 ≤ L.sqrt x) (a b : data) (av bv : List ℚ)
    (ha : a.normalized_feature_vector = some av) (hb : b.normalized_feature_vector = some bv)
    (hlen : av.length = bv.length) :
    KNN.calculate_distance L a b = some (L.sqrt (squared_distance av bv)) ∧
    KNN.calculate_distance L a b = KNN.calculate_distance L b a ∧
    KNN.calculate_distance L a a = some 0 ∧
    0 ≤ L.sqrt (squared_distance av bv) := by
  have hab := KNN.calculate_distance_eq L a b av bv ha hb (le_of_eq hlen)
  have hba := KNN.calculate_distance_eq L b a bv av hb ha (le_of_eq hlen.symm)
  have haa := KNN.calculate_distance_eq L a a av av ha ha (le_refl _)
  rw [hlen, List.take_length] at hab
  rw [← hlen, List.take_length] at hba
  rw [List.take_length, squared_distance_self, h0] at haa
  refine ⟨hab, ?_, haa, hnn _ (squared_distance_nonneg av bv)⟩
  rw [hab, hba, squared_distance_comm]

/-- Instance of `calculate_distance_symmetric`: two records of the small classifier. -/
theorem calculate_distance_symmetric_witness :
    libstdcxx.sqrt 0 = 0 ∧ (∀ x : ℚ, 0 ≤ x → 0 ≤ libstdcxx.sqrt x) ∧
    (sample_record [3, 4] 1).normalized_feature_vector = some [3, 4] ∧
    (sample_record [1, 0] 0).normalized_feature_vector = some [1, 0] ∧
    ([3, 4] : List ℚ).length = ([1, 0] : List ℚ).length ∧
    (KNN.calculate_distance libstdcxx (sample_record [3, 4] 1) (sample_record [1, 0] 0) =
        some (libstdcxx.sqrt (squared_distance [3, 4] [1, 0])) ∧
      KNN.calculate_distance libstdcxx (sample_record [3, 4] 1) (sample_record [1, 0] 0) =
        KNN.calculate_distance libstdcxx (sample_record [1, 0] 0) (sample_record [3, 4] 1) ∧
      KNN.calculate_distance libstdcxx (sample_record [3, 4] 1) (sample_record [3, 4] 1) =
        some 0 ∧
      0 ≤ libstdcxx.sqrt (squared_distance [3, 4] [1, 0])) :=
  ⟨libstdcxx_sqrt_zero, fun x _ => libstdcxx_sqrt_nonneg x, rfl, rfl, rfl,
    calculate_distance_symmetric libstdcxx libstdcxx_sqrt_zero (fun x _ => libstdcxx_sqrt_nonneg x)
      (sample_record [3, 4] 1) (sample_record [1, 0] 0) [3, 4] [1, 0] rfl rfl rfl⟩

/-- C14, as stated, fails. `calculate_distance` returns a number for two records with
empty normalized vectors, and for a query with two coordinates against a record with
three. -/
theorem calculate_distance_unchecked_counterexample :
    empty_vector_record.normalized_feature_vector = some [] ∧
    KNN.calculate_distance libstdcxx empty_vector_record empty_vector_record = some 0 ∧
    short_record.normalized_feature_vector = some [1, 2] ∧
    long_record.normalized_feature_vector = some [1, 2, 3] ∧
    KNN.calculate_distance libstdcxx short_record long_record = some 0 := by
  refine ⟨rfl, ?_, rfl, rfl, ?_⟩
  · rw [KNN.calculate_distance_eq libstdcxx empty_vector_record empty_vector_record [] [] rfl rfl
      (le_refl _)]
    simp [squared_distance, libstdcxx_sqrt_zero]
  · rw [KNN.calculate_distance_eq libstdcxx short_record long_record [1, 2] [1, 2, 3] rfl rfl
      (by decide)]
    simp [squared_distance, libstdcxx_sqrt_zero]

/-- C14, amended. `calculate_distance` checks no length. It reads the positions of the
query's vector in both vectors: when the record's vector is at least as long as the
query's, it returns the square root of the sum of the squared differences over these
positions, which is the square root of 0 when the query's vector is empty, and the
further coordinates of the record play no part; when the record's vector is shorter,
the loop reads past its end. -/
theorem calculate_distance_unchecked (L : StdLib) (a b : data) (av bv : List ℚ)
    (ha : a.normalized_feature_vector = some av) (hb : b.normalized_feature_vector = some bv) :
    (av.length ≤ bv.length →
      KNN.calculate_distance L a b = some (L.sqrt (squared_distance av (bv.take av.length)))) ∧
    (av = [] → KNN.calculate_distance L a b = some (L.sqrt 0)) ∧
    (bv.length < av.length → KNN.calculate_distance L a b = none) := by
  refine ⟨KNN.calculate_distance_eq L a b av bv ha hb, ?_, ?_⟩
  · intro hnil
    subst hnil
    rw [KNN.calculate_distance_eq L a b [] bv ha hb (Nat.zero_le _)]
    simp [squared_distance]
  · intro hlt
    have hloop := KNN.distance_loop_eq_none av bv av.length 0 0 (Nat.zero_le _) (by omega)
    simp [KNN.calculate_distance, data.get_normalized_feature_vector, ha, hb, hloop]

/-- Instance of `calculate_distance_unchecked`: two coordinates against three. -/
theorem calculate_distance_unchecked_witness :
    short_record.normalized_feature_vector = some [1, 2] ∧
    long_record.normalized_feature_vector = some [1, 2, 3] ∧
    ((([1, 2] : List ℚ).length ≤ ([1, 2, 3] : List ℚ).length →
        KNN.calculate_distance libstdcxx short_record long_record =
          some (libstdcxx.sqrt
            (squared_distance [1, 2] (([1, 2, 3] : List ℚ).take ([1, 2] : List ℚ).length)))) ∧
      (([1, 2] : List ℚ) = [] →
        KNN.calculate_distance libstdcxx short_record long_record =
          some (libstdcxx.sqrt 0)) ∧
      (([1, 2, 3] : List ℚ).length < ([1, 2] : List ℚ).length →
        KNN.calculate_distance libstdcxx short_record long_record = none)) :=
  ⟨rfl, rfl, calculate_distance_unchecked libstdcxx short_record long_record [1, 2] [1, 2, 3]
    rfl rfl⟩

/-! ## `split_data`: C15 and C16 -/

/-- C15. On a dataset of `n` records, with no partition filled before, `split_data`
returns a training partition of `floor(0.75 n)` records, a test partition of
`floor(0.20 n)` records and a validation partition of the other `n - train - test`
records; the three sizes sum to `n`, and for `n = 10000` they are 7500, 2000 and 500. -/
theorem split_data_sizes (shuffle : List data → List data)
    (hshuffle : ∀ l, (shuffle l).Perm l) (self : data_handler)
    (htraining : self.training_data = []) (htest : self.test_data = [])
    (hvalidation : self.validation_data = []) :
    ∃ self1 : data_handler, data_handler.split_data shuffle self = some self1 ∧
      self1.training_data.length = ⌊(self.data_array.length : ℚ) * (3 / 4)⌋₊ ∧
      self1.test_data.length = ⌊(self.data_array.length : ℚ) * (1 / 5)⌋₊ ∧
      self1.validation_data.length =
        self.data_array.length - self1.training_data.length - self1.test_data.length ∧
      self1.training_data.length + self1.test_data.length + self1.validation_data.length =
        self.data_array.length ∧
      (self.data_array.length = 10000 →
        self1.training_data.length = 7500 ∧ self1.test_data.length = 2000 ∧
        self1.validation_data.length = 500) := by
  have hlen : (shuffle self.data_array).length = self.data_array.length :=
    (hshuffle self.data_array).length_eq
  have htr : ⌊(self.data_array.length : ℚ) * (3 / 4)⌋₊ = 3 * self.data_array.length / 4 :=
    data_handler.train_size_eq _
  have hte : ⌊(self.data_array.length : ℚ) * (1 / 5)⌋₊ = self.data_array.length / 5 :=
    data_handler.test_size_eq _
  refine ⟨_, data_handler.split_data_eq shuffle hshuffle self, ?_⟩
  simp only [htraining, htest, hvalidation, List.nil_append, List.length_take, List.length_drop,
    hlen, htr, hte]
  omega

/-- Instance of `split_data_sizes`: five records, left in their order. -/
theorem split_data_sizes_witness :
    (∀ l : List data, (id l).Perm l) ∧
    (fresh_handler ((List.range 5).map (fun i => raw_record [i] i)) 1).training_data = [] ∧
    (fresh_handler ((List.range 5).map (fun i => raw_record [i] i)) 1).test_data = [] ∧
    (fresh_handler ((List.range 5).map (fun i => raw_record [i] i)) 1).validation_data = [] ∧
    ∃ self1 : data_handler,
      data_handler.split_data id
        (fresh_handler ((List.range 5).map (fun i => raw_record [i] i)) 1) = some self1 ∧
      self1.training_data.length =
        ⌊((fresh_handler ((List.range 5).map (fun i => raw_record [i] i)) 1).data_array.length : ℚ)
          * (3 / 4)⌋₊ ∧
      self1.test_data.length =
        ⌊((fresh_handler ((List.range 5).map (fun i => raw_record [i] i)) 1).data_array.length : ℚ)
          * (1 / 5)⌋₊ ∧
      self1.validation_data.length =
        (fresh_handler ((List.range 5).map (fun i => raw_record [i] i)) 1).data_array.length -
          self1.training_data.length - self1.test_data.length ∧
      self1.training_data.length + self1.test_data.length + self1.validation_data.length =
        (fresh_handler ((List.range 5).map (fun i => raw_record [i] i)) 1).data_array.length ∧
      ((fresh_handler ((List.range 5).map (fun i => raw_record [i] i)) 1).data_array.length =
          10000 →
        self1.training_data.length = 7500 ∧ self1.test_data.length = 2000 ∧
        self1.validation_data.length = 500) :=
  ⟨fun l => List.Perm.refl l, rfl, rfl, rfl,
    split_data_sizes id (fun l => List.Perm.refl l)
      (fresh_handler ((List.range 5).map (fun i => raw_record [i] i)) 1) rfl rfl rfl⟩

/-- C16. For every dataset and every shuffle order, with no partition filled before,
`split_data` returns, `data_array` is empty afterwards, and the concatenation of the
training, test and validation partitions is a permutation of the records that were in
`data_array`: no record is created, lost or altered; when the records are distinct,
the partitions are pairwise disjoint. -/
theorem split_data_partitions (shuffle : List data → List data)
    (hshuffle : ∀ l, (shuffle l).Perm l) (self : data_handler)
    (htraining : self.training_data = []) (htest : self.test_data = [])
    (hvalidation : self.validation_data = []) :
    ∃ self1 : data_handler, data_handler.split_data shuffle self = some self1 ∧
      self1.data_array = [] ∧
      (self1.training_data ++ self1.test_data ++ self1.validation_data).Perm self.data_array ∧
      (self.data_array.Nodup →
        self1.training_data.Disjoint self1.test_data ∧
        self1.training_data.Disjoint self1.validation_data ∧
        self1.test_data.Disjoint self1.validation_data) := by
  refine ⟨_, data_handler.split_data_eq shuffle hshuffle self, rfl, ?_, ?_⟩
  · simp only [htraining, htest, hvalidation, List.nil_append]
    have h : (shuffle self.data_array).take (3 * self.data_array.length / 4) ++
        ((shuffle self.data_array).drop (3 * self.data_array.length / 4)).take
          (self.data_array.length / 5) ++
        (shuffle self.data_array).drop
          (3 * self.data_array.length / 4 + self.data_array.length / 5) =
        shuffle self.data_array := by
      have hdd : ((shuffle self.data_array).drop (3 * self.data_array.length / 4)).drop
          (self.data_array.length / 5) =
          (shuffle self.data_array).drop
            (3 * self.data_array.length / 4 + self.data_array.length / 5) := by
        simp [List.drop_drop, Nat.add_comm]
      rw [List.append_assoc, ← hdd, List.take_append_drop, List.take_append_drop]
    rw [h]
    exact hshuffle self.data_array
  · intro hnd
    simp only [htraining, htest, hvalidation, List.nil_append]
    have hs : (shuffle self.data_array).Nodup := (hshuffle self.data_array).nodup_iff.mpr hnd
    generalize shuffle self.data_array = s at hs
    generalize 3 * self.data_array.length / 4 = a
    generalize self.data_array.length / 5 = b
    have h1 : (s.take a ++ s.drop a).Nodup := by rw [List.take_append_drop]; exact hs
    have h2 : ((s.drop a).take b ++ (s.drop a).drop b).Nodup := by
      rw [List.take_append_drop]
      exact hs.sublist (List.drop_sublist a s)
    have hdd : (s.drop a).drop b = s.drop (a + b) := by
      simp [List.drop_drop, Nat.add_comm]
    have hd1 := (List.nodup_append.mp h1).2.2
    have hd2 := (List.nodup_append.mp h2).2.2
    rw [hdd] at hd2
    refine ⟨?_, ?_, hd2⟩
    · exact List.disjoint_of_subset_right (List.take_subset b _) hd1
    · refine List.disjoint_of_subset_right ?_ hd1
      rw [← hdd]
      exact List.drop_subset b _

/-- Instance of `split_data_partitions`: five records, left in their order. -/
theorem split_data_partitions_witness :
    (∀ l : List data, (id l).Perm l) ∧
    (fresh_handler ((List.range 5).map (fun i => raw_record [i] i)) 1).training_data = [] ∧
    (fresh_handler ((List.range 5).map (fun i => raw_record [i] i)) 1).test_data = [] ∧
    (fresh_handler ((List.range 5).map (fun i => raw_record [i] i)) 1).validation_data = [] ∧
    ∃ self1 : data_handler,
      data_handler.split_data id
        (fresh_handler ((List.range 5).map (fun i => raw_record [i] i)) 1) = some self1 ∧
      self1.data_array = [] ∧
      (self1.training_data ++ self1.test_data ++ self1.validation_data).Perm
        (fresh_handler ((List.range 5).map (fun i => raw_record [i] i)) 1).data_array ∧
      ((fresh_handler ((List.range 5).map (fun i => raw_record [i] i)) 1).data_array.Nodup →
        self1.training_data.Disjoint self1.test_data ∧
        self1.training_data.Disjoint self1.validation_data ∧
        self1.test_data.Disjoint self1.validation_data) :=
  ⟨fun l => List.Perm.refl l, rfl, rfl, rfl,
    split_data_partitions id (fun l => List.Perm.refl l)
      (fresh_handler ((List.range 5).map (fun i => raw_record [i] i)) 1) rfl rfl rfl⟩

/-! ## `count_classes`: C17 and C18 -/

/-- C17. `count_classes` assigns enumerated labels densely by first appearance. On a
handler whose class map is empty it returns, the raw labels stay as they are, the
enumerated label of every record is the number of distinct raw labels whose first
occurrence precedes the first occurrence of the record's raw label, `class_counts` is
the number of distinct raw labels, every enumerated label lies in `[0, class_counts)`
and is read back unchanged as a byte, and two records have the same enumerated label
exactly when they have the same raw label. -/
theorem count_classes_first_appearance (self : data_handler)
    (hfresh : self.classFromInt = []) :
    ∃ self1 : data_handler, data_handler.count_classes self = some self1 ∧
      self1.data_array.map data.get_label = self.data_array.map data.get_label ∧
      self1.class_counts = ((self.data_array.map data.get_label).toFinset.card : Int) ∧
      (∀ d ∈ self1.data_array,
        d.enum_label =
          (first_appearance_rank (self.data_array.map data.get_label) d.get_label : Int) ∧
        0 ≤ d.enum_label ∧ d.enum_label < self1.class_counts ∧
        (d.get_enumerated_label : Int) = d.enum_label) ∧
      (∀ d1 ∈ self1.data_array, ∀ d2 ∈ self1.data_array,
        d1.enum_label = d2.enum_label ↔ d1.get_label = d2.get_label) := by
  obtain ⟨m, hcount⟩ := data_handler.count_classes_eq self hfresh
  generalize hlabels : self.data_array.map data.get_label = labels at hcount
  have hmem : ∀ d ∈ self.data_array, d.get_label ∈ labels := by
    intro d hd
    rw [← hlabels]
    exact List.mem_map_of_mem data.get_label hd
  have hbytes : ∀ key ∈ labels, key < 256 := by
    intro key hk
    rw [← hlabels] at hk
    obtain ⟨d, -, rfl⟩ := List.mem_map.mp hk
    unfold data.get_label
    omega
  have hcard := card_toFinset_le_of_bytes labels hbytes
  refine ⟨_, hcount, ?_, rfl, ?_, ?_⟩
  · simp only [List.map_map]
    rw [← hlabels]
    apply List.map_congr_left
    intro d _
    rfl
  · intro d hd
    simp only at hd
    obtain ⟨d0, hd0, rfl⟩ := List.mem_map.mp hd
    have hlt := first_appearance_rank_lt labels d0.get_label (hmem d0 hd0)
    have hsame : ({ d0 with
        enum_label := (first_appearance_rank labels d0.get_label : Int),
        class_vector := some (data_handler.one_hot (labels.toFinset.card : Int)
          (first_appearance_rank labels d0.get_label : Int)) } : data).get_label =
        d0.get_label := rfl
    have hlt2 : ((first_appearance_rank labels d0.get_label : Nat) : Int) <
        ((labels.toFinset.card : Nat) : Int) := by exact_mod_cast hlt
    refine ⟨by rw [hsame], Int.ofNat_nonneg _, hlt2, ?_⟩
    simp only [data.get_enumerated_label]
    omega
  · intro d1 hd1 d2 hd2
    simp only at hd1 hd2
    obtain ⟨a, ha, rfl⟩ := List.mem_map.mp hd1
    obtain ⟨b, hb, rfl⟩ := List.mem_map.mp hd2
    show ((first_appearance_rank labels a.get_label : Int) =
      (first_appearance_rank labels b.get_label : Int)) ↔ a.get_label = b.get_label
    rw [Int.ofNat_inj]
    exact first_appearance_rank_inj labels _ _ (hmem a ha) (hmem b hb)

/-- Instance of `count_classes_first_appearance`: four records with the raw labels
5, 3, 5, 7. -/
theorem count_classes_first_appearance_witness :
    (fresh_handler [raw_record [] 5, raw_record [] 3, raw_record [] 5, raw_record [] 7]
      0).classFromInt = [] ∧
    ∃ self1 : data_handler,
      data_handler.count_classes (fresh_handler
        [raw_record [] 5, raw_record [] 3, raw_record [] 5, raw_record [] 7] 0) = some self1 ∧
      self1.data_array.map data.get_label =
        (fresh_handler [raw_record [] 5, raw_record [] 3, raw_record [] 5, raw_record [] 7]
          0).data_array.map data.get_label ∧
      self1.class_counts =
        (((fresh_handler [raw_record [] 5, raw_record [] 3, raw_record [] 5, raw_record [] 7]
          0).data_array.map data.get_label).toFinset.card : Int) ∧
      (∀ d ∈ self1.data_array,
        d.enum_label =
          (first_appearance_rank
            ((fresh_handler [raw_record [] 5, raw_record [] 3, raw_record [] 5,
              raw_record [] 7] 0).data_array.map data.get_label) d.get_label : Int) ∧
        0 ≤ d.enum_label ∧ d.enum_label < self1.class_counts ∧
        (d.get_enumerated_label : Int) = d.enum_label) ∧
      (∀ d1 ∈ self1.data_array, ∀ d2 ∈ self1.data_array,
        d1.enum_label = d2.enum_label ↔ d1.get_label = d2.get_label) :=
  ⟨rfl, count_classes_first_appearance
    (fresh_handler [raw_record [] 5, raw_record [] 3, raw_record [] 5, raw_record [] 7] 0) rfl⟩

/-- C18. After `count_classes`, on a handler whose class map is empty, every record's
class vector is one-hot. `count_classes` returns, so no bounds-checked write fails;
`data_array` then holds the records it held before, in their order, with the bytes, the
normalized vector, the raw label and the distance as they were; `class_counts` is the
number of distinct raw labels; the class vector of every record is the vector with a 1
at the first-appearance rank of the record's raw label and 0 elsewhere; and for every
record of `data_array` the class vector has the length `class_counts`, the entry 1 at
the position `enum_label`, which is inside the vector, and the entry 0 at every other
position. -/
theorem count_classes_one_hot (self : data_handler) (hfresh : self.classFromInt = []) :
    ∃ self1 : data_handler, data_handler.count_classes self = some self1 ∧
      self1.data_array.length = self.data_array.length ∧
      self1.data_array.map
          (fun d => (d.feature_vector, d.normalized_feature_vector, d.label, d.distance)) =
        self.data_array.map
          (fun d => (d.feature_vector, d.normalized_feature_vector, d.label, d.distance)) ∧
      self1.class_counts = ((self.data_array.map data.get_label).toFinset.card : Int) ∧
      self1.data_array.map data.class_vector =
        self.data_array.map (fun d => some (data_handler.one_hot
          ((self.data_array.map data.get_label).toFinset.card : Int)
          (first_appearance_rank (self.data_array.map data.get_label) d.get_label : Int))) ∧
      ∀ d ∈ self1.data_array, ∃ cv : List Int, d.class_vector = some cv ∧
        (cv.length : Int) = self1.class_counts ∧
        0 ≤ d.enum_label ∧ d.enum_label.toNat < cv.length ∧
        cv[d.enum_label.toNat]? = some 1 ∧
        ∀ i : Nat, i < cv.length → i ≠ d.enum_label.toNat → cv[i]? = some 0 := by
  obtain ⟨m, hcount⟩ := data_handler.count_classes_eq self hfresh
  generalize hlabels : self.data_array.map data.get_label = labels at hcount
  refine ⟨_, hcount, ?_, ?_, rfl, ?_, ?_⟩
  · simp
  · simp only [List.map_map]
    apply List.map_congr_left
    intro d _
    rfl
  · simp only [List.map_map]
    apply List.map_congr_left
    intro d _
    rfl
  intro d hd
  simp only at hd
  obtain ⟨d0, hd0, rfl⟩ := List.mem_map.mp hd
  have hmem : d0.get_label ∈ labels := by
    rw [← hlabels]
    exact List.mem_map_of_mem data.get_label hd0
  have hlt := first_appearance_rank_lt labels d0.get_label hmem
  refine ⟨data_handler.one_hot (labels.toFinset.card : Int)
    (first_appearance_rank labels d0.get_label : Int), rfl, ?_, Int.ofNat_nonneg _, ?_, ?_, ?_⟩
  · simp [data_handler.one_hot]
  · simp only [data_handler.one_hot, List.length_set, List.length_replicate, Int.toNat_ofNat]
    exact hlt
  · simp only [data_handler.one_hot, Int.toNat_ofNat]
    rw [List.getElem?_set_self]
    simpa using hlt
  · intro i hi hne
    simp only [data_handler.one_hot, Int.toNat_ofNat, List.length_set,
      List.length_replicate] at hi hne ⊢
    rw [List.getElem?_set_ne (Ne.symm hne), List.getElem?_replicate]
    simp [hi]

/-- Instance of `count_classes_one_hot`: four records with the raw labels 5, 3, 5, 7,
which get the class vectors `[1, 0, 0]`, `[0, 1, 0]`, `[1, 0, 0]` and `[0, 0, 1]`. -/
theorem count_classes_one_hot_witness :
    labelled_handler.classFromInt = [] ∧
    (data_handler.count_classes labelled_handler).map
        (fun self1 => (self1.class_counts, self1.data_array.map data.class_vector)) =
      some (3, [some [1, 0, 0], some [0, 1, 0], some [1, 0, 0], some [0, 0, 1]]) ∧
    ∃ self1 : data_handler,
      data_handler.count_classes labelled_handler = some self1 ∧
      self1.data_array.length = labelled_handler.data_array.length ∧
      self1.data_array.map
          (fun d => (d.feature_vector, d.normalized_feature_vector, d.label, d.distance)) =
        labelled_handler.data_array.map
          (fun d => (d.feature_vector, d.normalized_feature_vector, d.label, d.distance)) ∧
      self1.class_counts =
        ((labelled_handler.data_array.map data.get_label).toFinset.card : Int) ∧
      self1.data_array.map data.class_vector =
        labelled_handler.data_array.map (fun d => some (data_handler.one_hot
          ((labelled_handler.data_array.map data.get_label).toFinset.card : Int)
          (first_appearance_rank (labelled_handler.data_array.map data.get_label)
            d.get_label : Int))) ∧
      ∀ d ∈ self1.data_array, ∃ cv : List Int, d.class_vector = some cv ∧
        (cv.length : Int) = self1.class_counts ∧
        0 ≤ d.enum_label ∧ d.enum_label.toNat < cv.length ∧
        cv[d.enum_label.toNat]? = some 1 ∧
        ∀ i : Nat, i < cv.length → i ≠ d.enum_label.toNat → cv[i]? = some 0 :=
  ⟨rfl, by decide, count_classes_one_hot labelled_handler rfl⟩

/-! ## `normalize`: C19 and C20 -/

/-- C19, the code at the failing input. For two records with the bytes 2 and 4 in their
one dimension, the first pass of `normalize` leaves `mean = 5/2` and `M2 = 13/2`, where
the mean is 3 and the sum of the squared deviations from the mean is 2; the divisor is
the square root of `13/2` (or 1 if that is 0), and the two normalized values, `-1/2`
and `3/2` over the divisor, do not sum to 0. -/
theorem normalize_statistics_failing_input (L : StdLib) :
    data_handler.statistics two_values_handler = some ([5 / 2], [13 / 2]) ∧
    ((2 : ℚ) + 4) / 2 = 3 ∧ ((2 : ℚ) - 3) ^ 2 + (4 - 3) ^ 2 = 2 ∧
    data_handler.standard_deviation L 2 [13 / 2] = [L.sqrt (13 / 2)] ∧
    (data_handler.normalize L two_values_handler).map
        (fun r => r.1.data_array.map data.normalized_feature_vector) =
      some [some [(-1 / 2) / (if L.sqrt (13 / 2) = 0 then 1 else L.sqrt (13 / 2))],
        some [(3 / 2) / (if L.sqrt (13 / 2) = 0 then 1 else L.sqrt (13 / 2))]] ∧
    (-1 / 2) / (if L.sqrt (13 / 2) = 0 then 1 else L.sqrt (13 / 2)) +
      (3 / 2) / (if L.sqrt (13 / 2) = 0 then 1 else L.sqrt (13 / 2)) ≠ 0 := by
  have hstat : data_handler.statistics two_values_handler = some ([5 / 2], [13 / 2]) := by
    simp [two_values_handler, fresh_handler, raw_record, data_handler.statistics,
      data_handler.statistics_pass, data_handler.statistics_record, data.get_feature_vector]
    norm_num
  have hstd : data_handler.standard_deviation L 2 [13 / 2] = [L.sqrt (13 / 2)] := by
    simp [data_handler.standard_deviation]
  refine ⟨hstat, by norm_num, by norm_num, hstd, ?_, ?_⟩
  · have hlen : two_values_handler.data_array.length = 2 := rfl
    simp only [data_handler.normalize, hlen, hstat, hstd, OfNat.ofNat_ne_zero, if_false,
      Option.bind_eq_bind, Option.some_bind]
    simp [two_values_handler, fresh_handler, raw_record, data_handler.normalize_records,
      data_handler.normalized_vector, data_handler.replace_zero, data.get_feature_vector,
      data.set_normalized_feature_vector]
    norm_num
  · have hs : (if L.sqrt (13 / 2) = 0 then (1 : ℚ) else L.sqrt (13 / 2)) ≠ 0 := by
      split
      · exact one_ne_zero
      · assumption
    rw [← add_div]
    norm_num
    exact hs

/-- C20, the code at the failing input. For two records with the byte 4 in their one
dimension, the first pass of `normalize` leaves `mean = 3` and `M2 = 10`, so the standard
deviation is the square root of 10 and not 0; the divisor is this square root (1 only if
it were 0), and the normalized value of both records is `(4 - 3)` over the divisor. -/
theorem normalize_constant_feature_failing_input (L : StdLib) :
    data_handler.statistics constant_feature_handler = some ([3], [10]) ∧
    data_handler.standard_deviation L 2 [10] = [L.sqrt 10] ∧
    data_handler.replace_zero [L.sqrt 10] = [if L.sqrt 10 = 0 then 1 else L.sqrt 10] ∧
    (data_handler.normalize L constant_feature_handler).map
        (fun r => r.1.data_array.map data.normalized_feature_vector) =
      some [some [(4 - 3) / (if L.sqrt 10 = 0 then 1 else L.sqrt 10)],
        some [(4 - 3) / (if L.sqrt 10 = 0 then 1 else L.sqrt 10)]] := by
  have hstat : data_handler.statistics constant_feature_handler = some ([3], [10]) := by
    simp [constant_feature_handler, fresh_handler, raw_record, data_handler.statistics,
      data_handler.statistics_pass, data_handler.statistics_record, data.get_feature_vector]
    norm_num
  have hstd : data_handler.standard_deviation L 2 [10] = [L.sqrt 10] := by
    simp [data_handler.standard_deviation]
  refine ⟨hstat, hstd, by simp [data_handler.replace_zero], ?_⟩
  have hlen : constant_feature_handler.data_array.length = 2 := rfl
  simp only [data_handler.normalize, hlen, hstat, hstd, OfNat.ofNat_ne_zero, if_false,
    Option.bind_eq_bind, Option.some_bind]
  simp [constant_feature_handler, fresh_handler, raw_record, data_handler.normalize_records,
    data_handler.normalized_vector, data_handler.replace_zero, data.get_feature_vector,
    data.set_normalized_feature_vector]

/-! ## `normalize` without data: C21 -/

/-- C21, counterexample. On a handler whose `data_array` is empty, `normalize` does not
fail: it returns to its caller, with the handler as it was and the one line
"No data to normalize." on `std::cerr`. -/
theorem normalize_empty_counterexample :
    data_handler.normalize libstdcxx empty_handler ≠ none ∧
    data_handler.normalize libstdcxx empty_handler =
      some (empty_handler, [HandlerOutput.cerr "No data to normalize."]) := by
  have h : data_handler.normalize libstdcxx empty_handler =
      some (empty_handler, [HandlerOutput.cerr "No data to normalize."]) :=
    data_handler.normalize_of_empty libstdcxx empty_handler rfl
  exact ⟨by rw [h]; exact Option.some_ne_none _, h⟩

/-- C21, amended. On an empty `data_array`, whatever the other members hold, `normalize`
returns normally: the object is unchanged (no record of a partition gets a normalized
vector, no member is set), and the output is the one line "No data to normalize." on
`std::cerr`, without the completion line on `std::cout`. -/
theorem normalize_empty_returns (L : StdLib) (self : data_handler)
    (hempty : self.data_array = []) :
    ∃ out : List HandlerOutput, data_handler.normalize L self = some (self, out) ∧
      out = [HandlerOutput.cerr "No data to normalize."] ∧
      HandlerOutput.cout "Data normalization completed successfully." ∉ out := by
  refine ⟨_, data_handler.normalize_of_empty L self hempty, rfl, ?_⟩
  simp

/-- Instance of `normalize_empty_returns`: a handler after a split, with three
training records and one validation record. -/
theorem normalize_empty_returns_witness :
    split_handler.data_array = [] ∧
    ∃ out : List HandlerOutput,
      data_handler.normalize libstdcxx split_handler = some (split_handler, out) ∧
      out = [HandlerOutput.cerr "No data to normalize."] ∧
      HandlerOutput.cout "Data normalization completed successfully." ∉ out :=
  ⟨rfl, normalize_empty_returns libstdcxx split_handler rfl⟩

/-! ## The divisors of `normalize`: C22 -/

/-- C22. On every non-empty `data_array`, with the loops run in sequence in exact
arithmetic: the divisor `n` of the first pass is not 0; whenever the first pass returns
`mean` and `M2`, no entry of `M2` is negative, the square root is taken only for
`n ≥ 2`, of the quotient of an entry of `M2` by `n - 1`, where `n - 1` is not 0 and the
quotient is not negative; no divisor of the last pass is 0, since the divisor of an
index is 1 where the standard deviation is 0 and the standard deviation elsewhere, and
for `n < 2` every divisor is 1; and `normalize` is the last pass with these divisors.
When `feature_vector_size` is not negative and every record has that many bytes,
`normalize` returns, and every entry of every normalized vector is the byte minus the
mean of its index, over a divisor that is not 0. -/
theorem normalize_divisors (L : StdLib) (self : data_handler) (hne : self.data_array ≠ []) :
    ((self.data_array.length : ℕ) : ℚ) ≠ 0 ∧
    (∀ mean M2 : List ℚ, self.statistics = some (mean, M2) →
      (∀ s ∈ M2, 0 ≤ s) ∧
      (¬ self.data_array.length < 2 →
        ((self.data_array.length - 1 : ℕ) : ℚ) ≠ 0 ∧
        ∀ s ∈ M2, 0 ≤ s / ((self.data_array.length - 1 : ℕ) : ℚ)) ∧
      (∀ s ∈ data_handler.replace_zero
          (data_handler.standard_deviation L self.data_array.length M2), s ≠ 0) ∧
      (∀ (j : ℕ) (s : ℚ),
        (data_handler.standard_deviation L self.data_array.length M2)[j]? = some s →
        (data_handler.replace_zero
          (data_handler.standard_deviation L self.data_array.length M2))[j]? =
          some (if s = 0 then 1 else s)) ∧
      (self.data_array.length < 2 →
        data_handler.replace_zero
          (data_handler.standard_deviation L self.data_array.length M2) =
          List.replicate M2.length 1) ∧
      data_handler.normalize L self =
        (data_handler.normalize_records self.feature_vector_size.toNat mean
          (data_handler.replace_zero
            (data_handler.standard_deviation L self.data_array.length M2))
          self.data_array).map
          (fun arr => ({ self with data_array := arr },
            data_handler.zero_deviation_output 0
                (data_handler.standard_deviation L self.data_array.length M2) ++
              [HandlerOutput.cout "Data normalization completed successfully."]))) ∧
    (0 ≤ self.feature_vector_size →
      (∀ d ∈ self.data_array, self.feature_vector_size.toNat ≤ d.feature_vector.length) →
      ∃ (mean M2 : List ℚ) (self1 : data_handler) (out : List HandlerOutput),
        self.statistics = some (mean, M2) ∧
        M2.length = self.feature_vector_size.toNat ∧
        data_handler.normalize L self = some (self1, out) ∧
        self1.data_array.length = self.data_array.length ∧
        ∀ d ∈ self1.data_array, ∃ d0 ∈ self.data_array, ∃ v : List ℚ,
          d = d0.set_normalized_feature_vector v ∧
          v.length = self.feature_vector_size.toNat ∧
          ∀ t : ℕ, t < self.feature_vector_size.toNat → ∃ (byte : ℕ) (m s : ℚ),
            d0.feature_vector[t]? = some byte ∧ mean[t]? = some m ∧
            (data_handler.replace_zero
              (data_handler.standard_deviation L self.data_array.length M2))[t]? = some s ∧
            s ≠ 0 ∧ v[t]? = some (((byte : ℚ) - m) / s)) := by
  have hn : 1 ≤ self.data_array.length := List.length_pos.mpr hne
  refine ⟨?_, ?_, ?_⟩
  · have h : (0 : ℚ) < ((self.data_array.length : ℕ) : ℚ) := by exact_mod_cast hn
    exact ne_of_gt h
  · intro mean M2 hstat
    have hnn := data_handler.statistics_nonneg self hne mean M2 hstat
    refine ⟨hnn, ?_, data_handler.replace_zero_ne_zero _, ?_, ?_,
      data_handler.normalize_of_statistics L self hne mean M2 hstat⟩
    · intro h2
      have hpos : (0 : ℚ) < ((self.data_array.length - 1 : ℕ) : ℚ) := by
        have h1 : 0 < self.data_array.length - 1 := by omega
        exact_mod_cast h1
      exact ⟨ne_of_gt hpos, fun s hs => div_nonneg (hnn s hs) (le_of_lt hpos)⟩
    · intro j s hs
      rw [data_handler.replace_zero_getElem?, hs]
      rfl
    · intro h2
      exact data_handler.replace_zero_of_few L _ h2 M2
  · intro hsize hrec
    obtain ⟨mean, M2, arr, hstat, hlm, hlM, _, _, hlen, hspec, hnorm⟩ :=
      data_handler.normalize_spec L self hne hsize hrec
    refine ⟨mean, M2, _, _, hstat, hlM, hnorm, hlen, ?_⟩
    intro d hd
    obtain ⟨d0, hd0, v, hv, hdv⟩ := hspec d hd
    have hent := data_handler.normalized_vector_entries d0.get_feature_vector mean
      (data_handler.replace_zero (data_handler.standard_deviation L self.data_array.length M2))
      self.feature_vector_size.toNat (hrec d0 hd0) (by omega)
      (by rw [data_handler.replace_zero_length, data_handler.standard_deviation_length]; omega)
      v hv
    refine ⟨d0, hd0, v, hdv, hent.1, ?_⟩
    intro t ht
    obtain ⟨byte, m, s, hb, hm, hs, hvt⟩ := hent.2 t ht
    exact ⟨byte, m, s, hb, hm, hs,
      data_handler.replace_zero_ne_zero _ s (List.getElem?_mem hs), hvt⟩

/-- Instance of `normalize_divisors`: two records with two features each, the first
feature 0 in both; the first pass leaves `mean = [0, 13/4]` and `M2 = [0, 85/8]`. -/
theorem normalize_divisors_witness :
    zero_column_handler.data_array ≠ [] ∧
    0 ≤ zero_column_handler.feature_vector_size ∧
    (∀ d ∈ zero_column_handler.data_array,
      zero_column_handler.feature_vector_size.toNat ≤ d.feature_vector.length) ∧
    zero_column_handler.statistics = some ([0, 13 / 4], [0, 85 / 8]) ∧
    (((zero_column_handler.data_array.length : ℕ) : ℚ) ≠ 0 ∧
    (∀ mean M2 : List ℚ, zero_column_handler.statistics = some (mean, M2) →
      (∀ s ∈ M2, 0 ≤ s) ∧
      (¬ zero_column_handler.data_array.length < 2 →
        ((zero_column_handler.data_array.length - 1 : ℕ) : ℚ) ≠ 0 ∧
        ∀ s ∈ M2, 0 ≤ s / ((zero_column_handler.data_array.length - 1 : ℕ) : ℚ)) ∧
      (∀ s ∈ data_handler.replace_zero
          (data_handler.standard_deviation libstdcxx
            zero_column_handler.data_array.length M2), s ≠ 0) ∧
      (∀ (j : ℕ) (s : ℚ),
        (data_handler.standard_deviation libstdcxx
            zero_column_handler.data_array.length M2)[j]? = some s →
        (data_handler.replace_zero
          (data_handler.standard_deviation libstdcxx
            zero_column_handler.data_array.length M2))[j]? =
          some (if s = 0 then 1 else s)) ∧
      (zero_column_handler.data_array.length < 2 →
        data_handler.replace_zero
          (data_handler.standard_deviation libstdcxx
            zero_column_handler.data_array.length M2) =
          List.replicate M2.length 1) ∧
      data_handler.normalize libstdcxx zero_column_handler =
        (data_handler.normalize_records zero_column_handler.feature_vector_size.toNat mean
          (data_handler.replace_zero
            (data_handler.standard_deviation libstdcxx
            zero_column_handler.data_array.length M2))
          zero_column_handler.data_array).map
          (fun arr => ({ zero_column_handler with data_array := arr },
            data_handler.zero_deviation_output 0
                (data_handler.standard_deviation libstdcxx
            zero_column_handler.data_array.length M2) ++
              [HandlerOutput.cout "Data normalization completed successfully."]))) ∧
    (0 ≤ zero_column_handler.feature_vector_size →
      (∀ d ∈ zero_column_handler.data_array,
        zero_column_handler.feature_vector_size.toNat ≤ d.feature_vector.length) →
      ∃ (mean M2 : List ℚ) (self1 : data_handler) (out : List HandlerOutput),
        zero_column_handler.statistics = some (mean, M2) ∧
        M2.length = zero_column_handler.feature_vector_size.toNat ∧
        data_handler.normalize libstdcxx zero_column_handler = some (self1, out) ∧
        self1.data_array.length = zero_column_handler.data_array.length ∧
        ∀ d ∈ self1.data_array, ∃ d0 ∈ zero_column_handler.data_array, ∃ v : List ℚ,
          d = d0.set_normalized_feature_vector v ∧
          v.length = zero_column_handler.feature_vector_size.toNat ∧
          ∀ t : ℕ, t < zero_column_handler.feature_vector_size.toNat → ∃ (byte : ℕ) (m s : ℚ),
            d0.feature_vector[t]? = some byte ∧ mean[t]? = some m ∧
            (data_handler.replace_zero
              (data_handler.standard_deviation libstdcxx
            zero_column_handler.data_array.length M2))[t]? = some s ∧
            s ≠ 0 ∧ v[t]? = some (((byte : ℚ) - m) / s))) := by
  have hstat : zero_column_handler.statistics = some ([0, 13 / 4], [0, 85 / 8]) := by
    simp [zero_column_handler, fresh_handler, raw_record, data_handler.statistics,
      data_handler.statistics_pass, data_handler.statistics_record, data.get_feature_vector]
    norm_num
  refine ⟨by simp [zero_column_handler, fresh_handler], by decide, ?_, hstat,
    normalize_divisors libstdcxx zero_column_handler (by simp [zero_column_handler, fresh_handler])⟩
  intro d hd
  simp only [zero_column_handler, fresh_handler, List.mem_cons, List.mem_singleton,
    List.not_mem_nil, or_false] at hd
  rcases hd with h | h <;> rw [h] <;> decide

/-! ## `normalize` and `split_data`: C23 -/

/-- C23, counterexample. Four records are split, in their order, into three training
records, no test record and one validation record, and `data_array` is empty; `normalize`
then returns with the handler as it was and the line "No data to normalize.", and no
record of the training partition has a normalized vector. -/
theorem normalize_after_split_counterexample :
    ∃ self1 : data_handler,
      data_handler.split_data id four_records_handler = some self1 ∧
      self1.data_array = [] ∧
      self1.training_data = [raw_record [2] 0, raw_record [4] 1, raw_record [6] 0] ∧
      data_handler.normalize libstdcxx self1 =
        some (self1, [HandlerOutput.cerr "No data to normalize."]) ∧
      ∀ d ∈ self1.training_data, d.normalized_feature_vector = none := by
  refine ⟨_, data_handler.split_data_eq id (fun l => List.Perm.refl l) four_records_handler,
    rfl, rfl, data_handler.normalize_of_empty _ _ rfl, ?_⟩
  intro d hd
  have hd1 : d ∈ [raw_record [2] 0, raw_record [4] 1, raw_record [6] 0] := hd
  simp only [List.mem_cons, List.mem_singleton, List.not_mem_nil, or_false] at hd1
  rcases hd1 with h | h | h <;> rw [h] <;> rfl

/-- C23, amended. `normalize` works on `data_array`, the store of the records before the
split. For a non-empty dataset with no partition filled before: called after
`split_data`, `normalize` finds `data_array` empty, writes "No data to normalize." and
returns with the handler as it was, so the records of the partitions are the records
of the dataset, unchanged, and have no normalized vector if they had none; called
before `split_data`, it returns, and every record of the three partitions that
`split_data` then builds is a record of the dataset with its normalized vector set,
computed with the mean and the divisors of the whole dataset. -/
theorem normalize_before_split (L : StdLib) (shuffle : List data → List data)
    (hshuffle : ∀ l, (shuffle l).Perm l) (self : data_handler)
    (hne : self.data_array ≠ []) (hsize : 0 ≤ self.feature_vector_size)
    (hrec : ∀ d ∈ self.data_array, self.feature_vector_size.toNat ≤ d.feature_vector.length)
    (htraining : self.training_data = []) (htest : self.test_data = [])
    (hvalidation : self.validation_data = []) :
    (∃ self1 : data_handler, data_handler.split_data shuffle self = some self1 ∧
      self1.data_array = [] ∧
      (self1.training_data ++ self1.test_data ++ self1.validation_data).Perm
        self.data_array ∧
      data_handler.normalize L self1 =
        some (self1, [HandlerOutput.cerr "No data to normalize."]) ∧
      ((∀ d ∈ self.data_array, d.normalized_feature_vector = none) →
        ∀ d ∈ self1.training_data ++ self1.test_data ++ self1.validation_data,
          d.normalized_feature_vector = none)) ∧
    (∃ (mean M2 : List ℚ) (self2 : data_handler) (out : List HandlerOutput)
        (self3 : data_handler),
      self.statistics = some (mean, M2) ∧
      data_handler.normalize L self = some (self2, out) ∧
      self2.data_array.length = self.data_array.length ∧
      data_handler.split_data shuffle self2 = some self3 ∧
      (self3.training_data ++ self3.test_data ++ self3.validation_data).Perm
        self2.data_array ∧
      ∀ d ∈ self3.training_data ++ self3.test_data ++ self3.validation_data,
        ∃ d0 ∈ self.data_array, ∃ v : List ℚ,
          data_handler.normalized_vector d0.get_feature_vector mean
            (data_handler.replace_zero
              (data_handler.standard_deviation L self.data_array.length M2))
            self.feature_vector_size.toNat 0 = some v ∧
          d = d0.set_normalized_feature_vector v ∧
          d.normalized_feature_vector = some v) := by
  constructor
  · obtain ⟨self1, hsplit, hempty, hperm⟩ :=
      data_handler.split_data_perm shuffle hshuffle self htraining htest hvalidation
    refine ⟨self1, hsplit, hempty, hperm, data_handler.normalize_of_empty L self1 hempty, ?_⟩
    intro hnone d hd
    exact hnone d (hperm.subset hd)
  · obtain ⟨mean, M2, arr, hstat, _, _, _, _, hlen, hspec, hnorm⟩ :=
      data_handler.normalize_spec L self hne hsize hrec
    obtain ⟨self3, hsplit, _, hperm⟩ :=
      data_handler.split_data_perm shuffle hshuffle { self with data_array := arr }
        htraining htest hvalidation
    refine ⟨mean, M2, _, _, self3, hstat, hnorm, hlen, hsplit, hperm, ?_⟩
    intro d hd
    obtain ⟨d0, hd0, v, hv, hdv⟩ := hspec d (hperm.subset hd)
    exact ⟨d0, hd0, v, hv, hdv, by rw [hdv]; rfl⟩

/-- Instance of `normalize_before_split`: four records with one feature each, and the
shuffle that reverses the vector. -/
theorem normalize_before_split_witness :
    (∀ l : List data, (List.reverse l).Perm l) ∧
    four_records_handler.data_array ≠ [] ∧
    0 ≤ four_records_handler.feature_vector_size ∧
    (∀ d ∈ four_records_handler.data_array,
      four_records_handler.feature_vector_size.toNat ≤ d.feature_vector.length) ∧
    four_records_handler.training_data = [] ∧
    four_records_handler.test_data = [] ∧
    four_records_handler.validation_data = [] ∧
    ((∃ self1 : data_handler,
      data_handler.split_data List.reverse four_records_handler = some self1 ∧
      self1.data_array = [] ∧
      (self1.training_data ++ self1.test_data ++ self1.validation_data).Perm
        four_records_handler.data_array ∧
      data_handler.normalize libstdcxx self1 =
        some (self1, [HandlerOutput.cerr "No data to normalize."]) ∧
      ((∀ d ∈ four_records_handler.data_array, d.normalized_feature_vector = none) →
        ∀ d ∈ self1.training_data ++ self1.test_data ++ self1.validation_data,
          d.normalized_feature_vector = none)) ∧
    (∃ (mean M2 : List ℚ) (self2 : data_handler) (out : List HandlerOutput)
        (self3 : data_handler),
      four_records_handler.statistics = some (mean, M2) ∧
      data_handler.normalize libstdcxx four_records_handler = some (self2, out) ∧
      self2.data_array.length = four_records_handler.data_array.length ∧
      data_handler.split_data List.reverse self2 = some self3 ∧
      (self3.training_data ++ self3.test_data ++ self3.validation_data).Perm
        self2.data_array ∧
      ∀ d ∈ self3.training_data ++ self3.test_data ++ self3.validation_data,
        ∃ d0 ∈ four_records_handler.data_array, ∃ v : List ℚ,
          data_handler.normalized_vector d0.get_feature_vector mean
            (data_handler.replace_zero
              (data_handler.standard_deviation libstdcxx
                four_records_handler.data_array.length M2))
            four_records_handler.feature_vector_size.toNat 0 = some v ∧
          d = d0.set_normalized_feature_vector v ∧
          d.normalized_feature_vector = some v)) := by
  have hrec : ∀ d ∈ four_records_handler.data_array,
      four_records_handler.feature_vector_size.toNat ≤ d.feature_vector.length := by
    intro d hd
    simp only [four_records_handler, fresh_handler, List.mem_cons, List.mem_singleton,
      List.not_mem_nil, or_false] at hd
    rcases hd with h | h | h | h <;> rw [h] <;> decide
  exact ⟨fun l => List.reverse_perm l, by simp [four_records_handler, fresh_handler],
    by decide, hrec, rfl, rfl, rfl,
    normalize_before_split libstdcxx List.reverse (fun l => List.reverse_perm l)
      four_records_handler (by simp [four_records_handler, fresh_handler]) (by decide) hrec
      rfl rfl rfl⟩
